import Mathlib

/-!
Verification of the shape-polymorphic array-transformation engine
(`src/algorithm/dyadic/mod.rs`, `src/algorithm/dyadic/structure.rs`).

Arrays are embedded as a shape (list of dimension sizes, outermost first)
paired with a flat row-major data list.  Fallible operations return
`Except String`.  The ambient fill context is embedded as an `Option`
argument.  Machine `usize`/`isize` become `Nat`/`Int`; the one place the
source uses `f32` (`derive_shape`'s placeholder resolution) is embedded by
an explicit round-to-nearest-even-at-24-bits model.
-/

instance {ε α : Type} [DecidableEq ε] [DecidableEq α] : DecidableEq (Except ε α)
  | .ok a, .ok b => decidable_of_iff (a = b) (by simp)
  | .error a, .error b => decidable_of_iff (a = b) (by simp)
  | .ok _, .error _ => isFalse (by simp)
  | .error _, .ok _ => isFalse (by simp)

namespace Uiua

/-- Embeds `Array<T>`: a shape and a flat row-major data buffer. -/
structure Arr (α : Type) where
  shape : List Nat
  data : List α
deriving DecidableEq

namespace Arr

/-- Embeds `Array::rank`: the number of axes. -/
def rank (a : Arr α) : Nat := a.shape.length

/-- Embeds `Array::row_count`: `shape.first().copied().unwrap_or(1)`. -/
def row_count (a : Arr α) : Nat := a.shape.headD 1

/-- Embeds `Array::row_len`: product of all but the leading dimension. -/
def row_len (a : Arr α) : Nat := (a.shape.drop 1).prod

/-- Embeds `Array::element_count`: the length of the backing buffer. -/
def element_count (a : Arr α) : Nat := a.data.length

/-- The live-array invariant from the spec: `buffer.length == product(shape)`. -/
def valid (a : Arr α) : Prop := a.data.length = a.shape.prod

instance (a : Arr α) : Decidable a.valid :=
  decidable_of_iff (a.data.length = a.shape.prod) Iff.rfl

end Arr

/-! ### Generic list helpers used by the embedding -/

/-- Splits `l` into `n` chunks of `size` elements each
(the embedding of `chunks_mut`/`chunks_exact` iteration at the
call sites below, which always pass the chunk count the slice
iteration would produce). -/
def chunks (n size : Nat) (l : List α) : List (List α) :=
  (List.range n).map fun i => (l.drop (i * size)).take size

/-- Row slices of an array: `row_count` chunks of `row_len` elements
(embeds `Array::row_slices`). -/
def Arr.row_slices (a : Arr α) : List (List α) :=
  chunks a.row_count a.row_len a.data

/-- Rows of an array, as arrays of one lower rank (embeds `Array::rows`). -/
def Arr.rows (a : Arr α) : List (Arr α) :=
  a.row_slices.map fun d => ⟨a.shape.drop 1, d⟩

/-- Row-major flat index of the multi-index `idx` in `shape`: the
`src_index`/`stride` accumulation loops of `windows` and `find`. -/
def flatIdx (shape idx : List Nat) : Nat :=
  ((shape.zip idx).foldr (fun p acc => (acc.1 + p.2 * acc.2, acc.2 * p.1)) (0, 1)).1

/-- All multi-indices below the given radices, in row-major order
(rightmost position fastest): the corner/item enumeration order of the
`windows` and `find` loops. -/
def enumIdx : List Nat → List (List Nat)
  | [] => [[]]
  | r :: rs => (List.range r).flatMap fun i => (enumIdx rs).map (i :: ·)

/-! ### Modelled collaborators from `array.rs` (not under `src/`)

The repository's `Array` plumbing (`array.rs`) is not among the provided
source files; the combinators below are modelled from the spec. -/

/-- Modelled from the spec: `Array::from_row_arrays` (missing `array.rs`)
stacks rows along a new leading axis; all rows must share one shape. -/
def from_row_arrays (rows : List (Arr α)) : Except String (Arr α) :=
  match rows with
  | [] => .ok ⟨[0], []⟩
  | r :: rs =>
    if ∀ s ∈ rs, s.shape = r.shape then
      .ok ⟨(rs.length + 1) :: r.shape, (r :: rs).flatMap (·.data)⟩
    else .error "Cannot combine arrays with different shapes"

/-- Modelled from the spec: `Array::from_row_arrays_infallible` (missing
`array.rs`) stacks rows along a new leading axis without checking; callers
guarantee all rows share the first row's shape. -/
def from_row_arrays_infallible (rows : List (Arr α)) : Arr α :=
  match rows with
  | [] => ⟨[0], []⟩
  | r :: rs => ⟨(rs.length + 1) :: r.shape, (r :: rs).flatMap (·.data)⟩

/-- Modelled from the spec: `Array::join` (missing `array.rs`) concatenates
along the leading axis; a value whose rank is one lower is appended as a
single row. -/
def joinArr (a b : Arr α) : Except String (Arr α) :=
  if a.shape.length + 1 = b.shape.length ∧ a.shape = b.shape.drop 1 then
    .ok ⟨(1 + b.shape.headD 1) :: b.shape.drop 1, a.data ++ b.data⟩
  else if b.shape.length + 1 = a.shape.length ∧ b.shape = a.shape.drop 1 then
    .ok ⟨(a.shape.headD 1 + 1) :: a.shape.drop 1, a.data ++ b.data⟩
  else if a.shape.length = b.shape.length ∧ a.shape.drop 1 = b.shape.drop 1 then
    .ok ⟨(a.shape.headD 1 + b.shape.headD 1) :: a.shape.drop 1, a.data ++ b.data⟩
  else .error "Cannot join arrays of incompatible shapes"

/-- Modelled from the spec: `Array::fill_to_shape` (missing `array.rs`)
pads an array out to a target shape, materializing missing cells with the
fill value (axis by axis, existing cells first). -/
def fill_to_shape (fill : α) : List Nat → Arr α → Arr α
  | [], a => a
  | t :: ts, a =>
    let rows := (a.rows.map (fill_to_shape fill ts)).take t
    let padded := rows ++ List.replicate (t - rows.length) ⟨ts, List.replicate ts.prod fill⟩
    ⟨t :: ts, padded.flatMap (·.data)⟩

/-! ### A model of `f32` for `derive_shape`

The function `derive_shape` computes the placeholder dimension with `f32`
arithmetic: `(if has_fill { f32::ceil } else { f32::floor })(data_len as f32
/ other_len as f32) as usize`.  We model `f32` as round-to-nearest-even at
24 significand bits, ignoring exponent overflow/underflow (unreachable for
the sizes appearing in the theorems below).  All definitions are
`Nat`-computable so concrete instances kernel-reduce. -/

/-- Fuelled base-2 logarithm: `nlog2Go f n` is the floor log when `1 ≤ n ≤ f`. -/
def nlog2Go : Nat → Nat → Nat
  | 0, _ => 0
  | f + 1, n => if n ≤ 1 then 0 else nlog2Go f (n / 2) + 1

/-- Floor base-2 logarithm (0 for `n = 0`), by structural recursion so it
kernel-reduces. -/
def nlog2 (n : Nat) : Nat := nlog2Go n n

/-- Round-half-even of the rational `a / b` to an integer (`b > 0`). -/
def rheNat (a b : Nat) : Nat :=
  let q := a / b
  let r := a % b
  if 2 * r < b then q
  else if b < 2 * r then q + 1
  else if q % 2 = 0 then q else q + 1

/-- Decides `2 ^ e ≤ x / y` by cross-multiplication (`x, y ≥ 1`). -/
def le2pow (e : Int) (x y : Nat) : Bool :=
  if 0 ≤ e then 2 ^ e.toNat * y ≤ x else y ≤ x * 2 ^ (-e).toNat

/-- Binade of `x / y`: the unique `e` with `2 ^ e ≤ x / y < 2 ^ (e + 1)`
(for `x, y ≥ 1`). -/
def qlog2Pair (x y : Nat) : Int :=
  let e0 : Int := (nlog2 x : Int) - (nlog2 y : Int)
  if le2pow e0 x y then e0 else e0 - 1

/-- Conversion `usize as f32`: exact below `2²⁴`, else rounded to 24
significand bits (round half to even). -/
def toF32nat (n : Nat) : Nat :=
  if n < 2 ^ 24 then n
  else
    let keep := nlog2 n - 23
    rheNat n (2 ^ keep) * 2 ^ keep

/-- Embeds `derive_len` of `derive_shape`:
`(if has_fill { f32::ceil } else { f32::floor })(data_len as f32 / other_len as f32) as usize`,
under the 24-bit rounding model (`other_len` is nonzero at every call site). -/
def derive_len (has_fill : Bool) (data_len other_len : Nat) : Nat :=
  if data_len = 0 ∨ other_len = 0 then 0
  else
    let x := toF32nat data_len
    let y := toF32nat other_len
    let e := qlog2Pair x y
    let m := if e ≤ 23 then rheNat (x * 2 ^ (23 - e).toNat) y
             else rheNat x (y * 2 ^ (e - 23).toNat)
    if 23 ≤ e then m * 2 ^ (e - 23).toNat
    else if has_fill then (m + 2 ^ (23 - e).toNat - 1) / 2 ^ (23 - e).toNat
    else m / 2 ^ (23 - e).toNat

/-! ### Reshape / rerank (`dyadic/mod.rs`) -/

/-- Embeds `derive_shape`: resolves at most one negative placeholder in the
target dimension list against the input shape's element count. -/
def derive_shape (shape : List Nat) (dims : List Int) (has_fill : Bool) :
    Except String (List Nat) :=
  let neg_count := (dims.filter (· < 0)).length
  if neg_count = 0 then .ok (dims.map Int.toNat)
  else if neg_count = 1 then
    match dims with
    | [] => .error "unreachable: a negative dimension exists"
    | d0 :: rest =>
      if d0 < 0 then
        if rest.any (· < 0) then
          .error "Cannot reshape array with multiple negative dimensions"
        else
          let shape_non_leading_len := (rest.prod).toNat
          if shape_non_leading_len = 0 then
            .error "Cannot reshape array with any 0 non-leading dimensions"
          else
            .ok (derive_len has_fill shape.prod shape_non_leading_len ::
                  rest.map Int.toNat)
      else if (d0 :: rest).getLast (List.cons_ne_nil d0 rest) < 0 then
        if (d0 :: rest).dropLast.any (· < 0) then
          .error "Cannot reshape array with multiple negative dimensions"
        else
          let shape_non_trailing_len := ((d0 :: rest).dropLast.prod).toNat
          if shape_non_trailing_len = 0 then
            .error "Cannot reshape array with any 0 non-trailing dimensions"
          else
            .ok ((d0 :: rest).dropLast.map Int.toNat ++
                  [derive_len has_fill shape.prod shape_non_trailing_len])
      else
        let neg_index := dims.findIdx (fun d => decide (d < 0))
        let front := dims.take neg_index
        let back := dims.drop (neg_index + 1)
        let front_len := front.prod.toNat
        let back_len := back.prod.toNat
        if front_len = 0 ∨ back_len = 0 then
          .error "Cannot reshape array with any 0 outer dimensions"
        else
          .ok (front.map Int.toNat ++
                derive_len has_fill shape.prod (front_len * back_len) ::
                back.map Int.toNat)
  else .error "Cannot reshape array with multiple negative dimensions"

/-- Embeds `Array::reshape_scalar`: replicate the whole array as `count`
new leading rows (`count = 0` clears the data; the shape always gains a
leading `count` axis). -/
def Arr.reshape_scalar (count : Nat) (a : Arr α) : Arr α :=
  ⟨count :: a.shape, (List.replicate count a.data).flatten⟩

/-- Embeds `Array::reshape`: fix the target shape via `derive_shape`, then
reconcile the data length (extend with fill, cycle existing data, or
truncate). -/
def Arr.reshape [Inhabited α] (fill : Option α) (dims : List Int) (a : Arr α) :
    Except String (Arr α) := do
  let shape ← derive_shape a.shape dims fill.isSome
  let target_len := shape.prod
  if a.data.length < target_len then
    match fill with
    | some f => .ok ⟨shape, a.data ++ List.replicate (target_len - a.data.length) f⟩
    | none =>
      if a.data.isEmpty then
        if ¬ shape.contains 0 then
          .error "Cannot reshape empty array without a fill value"
        else .ok ⟨shape, a.data⟩
      else if a.rank = 0 then
        .ok ⟨shape, List.replicate target_len (a.data.getD 0 default)⟩
      else
        let start := a.data.length
        .ok ⟨shape, a.data ++ (List.range (target_len - start)).map
              (fun i => a.data.getD (i % start) default)⟩
  else .ok ⟨shape, a.data.take target_len⟩

/-- Embeds the prior-shape argument of `Value::unreshape` as seen through
the `as_nat` / `as_nats` inspections: either the scalar form or a list of
natural numbers. -/
inductive ShapeArg
  | scalar (n : Nat)
  | list (l : List Nat)

/-- Embeds `Value::unreshape`: restore a recorded prior shape; the scalar
form is rejected, and the prior and current shape must have equal element
counts. -/
def unreshape (old_shape : ShapeArg) (a : Arr α) : Except String (Arr α) :=
  match old_shape with
  | .scalar _ => .error "Cannot undo scalar reshae"
  | .list orig_shape =>
    if orig_shape.prod = a.shape.prod then .ok ⟨orig_shape, a.data⟩
    else .error "Cannot unreshape array with a different number of elements"

/-- Shape reconstruction of `Value::unrerank`: a prefix of the recorded
original shape joined with a suffix of the current shape, split according
to the sign and magnitude of the recorded rank. -/
def unrerank_shape (rank : Int) (orig_shape : List Nat) (a : Arr α) : List Nat :=
  let r := rank.natAbs
  if 0 ≤ rank then
    orig_shape.take (orig_shape.length - r) ++
      a.shape.drop (max ((r + 1) - orig_shape.length) 1)
  else
    orig_shape.take r ++ a.shape.drop 1

/-- Embeds `Value::unrerank` (for a non-boxed value; the rank-0 case
recurses into a boxed element in the source and is the identity here):
reconstructs a shape from the recorded original shape and the current
shape, and silently leaves the value unchanged when element counts do not
match. -/
def unrerank (rank : Int) (orig_shape : List Nat) (a : Arr α) :
    Except String (Arr α) :=
  if a.rank = 0 then .ok a
  else
    let new_shape := unrerank_shape rank orig_shape a
    if new_shape.prod ≠ a.element_count then .ok a
    else .ok ⟨new_shape, a.data⟩

/-! ### Keep (`dyadic/mod.rs`) -/

/-- Embeds `Array::scalar_keep`: replicate the whole array as rows. -/
def Arr.scalar_keep [Inhabited α] (count : Nat) (a : Arr α) : Arr α :=
  if a.rank = 0 then
    ⟨a.shape ++ [count], List.replicate count (a.data.getD 0 default)⟩
  else if count = 0 then
    ⟨a.shape.modifyHead (fun _ => 0), []⟩
  else if count = 1 then a
  else
    ⟨a.shape.modifyHead (· * count), (List.replicate count a.data).flatten⟩

/-- Embeds `Array::list_keep`: per-row replication/filtering along the
leading axis; the counts list may be extended by a numeric fill value
(`env.fill::<f64>()`, embedded as an optional rational). -/
def Arr.list_keep [Inhabited α] (count_fill : Option ℚ) (counts : List Nat)
    (a : Arr α) : Except String (Arr α) := do
  let amount ←
    if counts.length = a.row_count then pure counts
    else if counts.length < a.row_count then
      match count_fill with
      | some f =>
        if f < 0 ∨ f.den ≠ 1 then
          .error "Fill value for keep must be a non-negative integer"
        else pure (counts ++ List.replicate (a.row_count - counts.length) f.num.toNat)
      | none => .error "Cannot keep array with an array of this shape"
    else .error "Cannot keep array with an array of this shape"
  if a.rank = 0 then
    if amount.length ≠ 1 then
      .error "Scalar array can only be kept with a single number"
    else
      .ok ⟨[amount.headD 0], List.replicate (amount.headD 0) (a.data.getD 0 default)⟩
  else
    let row_len := a.row_len
    let paired := amount.zip (chunks (a.data.length / row_len) row_len a.data)
    if ∀ n ∈ amount, n ≤ 1 then
      let true_count := amount.count 1
      let new_data : List α :=
        if row_len > 0 then (paired.filter (·.1 = 1)).flatMap (·.2) else []
      .ok ⟨a.shape.modifyHead (fun _ => true_count), new_data⟩
    else
      let new_data : List α :=
        if row_len > 0 then paired.flatMap (fun p => (List.replicate p.1 p.2).flatten)
        else []
      let new_len : Nat :=
        if row_len > 0 then (paired.map (·.1)).sum else amount.sum
      .ok ⟨a.shape.modifyHead (fun _ => new_len), new_data⟩

/-- Inner walk of `Array::unkeep`: rebuild rows in original order, taking
rows from the transformed array at kept (count 1) positions and from the
`into` array at dropped (count 0) positions. -/
def unkeepGo : List (Arr α) → List Nat → List (Arr α) →
    Except String (List (Arr α))
  | _, [], _ => .ok []
  | _, _, [] => .ok []
  | trows, 0 :: cs, ir :: irs => do
    let rest ← unkeepGo trows cs irs
    .ok (ir :: rest)
  | trows, (_ + 1) :: cs, ir :: irs =>
    match trows with
    | [] => .error "Kept array has fewer rows than it was created with"
    | t :: ts =>
      if t.shape ≠ ir.shape then
        .error "Kept array's shape was changed, so the keep cannot be inverted"
      else do
        let rest ← unkeepGo ts cs irs
        .ok (t :: rest)

/-- Embeds `Array::unkeep`: invert a boolean keep, substituting edited rows
from the transformed array at kept positions. -/
def Arr.unkeep (counts : List Nat) (a into : Arr α) : Except String (Arr α) := do
  if ∃ n ∈ counts, n > 1 then
    .error "Cannot invert keep with non-boolean counts"
  else do
    let new_rows ← unkeepGo a.rows counts into.rows
    from_row_arrays new_rows

/-! ### Rotate (`dyadic/mod.rs`) -/

/-- Embeds the free function `rotate`: cyclic left rotation of the leading
axis by `by[0] mod row_count` (the three-reversal rotation), then recursion
axis-by-axis into each row chunk with the remaining offsets. -/
def rotData : List Int → List Nat → List α → List α
  | [], _, data => data
  | _ :: _, [], data => data
  | b :: brest, d :: srest, data =>
    if d = 0 then data
    else
      let row_len := srest.prod
      let mid := (((d : Int) + b).emod d).toNat
      let rotated := data.drop (mid * row_len) ++ data.take (mid * row_len)
      if brest = [] ∨ srest = [] then rotated
      else
        ((chunks ((rotated.length + row_len - 1) / row_len) row_len rotated).map
          (rotData brest srest)).flatten

/-- Embeds the free function `fill_shift`: with a fill value present, the
wrapped-around boundary region of each rotated axis is overwritten with the
fill value. -/
def fillShift (fill : α) : List Int → List Nat → List α → List α
  | [], _, data => data
  | _ :: _, [], data => data
  | b :: brest, d :: srest, data =>
    if d = 0 then data
    else
      let row_len := srest.prod
      let shifted :=
        if b ≠ 0 then
          let abs_offset := b.natAbs * row_len
          if 0 < b then
            data.take (data.length - abs_offset) ++
              List.replicate (min abs_offset data.length) fill
          else
            List.replicate (min abs_offset data.length) fill ++
              data.drop (min abs_offset data.length)
        else data
      if brest = [] ∨ srest = [] then shifted
      else
        ((chunks ((shifted.length + row_len - 1) / row_len) row_len shifted).map
          (fillShift fill brest srest)).flatten

/-- Embeds `Array::rotate`: errors when the offset list is longer than the
rank; rotates the data, then applies the fill shift when a fill value is
available. -/
def Arr.rotate (fill : Option α) (offsets : List Int) (a : Arr α) :
    Except String (Arr α) :=
  if a.rank < offsets.length then
    .error "Cannot rotate array with an index of this length"
  else
    let d := rotData offsets a.shape a.data
    match fill with
    | none => .ok ⟨a.shape, d⟩
    | some f => .ok ⟨a.shape, fillShift f offsets a.shape d⟩

/-! ### Windows (`dyadic/mod.rs`) -/

/-- Resolution loop of `Array::windows`: checks each size against its axis
and resolves negative sizes from the far end. -/
def resolveSizes : List (Nat × Int) → Except String (List Nat)
  | [] => .ok []
  | (d, s) :: rest =>
    if d < s.natAbs then .error "Window size is too large for axis"
    else do
      let tail ← resolveSizes rest
      .ok ((if 0 ≤ s then s.toNat else (max ((d : Int) + 1 + s) 0).toNat) :: tail)

/-- Embeds `Array::windows`: sliding windows of the given sizes over the
leading axes, enumerated corner-by-corner in row-major order. -/
def Arr.windows [Inhabited α] (isize_spec : List Int) (a : Arr α) :
    Except String (Arr α) :=
  if isize_spec.any (· == 0) then .error "Window size cannot be zero"
  else if a.shape.length < isize_spec.length then
    .error "Window size has too many axes for this shape"
  else do
    let size_spec ← resolveSizes (a.shape.zip isize_spec)
    let new_shape := (a.shape.zip size_spec).map (fun p => p.1 + 1 - p.2)
                      ++ size_spec ++ a.shape.drop size_spec.length
    if (size_spec.zip a.shape).any (fun p => decide (p.2 < p.1)) then
      .ok ⟨new_shape, []⟩
    else
      let true_size := size_spec ++ a.shape.drop size_spec.length
      let corners := enumIdx ((a.shape.zip true_size).map (fun p => p.1 - p.2 + 1))
      let dst := corners.flatMap (fun c =>
        (enumIdx true_size).map (fun cur =>
          a.data.getD (flatIdx a.shape (List.zipWith (· + ·) c cur)) default))
      .ok ⟨new_shape, dst⟩

/-! ### Find (`dyadic/mod.rs`) -/

/-- Main sliding-window comparison of `Array::find` (after the
rank/dimension pre-step): 1 where the window at a corner matches the
searched-for array element-wise, 0 otherwise, padded back out to the
searched array's shape. -/
def findCore [Inhabited α] [DecidableEq α] (searched_for searched : Arr α) :
    Except String (Arr Nat) :=
  let searched_for_shape :=
    List.replicate (searched.rank - searched_for.rank) 1 ++ searched_for.shape
  let temp_output_shape := (searched.shape.zip searched_for_shape).map
      (fun p => p.1 + 1 - p.2)
  let dta : List Nat :=
    if ∀ d ∈ searched.shape, 0 < d then
      (enumIdx ((searched.shape.zip searched_for_shape).map
          (fun p => p.1 - p.2 + 1))).map
        (fun corner =>
          if (enumIdx searched_for_shape).all (fun cur =>
              match searched_for.data.get? (flatIdx searched_for_shape cur) with
              | some v => decide (searched.data.getD
                  (flatIdx searched.shape (List.zipWith (· + ·) corner cur)) default = v)
              | none => false)
          then 1 else 0)
    else List.replicate temp_output_shape.prod 0
  let arr : Arr Nat := ⟨temp_output_shape, dta⟩
  .ok (fill_to_shape 0 (searched.shape.take searched_for_shape.length) arr)

/-- Embeds `Array::find`: when the searched-for array's rank exceeds the
searched array's, or some trailing-aligned dimension of the searched array
is smaller, the searched array is extended with a fill value; without a
fill value the result is all zeros in the searched array's shape. -/
def Arr.find [Inhabited α] [DecidableEq α] (fill : Option α)
    (searched_for searched : Arr α) : Except String (Arr Nat) :=
  let any_dim_greater := ((searched_for.shape.reverse).zip (searched.shape.reverse)).any
      (fun p => decide (p.2 < p.1))
  if searched.rank < searched_for.rank ∨ any_dim_greater then
    match fill with
    | some f =>
      let target_shape := searched.shape.modifyHead (fun _ => searched_for.row_count)
      findCore searched_for (fill_to_shape f target_shape searched)
    | none => .ok ⟨searched.shape, List.replicate searched.element_count 0⟩
  else findCore searched_for searched

/-! ### Take / drop and their undo forms (`dyadic/structure.rs`) -/

/-- Single-axis arm (`&[taking]`) of `Array::take`: truncate or pad the
leading axis, filling front or back according to the sign. -/
def Arr.take1 (fill : Option α) (taking : Int) (a : Arr α) :
    Except String (Arr α) := do
  let row_len := a.row_len
  let row_count := a.row_count
  let abs_taking := taking.natAbs
  let (dta, filled) ←
    if 0 ≤ taking then
      if row_count < abs_taking then
        match fill with
        | some f =>
          .ok (a.data ++ List.replicate ((abs_taking - row_count) * row_len) f, true)
        | none => .error "Cannot take outside a fill context"
      else .ok (a.data.take (abs_taking * row_len), false)
    else
      if row_count < abs_taking then
        match fill with
        | some f =>
          .ok (List.replicate ((abs_taking - row_count) * row_len) f ++ a.data, true)
        | none => .error "Cannot take outside a fill context"
      else .ok (a.data.drop ((row_count - abs_taking) * row_len), false)
  let shape :=
    match a.shape with
    | [] => if filled then [abs_taking] else []
    | s :: rest => (if filled then abs_taking else min s abs_taking) :: rest
  .ok ⟨shape, dta⟩

/-- Embeds `Array::take`: prefix/suffix selection, leading axis first,
recursing into rows for the remaining axes. -/
def Arr.take [Inhabited α] (fill : Option α) :
    List Int → Arr α → Except String (Arr α)
  | [], a => .ok a
  | [taking], a => a.take1 fill taking
  | taking :: s :: rest, a =>
    if a.rank < (taking :: s :: rest).length then
      .error "Cannot take from array with an index of this length"
    else
      let sub_index := s :: rest
      let abs_taking := taking.natAbs
      if (sub_index.zip (a.shape.drop 1)).all (fun p => p.1.natAbs == p.2) then
        a.take1 fill taking
      else if 0 ≤ taking then do
        let new_rows ← (a.rows.take abs_taking).mapM (Arr.take fill sub_index)
        let arr := from_row_arrays_infallible new_rows
        let arr ←
          if arr.row_count < abs_taking then
            match fill with
            | some f =>
              .ok (⟨arr.shape, arr.data ++
                List.replicate ((abs_taking - arr.row_count) * arr.row_len) f⟩ : Arr α)
            | none => .error "Cannot take outside a fill context"
          else .ok arr
        .ok ⟨arr.shape.modifyHead (fun _ => abs_taking), arr.data⟩
      else do
        let start := a.row_count - abs_taking
        let new_rows ← (a.rows.drop start).mapM (Arr.take fill sub_index)
        let arr := from_row_arrays_infallible new_rows
        let arr ←
          if arr.row_count < abs_taking then
            match fill with
            | some f =>
              .ok (⟨arr.shape,
                List.replicate ((abs_taking - arr.row_count) * arr.row_len) f ++
                  arr.data⟩ : Arr α)
            | none => .error "Cannot take outside a fill context"
          else .ok arr
        .ok ⟨arr.shape.modifyHead (fun _ => abs_taking), arr.data⟩

/-- Embeds `Array::drop`: complement of `take`; dropping beyond the
available rows yields an empty axis rather than an error. -/
def Arr.drop : List Int → Arr α → Except String (Arr α)
  | [], a => .ok a
  | [dropping], a =>
    let row_len := a.row_len
    let row_count := a.row_count
    let abs_dropping := dropping.natAbs
    let dta := if 0 ≤ dropping then a.data.drop (abs_dropping * row_len)
               else a.data.take ((row_count - abs_dropping) * row_len)
    let shape0 := if a.shape.isEmpty then [1] else a.shape
    .ok ⟨shape0.modifyHead (· - abs_dropping), dta⟩
  | dropping :: s :: rest, a =>
    if a.rank < (dropping :: s :: rest).length then
      .error "Cannot drop from array with an index of this length"
    else do
      let abs_dropping := dropping.natAbs
      let picked := if 0 ≤ dropping then a.rows.drop abs_dropping
                    else a.rows.take (a.row_count - abs_dropping)
      let new_rows ← picked.mapM (Arr.drop (s :: rest))
      from_row_arrays new_rows

/-- Embeds `Array::untake_impl` (used by both `untake` and `undrop`):
splice the taken (possibly edited) section back over the positions it came
from, recursing axis by axis. -/
def Arr.untake_impl : List Int → Arr α → Arr α → Except String (Arr α)
  | index, from_, into => do
    if from_.rank < into.rank then
      if from_.shape ≠ into.shape.drop 1 then
        .error "Attempted to undo take, but the taken section's rank was incompatible"
      else pure ()
    else if into.rank < from_.rank then
      .error "Attempted to undo take, but the taken section's rank was modified"
    else pure ()
    match index with
    | [] => .ok into
    | [untaking] => do
      let dropped ← into.drop [untaking]
      if 0 ≤ untaking then joinArr from_ dropped else joinArr dropped from_
    | untaking :: s :: rest =>
      let abs_untaking := untaking.natAbs
      if abs_untaking ≠ from_.row_count then
        .error "Attempted to undo take, but the taken section's row count was modified"
      else if 0 ≤ untaking then do
        let zipped ← (from_.rows.zip into.rows).mapM
          (fun p => Arr.untake_impl (s :: rest) p.1 p.2)
        from_row_arrays (zipped ++ into.rows.drop abs_untaking)
      else do
        let start := into.row_count - abs_untaking
        let zipped ← (from_.rows.zip (into.rows.drop start)).mapM
          (fun p => Arr.untake_impl (s :: rest) p.1 p.2)
        from_row_arrays (into.rows.take start ++ zipped)

/-- Embeds `Array::untake`. -/
def Arr.untake (index : List Int) (from_ into : Arr α) : Except String (Arr α) :=
  Arr.untake_impl index from_ into

/-- Embeds `Array::undrop`: converts the drop index into the equivalent
take index against the target's shape, then splices like `untake`. -/
def Arr.undrop (index : List Int) (from_ into : Arr α) : Except String (Arr α) :=
  let index' := (index.zip into.shape).map (fun p =>
    if 0 ≤ p.1 then min (p.1 - (p.2 : Int)) 0 else max (p.1 + (p.2 : Int)) 0)
  Arr.untake_impl index' from_ into

/-! ### Select / unselect, pick undo (`dyadic/structure.rs`) -/

/-- Single-index-list arm of `Array::select`: gather rows by index,
resolving negatives against the row count and falling back to the fill
value (or failing) out of bounds. -/
def Arr.selectOne (fill : Option α) (indices : List Int) (a : Arr α) :
    Except String (Arr α) := do
  let row_len := a.row_len
  let row_count := a.row_count
  let sel ← indices.mapM (fun i =>
    let pos : Int := if 0 ≤ i then i else (row_count : Int) + i
    if pos < 0 ∨ (row_count : Int) ≤ pos then
      match fill with
      | some f => .ok (List.replicate row_len f)
      | none => .error "Index is out of bounds"
    else .ok ((a.data.drop (pos.toNat * row_len)).take row_len))
  let shape := if a.shape.isEmpty then a.shape ++ [indices.length]
               else a.shape.modifyHead (fun _ => indices.length)
  .ok ⟨shape, sel.flatten⟩

/-- Embeds `Array::select_impl`: multi-dimensional index arrays recurse per
leading index row. -/
def Arr.select_impl (fill : Option α) :
    List Nat → List Int → Arr α → Except String (Arr α)
  | s0 :: s1 :: srest, indices, a =>
    let row_len := (s1 :: srest).prod
    if row_len = 0 then
      .ok ⟨(s0 :: s1 :: srest) ++ a.shape.drop 1, []⟩
    else do
      let rows ← (chunks (indices.length / row_len) row_len indices).mapM
        (fun r => Arr.select_impl fill (s1 :: srest) r a)
      from_row_arrays rows
  | indices_shape, indices, a => do
    let res ← a.selectOne fill indices
    if indices_shape.isEmpty then .ok ⟨res.shape.drop 1, res.data⟩
    else .ok res

/-- Overwrites `min cnt src.length` cells of `dst` starting at `start` with
the leading cells of `src` (the `iter_mut().skip(start).zip(src)` writing
pattern of `unselect_inner` and `unpick_single`). -/
def overwrite (start cnt : Nat) (src dst : List α) : List α :=
  dst.mapIdx (fun i x =>
    if start ≤ i ∧ i - start < min cnt src.length then src.getD (i - start) x else x)

/-- Embeds the free function `unselect_inner`: write each edited row back
at its resolved index in `into`; out-of-range indices are an error. -/
def unselect_inner (row_slices : List (List α)) (indices : List Int)
    (into : Arr α) : Except String (Arr α) := do
  let into_row_len := into.row_len
  let into_row_count := into.row_count
  let dta ← (indices.zip row_slices).foldlM (fun (acc : List α) p => do
    let pos : Int := if 0 ≤ p.1 then p.1 else (into_row_count : Int) + p.1
    if pos < 0 ∨ (into_row_count : Int) ≤ pos then .error "Index is out of bounds"
    else .ok (overwrite (pos.toNat * into_row_len) into_row_len p.2 acc)) into.data
  .ok ⟨into.shape, dta⟩

/-- Embeds `Array::unselect`: checks that the edited array still has one
row per index, then writes rows back. -/
def Arr.unselectCore (a : Arr α) (indices_shape : List Nat) (indices : List Int)
    (into : Arr α) : Except String (Arr α) :=
  if ¬(a.row_count = indices.length ∨ indices_shape.isEmpty) then
    .error "Attempted to undo selection, but the shape of the selected array changed"
  else
    let slices := if indices_shape.isEmpty then [a.data] else a.row_slices
    unselect_inner slices indices into

/-- Embeds `Array::unselect_impl`: multi-dimensional selection cannot be
undone. -/
def Arr.unselect_impl (indices_shape : List Nat) (indices : List Int)
    (a into : Arr α) : Except String (Arr α) :=
  if 1 < indices_shape.length then .error "Cannot undo multi-dimensional selection"
  else a.unselectCore indices_shape indices into

/-- Embeds `Value::unselect`: rejects duplicate indices by sorting the raw
index list and comparing each *adjacent* pair after negative-index
resolution against the target's row count, then dispatches. -/
def unselect (ind_shape : List Nat) (ind : List Int) (a into : Arr α) :
    Except String (Arr α) :=
  let sorted_indices := List.insertionSort (· ≤ ·) ind
  let resolve : Int → Nat := fun i => if 0 ≤ i then i.toNat else into.row_count - i.natAbs
  if (sorted_indices.zip (sorted_indices.drop 1)).any
      (fun p => resolve p.1 == resolve p.2) then
    .error "Cannot undo selection with duplicate indices"
  else a.unselect_impl ind_shape ind into

/-- Lexicographic comparison of index rows, as `sort_unstable` orders
`&[isize]` slices. -/
def lexLe : List Int → List Int → Bool
  | [], _ => true
  | _ :: _, [] => false
  | a :: as_, b :: bs => if a < b then true else if b < a then false else lexLe as_ bs

/-- Embeds `Array::unpick_single`: after a shape check, overwrite the
picked cells (starting at the row-major offset of the resolved index) with
the edited values. -/
def Arr.unpick_single (index : List Int) (from_ into : Arr α) :
    Except String (Arr α) :=
  if from_.shape ≠ into.shape.drop index.length then
    .error "Attempted to undo pick, but the shape of the selected array changed"
  else
    let start := ((index.zip into.shape).enum.map (fun p =>
      let ind := if 0 ≤ p.2.1 then p.2.1.toNat else ((p.2.2 : Int) + p.2.1).toNat
      ind * (into.shape.drop (p.1 + 1)).prod)).sum
    .ok ⟨into.shape, overwrite start from_.data.length from_.data into.data⟩

/-- Embeds `Array::unpick` / `unpick_multi`: rank-≥2 index arrays undo each
point pick in sequence. -/
def Arr.unpick : List Nat → List Int → Arr α → Arr α → Except String (Arr α)
  | s0 :: s1 :: srest, index_data, from_, into =>
    let index_shape := s0 :: s1 :: srest
    let expected_shape := index_shape.dropLast ++
      into.shape.drop (index_shape.getLast (by simp))
    if from_.shape ≠ expected_shape then
      .error "Attempted to undo pick, but the shape of the selected array changed"
    else
      let index_row_len := (s1 :: srest).prod
      if index_row_len = 0 then
        from_.rows.foldlM
          (fun acc r => Arr.unpick (s1 :: srest) index_data r acc) into
      else
        ((chunks (index_data.length / index_row_len) index_row_len index_data).zip
            from_.rows).foldlM
          (fun acc p => Arr.unpick (s1 :: srest) p.1 p.2 acc) into
  | _, index_data, from_, into => from_.unpick_single index_data into

/-- Embeds `Value::unpick`: rejects duplicate index rows by sorting the raw
(unresolved) rows and comparing adjacent pairs, then dispatches. -/
def unpick (index_shape : List Nat) (index_data : List Int) (a into : Arr α) :
    Except String (Arr α) :=
  if 1 < index_shape.length then
    let last_axis_len := index_shape.getLastD 0
    if last_axis_len = 0 then
      if index_shape.dropLast.any (fun n => decide (1 < n)) then
        .error "Cannot undo pick with duplicate indices"
      else Arr.unpick index_shape index_data a into
    else
      let rowsI := chunks ((index_data.length + last_axis_len - 1) / last_axis_len)
        last_axis_len index_data
      let sorted := List.insertionSort (fun x y => lexLe x y = true) rowsI
      if (sorted.zip (sorted.drop 1)).any (fun p => p.1 == p.2) then
        .error "Cannot undo pick with duplicate indices"
      else Arr.unpick index_shape index_data a into
  else Arr.unpick index_shape index_data a into

/-! ### Progressive index-of (`dyadic/mod.rs`) -/

/-- Inner scan of `progressive_index_of`: find the first position holding
the query whose `(hash, position)` pair has not yet been consumed. -/
def progFindGo [DecidableEq β] (h : β → Nat) (used : List (Nat × Nat)) (q : β) :
    Nat → List β → Option Nat
  | _, [] => none
  | i, t :: ts =>
    if q = t ∧ (h q, i) ∉ used then some i
    else progFindGo h used q (i + 1) ts

/-- Query loop of `progressive_index_of`: each successful match consumes
its `(hash, position)` pair; failures yield the one-past-the-end sentinel. -/
def progScan [DecidableEq β] (h : β → Nat) (targets : List β) :
    List β → List (Nat × Nat) → List Nat
  | [], _ => []
  | q :: qs, used =>
    match progFindGo h used q 0 targets with
    | some i => i :: progScan h targets qs ((h q, i) :: used)
    | none => targets.length :: progScan h targets qs used

/-- Embeds the equal-rank case of `Array::progressive_index_of`
(`h` embeds `array_hash` on elements, `hr` embeds `Hash` on rows; in this
embedding equality is definitional so both are automatically consistent
with comparison). -/
def Arr.progressive_index_of [DecidableEq α] (h : α → Nat) (hr : Arr α → Nat)
    (searched_for searched_in : Arr α) : Arr Nat :=
  if searched_for.rank = 1 then
    ⟨[searched_for.data.length], progScan h searched_in.data searched_for.data []⟩
  else
    ⟨searched_for.shape.take 1,
      progScan hr searched_in.rows searched_for.rows []⟩

/-! ### General lemmas about the helpers -/

lemma bind_ok {ε β γ : Type} (x : β) (f : β → Except ε γ) :
    (Except.ok x : Except ε β) >>= f = f x := rfl

lemma chunks_length (n size : Nat) (l : List α) : (chunks n size l).length = n := by
  simp [chunks]

lemma chunks_succ (n size : Nat) (l : List α) :
    chunks (n + 1) size l = l.take size :: chunks n size (l.drop size) := by
  unfold chunks
  rw [List.range_succ_eq_map]
  simp only [List.map_cons, List.map_map, Nat.zero_mul, List.drop_zero]
  congr 1
  apply List.map_congr_left
  intro i _
  simp only [Function.comp_apply, List.drop_drop]
  congr 2
  simp [Nat.succ_mul]
  ring

lemma mem_chunks_length {n size : Nat} {l : List α} (h : n * size ≤ l.length)
    {x : List α} (hx : x ∈ chunks n size l) : x.length = size := by
  unfold chunks at hx
  obtain ⟨i, hi, rfl⟩ := List.mem_map.mp hx
  rw [List.mem_range] at hi
  have : i * size + size ≤ l.length := by
    calc i * size + size = (i + 1) * size := by ring
    _ ≤ n * size := Nat.mul_le_mul_right _ hi
    _ ≤ l.length := h
  rw [List.length_take, List.length_drop]
  omega

lemma chunks_flatten {n size : Nat} {l : List α} (h : l.length = n * size) :
    (chunks n size l).flatten = l := by
  induction n generalizing l with
  | zero =>
    have : l = [] := List.eq_nil_of_length_eq_zero (by omega)
    simp [chunks, this]
  | succ n ih =>
    rw [chunks_succ]
    simp only [List.flatten_cons]
    rw [ih (by rw [List.length_drop, h, Nat.succ_mul, Nat.add_sub_cancel]),
      List.take_append_drop]

lemma chunks_of_flatten {s : Nat} (hs : 0 < s) (c : List (List α))
    (h : ∀ x ∈ c, x.length = s) : chunks c.length s c.flatten = c := by
  induction c with
  | nil => simp [chunks]
  | cons x c ih =>
    have hx : x.length = s := h x (by simp)
    rw [List.length_cons, chunks_succ, List.flatten_cons,
      List.take_append_of_le_length (by omega), List.take_of_length_le (by omega),
      List.drop_append_of_le_length (by omega), List.drop_of_length_le (by omega),
      List.nil_append, ih (fun y hy => h y (by simp [hy]))]

lemma flatten_drop_uniform {s : Nat} {c : List (List α)}
    (h : ∀ x ∈ c, x.length = s) {k : Nat} (hk : k ≤ c.length) :
    c.flatten.drop (k * s) = (c.drop k).flatten := by
  induction k generalizing c with
  | zero => simp
  | succ k ih =>
    cases c with
    | nil => simp at hk
    | cons x c =>
      have hx : x.length = s := h x (by simp)
      simp only [List.flatten_cons, List.drop_succ_cons]
      rw [show (k + 1) * s = x.length + k * s by rw [hx]; ring, List.drop_append]
      exact ih (fun y hy => h y (by simp [hy])) (by simp at hk; omega)

lemma flatten_take_uniform {s : Nat} {c : List (List α)}
    (h : ∀ x ∈ c, x.length = s) {k : Nat} (hk : k ≤ c.length) :
    c.flatten.take (k * s) = (c.take k).flatten := by
  induction k generalizing c with
  | zero => simp
  | succ k ih =>
    cases c with
    | nil => simp at hk
    | cons x c =>
      have hx : x.length = s := h x (by simp)
      simp only [List.flatten_cons, List.take_succ_cons]
      rw [show (k + 1) * s = x.length + k * s by rw [hx]; ring, List.take_append]
      rw [ih (fun y hy => h y (by simp [hy])) (by simp at hk; omega)]

lemma enumIdx_length (rs : List Nat) : (enumIdx rs).length = rs.prod := by
  induction rs with
  | nil => simp [enumIdx]
  | cons r rs ih =>
    simp only [enumIdx, List.length_flatMap, List.map_map]
    rw [List.map_congr_left
      (g := fun _ => rs.prod) (fun i _ => by simp [Function.comp_apply, ih])]
    rw [List.map_const', List.sum_replicate, List.length_range, smul_eq_mul,
      List.prod_cons]

lemma valid_len_eq {a : Arr α} (h : a.valid) :
    a.data.length = a.row_count * a.row_len := by
  unfold Arr.valid at h
  unfold Arr.row_count Arr.row_len
  cases hs : a.shape with
  | nil => simp [hs] at h ⊢; omega
  | cons s rest => simp [hs] at h ⊢; simpa [List.prod_cons] using h

lemma rows_length (a : Arr α) : a.rows.length = a.row_count := by
  simp [Arr.rows, Arr.row_slices, chunks_length]

lemma rows_shape {a : Arr α} {r : Arr α} (hr : r ∈ a.rows) :
    r.shape = a.shape.drop 1 := by
  simp only [Arr.rows, List.mem_map] at hr
  obtain ⟨d, _, rfl⟩ := hr
  rfl

lemma rows_valid {a : Arr α} (h : a.valid) {r : Arr α} (hr : r ∈ a.rows) :
    r.valid := by
  simp only [Arr.rows, List.mem_map] at hr
  obtain ⟨d, hd, rfl⟩ := hr
  have hlen : d.length = a.row_len :=
    mem_chunks_length (by rw [← valid_len_eq h]) hd
  unfold Arr.valid
  simpa [Arr.row_len] using hlen

lemma from_row_arrays_valid {rows : List (Arr α)} (h : ∀ r ∈ rows, r.valid)
    {out : Arr α} (hout : from_row_arrays rows = .ok out) : out.valid := by
  cases rows with
  | nil =>
    simp only [from_row_arrays, Except.ok.injEq] at hout
    subst hout; simp [Arr.valid]
  | cons r rs =>
    simp only [from_row_arrays] at hout
    split at hout
    case isTrue hsh =>
      simp only [Except.ok.injEq] at hout
      subst hout
      unfold Arr.valid
      simp only [List.length_flatMap, List.prod_cons]
      rw [List.map_congr_left (g := fun _ => r.shape.prod) ?_]
      · rw [List.map_const', List.sum_replicate, smul_eq_mul, List.length_cons,
          Nat.mul_comm]
      · intro x hx
        have hv : x.data.length = x.shape.prod := h x hx
        simp only [Function.comp_apply, hv]
        rcases List.mem_cons.mp hx with rfl | hx'
        · rfl
        · rw [hsh x hx']
    case isFalse => exact absurd hout (by simp)

lemma joinArr_valid {a b : Arr α} (ha : a.valid) (hb : b.valid)
    {out : Arr α} (hout : joinArr a b = .ok out) : out.valid := by
  have ha' : a.data.length = a.shape.prod := ha
  have hb' : b.data.length = b.shape.prod := hb
  unfold joinArr at hout
  split at hout
  case isTrue hc =>
    simp only [Except.ok.injEq] at hout
    subst hout
    obtain ⟨hlen, hsh⟩ := hc
    show _ = _
    simp only [List.length_append, List.prod_cons]
    rw [ha', hb', hsh]
    cases hbs : b.shape with
    | nil => rw [hbs] at hlen; simp at hlen
    | cons b0 brest => simp [List.prod_cons]; ring
  case isFalse =>
    split at hout
    case isTrue hc =>
      simp only [Except.ok.injEq] at hout
      subst hout
      obtain ⟨hlen, hsh⟩ := hc
      show _ = _
      simp only [List.length_append, List.prod_cons]
      rw [ha', hb', hsh]
      cases has : a.shape with
      | nil => rw [has] at hlen; simp at hlen
      | cons a0 arest => simp [List.prod_cons]; ring
    case isFalse =>
      split at hout
      case isTrue hc =>
        simp only [Except.ok.injEq] at hout
        subst hout
        obtain ⟨hlen, hsh⟩ := hc
        show _ = _
        simp only [List.length_append, List.prod_cons]
        rw [ha', hb']
        cases has : a.shape with
        | nil =>
          cases hbs : b.shape with
          | nil => simp
          | cons b0 brest => rw [has, hbs] at hlen; simp at hlen
        | cons a0 arest =>
          cases hbs : b.shape with
          | nil => rw [has, hbs] at hlen; simp at hlen
          | cons b0 brest =>
            rw [has, hbs] at hsh
            simp only [List.drop_succ_cons, List.drop_zero] at hsh
            simp only [List.headD_cons, List.drop_succ_cons, List.drop_zero,
              List.prod_cons]
            rw [hsh]
            ring
      case isFalse => exact absurd hout (by simp)

/-! ### C10: take/drop with an empty index -/

/-- C10: for every array `a`, `take` with an empty index vector and `drop`
with an empty index vector each return `a` unchanged (identical shape and
data) and never fail. -/
theorem take_drop_empty_index_identity {α : Type} [Inhabited α]
    (fill : Option α) (a : Arr α) :
    Arr.take fill [] a = .ok a ∧ Arr.drop [] a = .ok a :=
  ⟨rfl, rfl⟩

/-! ### C4: find without a fill value degrades to all zeros -/

/-- C4: whenever the needle's rank exceeds the haystack's rank or some
haystack dimension is smaller than the corresponding trailing-aligned
needle dimension, `find` with no fill value available returns an all-zero
array in the haystack's original shape and does not fail. -/
theorem find_no_fill_degrades_to_zeros {α : Type} [Inhabited α] [DecidableEq α]
    (needle hay : Arr α)
    (h : hay.rank < needle.rank ∨
      ∃ p ∈ needle.shape.reverse.zip hay.shape.reverse, p.2 < p.1) :
    Arr.find none needle hay =
      .ok ⟨hay.shape, List.replicate hay.element_count 0⟩ := by
  unfold Arr.find
  have hcond : hay.rank < needle.rank ∨
      ((needle.shape.reverse.zip hay.shape.reverse).any
        (fun p => decide (p.2 < p.1)) : Bool) = true := by
    rcases h with h | ⟨p, hp, hlt⟩
    · exact Or.inl h
    · exact Or.inr (List.any_eq_true.mpr ⟨p, hp, decide_eq_true hlt⟩)
  rw [if_pos]
  · exact hcond.imp id (fun hb => by exact_mod_cast hb)

/-- Witness for C4 at a concrete mismatched pair. -/
theorem find_no_fill_degrades_to_zeros_witness :
    Arr.find (α := Nat) none ⟨[3], [1, 2, 3]⟩ ⟨[2], [4, 5]⟩ =
      .ok ⟨[2], [0, 0]⟩ :=
  find_no_fill_degrades_to_zeros ⟨[3], [1, 2, 3]⟩ ⟨[2], [4, 5]⟩
    (Or.inr ⟨(3, 2), by decide, by decide⟩)

/-! ### C1: undoing reshape / rerank -/

/-- C1 is refuted on `unrerank`: with a recorded prior shape `[2, 2]` whose
element count 4 differs from the current element count 3, `unrerank`
returns `ok` with the value unchanged instead of failing with an error
(and the shape does not become the prior shape). -/
theorem unrerank_mismatch_no_error :
    unrerank (α := Nat) 1 [2, 2] ⟨[3], [1, 2, 3]⟩ = .ok ⟨[3], [1, 2, 3]⟩ ∧
    ([2, 2] : List Nat).prod ≠ (⟨[3], [1, 2, 3]⟩ : Arr Nat).element_count ∧
    (unrerank_shape 1 [2, 2] (⟨[3], [1, 2, 3]⟩ : Arr Nat)).prod ≠
      (⟨[3], [1, 2, 3]⟩ : Arr Nat).element_count :=
  ⟨by decide, by decide, by decide⟩

/-- C1 (amended): `unreshape` fails on the scalar prior form and on an
element-count mismatch, and on success restores the prior shape onto the
current data; `unrerank`, however, never fails for these reasons: when the
reconstructed shape's element count does not match it silently returns the
value unchanged, and otherwise it installs the reconstructed shape (a
prefix of the prior shape joined with a suffix of the current shape). -/
theorem unreshape_unrerank_restore {α : Type} (a : Arr α) :
    (∀ n, unreshape (.scalar n) a = .error "Cannot undo scalar reshae") ∧
    (∀ l, l.prod = a.shape.prod → unreshape (.list l) a = .ok ⟨l, a.data⟩) ∧
    (∀ l, l.prod ≠ a.shape.prod → unreshape (.list l) a =
      .error "Cannot unreshape array with a different number of elements") ∧
    (∀ r l, a.rank ≠ 0 → (unrerank_shape r l a).prod ≠ a.element_count →
      unrerank r l a = .ok a) ∧
    (∀ r l, a.rank ≠ 0 → (unrerank_shape r l a).prod = a.element_count →
      unrerank r l a = .ok ⟨unrerank_shape r l a, a.data⟩) := by
  refine ⟨fun n => rfl, fun l hl => by simp [unreshape, hl],
    fun l hl => by simp [unreshape, hl], fun r l h0 hm => ?_, fun r l h0 hm => ?_⟩
  · simp [unrerank, h0, hm]
  · simp [unrerank, h0, hm]

/-- Witness for C1 (amended) at concrete inputs. -/
theorem unreshape_unrerank_restore_witness :
    unreshape (ShapeArg.list [2, 2]) (⟨[4], [1, 2, 3, 4]⟩ : Arr Nat) =
      .ok ⟨[2, 2], [1, 2, 3, 4]⟩ ∧
    unrerank (α := Nat) 1 [2, 2] ⟨[3], [1, 2, 3]⟩ = .ok ⟨[3], [1, 2, 3]⟩ :=
  ⟨(unreshape_unrerank_restore _).2.1 [2, 2] (by decide),
   (unreshape_unrerank_restore _).2.2.2.1 1 [2, 2] (by decide) (by decide)⟩

/-! ### C6: take/drop partition the rows -/

/-- C6: for every non-scalar array `a` and every `n` with
`0 ≤ n ≤ row_count a`, concatenating `take [n] a` with `drop [n] a` along
the leading axis yields exactly `a`: the two parts partition `a`'s rows
with no overlap and no gap. -/
theorem take_drop_partition {α : Type} [Inhabited α] (fill : Option α)
    (a : Arr α) (n : Nat) (hs : a.shape ≠ []) (hn : n ≤ a.row_count) :
    (Arr.take fill [(n : Int)] a).bind (fun t =>
      (Arr.drop [(n : Int)] a).bind (fun d => joinArr t d)) = .ok a := by
  obtain ⟨s, rest, hsr⟩ : ∃ s rest, a.shape = s :: rest := by
    cases h : a.shape with
    | nil => exact absurd h hs
    | cons s rest => exact ⟨s, rest, rfl⟩
  have hrc : a.row_count = s := by simp [Arr.row_count, hsr]
  rw [hrc] at hn
  have h0 : (0 : Int) ≤ (n : Int) := Int.ofNat_nonneg n
  have habs : ((n : Int)).natAbs = n := Int.natAbs_ofNat n
  have hnlt : ¬ a.row_count < ((n : Int)).natAbs := by
    rw [hrc, habs]; omega
  have ht : Arr.take fill [(n : Int)] a =
      .ok ⟨n :: rest, a.data.take (n * a.row_len)⟩ := by
    simp only [Arr.take, Arr.take1, habs, hsr, Arr.row_count, List.headD_cons]
    rw [if_pos h0, if_neg (show ¬ s < n by omega)]
    simp only [Nat.min_eq_right hn]
    rfl
  have hd : Arr.drop [(n : Int)] a =
      .ok ⟨(s - n) :: rest, a.data.drop (n * a.row_len)⟩ := by
    simp only [Arr.drop, habs, hsr, Arr.row_count, List.headD_cons]
    rw [if_pos h0]
    simp
  rw [ht, hd]
  simp only [Except.bind, joinArr]
  rw [if_neg (by simp), if_neg (by simp), if_pos (by simp)]
  simp only [List.headD_cons, List.drop_succ_cons, List.drop_zero,
    List.take_append_drop]
  rw [show n + (s - n) = s by omega, ← hsr]

/-- Witness for C6 at a concrete array and split point. -/
theorem take_drop_partition_witness :
    (Arr.take (α := Nat) none [(2 : Int)] ⟨[3], [1, 2, 3]⟩).bind (fun t =>
      (Arr.drop [(2 : Int)] ⟨[3], [1, 2, 3]⟩).bind (fun d => joinArr t d)) =
      .ok ⟨[3], [1, 2, 3]⟩ :=
  take_drop_partition none ⟨[3], [1, 2, 3]⟩ 2 (by decide) (by decide)

/-! ### C5: rotation by negated offsets is inverse -/

lemma flatten_length_uniform {s : Nat} {c : List (List α)}
    (h : ∀ x ∈ c, x.length = s) : c.flatten.length = c.length * s := by
  rw [List.length_flatten]
  rw [List.map_congr_left (g := fun _ => s) h, List.map_const', List.sum_replicate,
    smul_eq_mul]

lemma flatten_rotate {s : Nat} {c : List (List α)}
    (hu : ∀ x ∈ c, x.length = s) {k : Nat} (hk : k ≤ c.length) :
    c.flatten.rotate (k * s) = (c.rotate k).flatten := by
  have hlen : c.flatten.length = c.length * s := flatten_length_uniform hu
  rw [List.rotate_eq_drop_append_take
      (by rw [hlen]; exact Nat.mul_le_mul_right _ hk),
    List.rotate_eq_drop_append_take hk]
  rw [flatten_drop_uniform hu hk, flatten_take_uniform hu hk, List.flatten_append]

lemma rotData_nil (offs : List Int) (sh : List Nat) :
    rotData offs sh ([] : List α) = [] := by
  cases offs with
  | nil => rfl
  | cons b brest =>
    cases sh with
    | nil => rfl
    | cons d srest =>
      unfold rotData
      split
      · rfl
      · simp only [List.drop_nil, List.take_nil, List.nil_append]
        split
        · rfl
        · have : ((List.length ([] : List α)) + srest.prod - 1) / srest.prod = 0 := by
            rcases Nat.eq_zero_or_pos srest.prod with h | h
            · simp [h]
            · simp only [List.length_nil, Nat.zero_add]
              exact Nat.div_eq_of_lt (by omega)
          rw [this]
          rfl

lemma rotData_length : ∀ (offs : List Int) (sh : List Nat) (l : List α),
    l.length = sh.prod → (rotData offs sh l).length = l.length := by
  intro offs
  induction offs with
  | nil => intro sh l _; rfl
  | cons b brest ih =>
    intro sh l h
    cases sh with
    | nil => rfl
    | cons d srest =>
      unfold rotData
      split
      · rfl
      · rename_i hd
        have hrot : (l.drop ((((d : Int) + b).emod d).toNat * srest.prod) ++
            l.take ((((d : Int) + b).emod d).toNat * srest.prod)).length = l.length := by
          simp only [List.length_append, List.length_drop, List.length_take]
          omega
        split
        · exact hrot
        · rename_i hne
          dsimp only
          set rl := srest.prod with hrl
          set rotated := l.drop ((((d : Int) + b).emod d).toNat * rl) ++
            l.take ((((d : Int) + b).emod d).toNat * rl) with hrotdef
          rcases Nat.eq_zero_or_pos rl with h0 | hpos
          · have hl0 : l.length = 0 := by
              rw [h, List.prod_cons, ← hrl, h0, Nat.mul_zero]
            have : rotated.length = 0 := by rw [hrot, hl0]
            rw [show (rotated.length + rl - 1) / rl = 0 by rw [this, h0]]
            simp [chunks, hrot, hl0]
          · have hlen : rotated.length = d * rl := by
              rw [hrot, h, List.prod_cons]
            have hcnt : (rotated.length + rl - 1) / rl = d := by
              rw [hlen, Nat.mul_comm d rl,
                show rl * d + rl - 1 = rl * d + (rl - 1) by omega,
                Nat.mul_add_div hpos, Nat.div_eq_of_lt (by omega), Nat.add_zero]
            rw [hcnt, List.length_flatten, List.map_map]
            rw [List.map_congr_left (g := List.length)
              (fun x hx => by
                have hxl : x.length = rl :=
                  mem_chunks_length (by rw [hlen]) hx
                simp only [Function.comp_apply]
                rw [ih srest x (by rw [hxl]), hxl])]
            have : (chunks d rl rotated).flatten = rotated := chunks_flatten hlen
            calc (List.map List.length (chunks d rl rotated)).sum
                = (chunks d rl rotated).flatten.length := (List.length_flatten _).symm
              _ = l.length := by rw [this, hrot]

lemma emod_mid_sum (d : Nat) (hd : d ≠ 0) (b : Int) :
    (((d : Int) + b).emod d).toNat + (((d : Int) + -b).emod d).toNat = 0 ∨
    (((d : Int) + b).emod d).toNat + (((d : Int) + -b).emod d).toNat = d := by
  have hconv : ∀ (x y : Int), x.emod y = x % y := fun _ _ => rfl
  simp only [hconv]
  have hdpos : (0 : Int) < d := by exact_mod_cast Nat.pos_of_ne_zero hd
  have h1 : ((d : Int) + b) % d = b % d := by
    have := Int.add_mul_emod_self_left (a := b) (b := (d : Int)) (c := 1)
    rw [Int.mul_one] at this
    rw [Int.add_comm]
    exact this
  have h2 : ((d : Int) + -b) % d = (-b) % d := by
    have := Int.add_mul_emod_self_left (a := -b) (b := (d : Int)) (c := 1)
    rw [Int.mul_one] at this
    rw [Int.add_comm]
    exact this
  rw [h1, h2]
  have hneg : (-b) % (d : Int) = ((d : Int) - b) % d := Int.neg_emod
  have hb1 : 0 ≤ b % (d : Int) := Int.emod_nonneg b (by omega)
  have hb2 : b % (d : Int) < d := Int.emod_lt_of_pos b hdpos
  rcases eq_or_ne (b % (d : Int)) 0 with h0 | h0
  · left
    rw [h0, hneg, Int.sub_emod, Int.emod_self, h0, Int.sub_zero, Int.zero_emod]
    rfl
  · right
    have h3 : (-b) % (d : Int) = (d : Int) - b % d := by
      rw [hneg, Int.sub_emod, Int.emod_self, Int.zero_sub, Int.neg_emod]
      exact Int.emod_eq_of_lt (by omega) (by omega)
    rw [h3]
    omega

lemma rotData_chunk_repr {b : Int} {brest : List Int} {d : Nat} {srest : List Nat}
    {l : List α} (hd : d ≠ 0) (hb : brest ≠ []) (hs : srest ≠ [])
    (hrl : 0 < srest.prod) (h : l.length = d * srest.prod) :
    rotData (b :: brest) (d :: srest) l =
      (((chunks d srest.prod l).rotate ((((d : Int) + b).emod d).toNat)).map
        (rotData brest srest)).flatten := by
  have hdpos : (0 : Int) < d := by exact_mod_cast Nat.pos_of_ne_zero hd
  have hmid : (((d : Int) + b).emod d).toNat < d := by
    have h1 : ((d : Int) + b).emod d < d := Int.emod_lt_of_pos _ hdpos
    have h2 : 0 ≤ ((d : Int) + b).emod d := Int.emod_nonneg _ (by omega)
    omega
  unfold rotData
  rw [if_neg hd]
  dsimp only
  rw [if_neg (by simp [hb, hs])]
  set rl := srest.prod
  set mid := (((d : Int) + b).emod d).toNat with hmiddef
  have hrot : l.drop (mid * rl) ++ l.take (mid * rl) = l.rotate (mid * rl) := by
    rw [List.rotate_eq_drop_append_take]
    rw [h]
    exact Nat.mul_le_mul_right _ (le_of_lt hmid)
  rw [hrot]
  have hlenrot : (l.rotate (mid * rl)).length = d * rl := by
    rw [List.length_rotate, h]
  have hcnt : ((l.rotate (mid * rl)).length + rl - 1) / rl = d := by
    rw [hlenrot, Nat.mul_comm d rl,
      show rl * d + rl - 1 = rl * d + (rl - 1) by omega,
      Nat.mul_add_div hrl, Nat.div_eq_of_lt (by omega), Nat.add_zero]
  rw [hcnt]
  congr 1
  congr 1
  -- chunks d rl (l.rotate (mid * rl)) = (chunks d rl l).rotate mid
  have hC : (chunks d rl l).flatten = l := chunks_flatten h
  have hCu : ∀ x ∈ chunks d rl l, x.length = rl :=
    fun x hx => mem_chunks_length (by rw [h]) hx
  have hCl : (chunks d rl l).length = d := chunks_length _ _ _
  have : l.rotate (mid * rl) = ((chunks d rl l).rotate mid).flatten := by
    conv_lhs => rw [← hC]
    exact flatten_rotate hCu (by rw [hCl]; exact le_of_lt hmid)
  rw [this]
  have hRu : ∀ x ∈ (chunks d rl l).rotate mid, x.length = rl :=
    fun x hx => hCu x (List.mem_rotate.mp hx)
  have := chunks_of_flatten hrl ((chunks d rl l).rotate mid) hRu
  rw [List.length_rotate, hCl] at this
  exact this

lemma rotData_inverse : ∀ (offs : List Int) (sh : List Nat) (l : List α),
    l.length = sh.prod →
    rotData offs sh (rotData (offs.map (fun x => -x)) sh l) = l := by
  intro offs
  induction offs with
  | nil => intro sh l _; rfl
  | cons b brest ih =>
    intro sh l h
    cases sh with
    | nil => rfl
    | cons d srest =>
      rcases eq_or_ne d 0 with hd | hd
      · subst hd
        have hin : rotData ((b :: brest).map (fun x => -x)) (0 :: srest) l = l := by
          unfold rotData; simp
        rw [hin]
        unfold rotData; simp
      rcases Nat.eq_zero_or_pos srest.prod with hrl | hrl
      · have hl0 : l = [] := by
          apply List.eq_nil_of_length_eq_zero
          rw [h, List.prod_cons, hrl, Nat.mul_zero]
        subst hl0
        rw [rotData_nil, rotData_nil]
      have hdpos : (0 : Int) < d := by exact_mod_cast Nat.pos_of_ne_zero hd
      set rl := srest.prod with hrldef
      set mid' := (((d : Int) + -b).emod d).toNat with hm'
      set mid := (((d : Int) + b).emod d).toNat with hm
      have hmidlt : mid < d := by
        have h1 : ((d : Int) + b).emod d < d := Int.emod_lt_of_pos _ hdpos
        have h2 : 0 ≤ ((d : Int) + b).emod d := Int.emod_nonneg _ (by omega)
        omega
      have hmidplt : mid' < d := by
        have h1 : ((d : Int) + -b).emod d < d := Int.emod_lt_of_pos _ hdpos
        have h2 : 0 ≤ ((d : Int) + -b).emod d := Int.emod_nonneg _ (by omega)
        omega
      have hmapcons : (b :: brest).map (fun x => -x) =
          -b :: brest.map (fun x => -x) := rfl
      by_cases hsimple : brest = [] ∨ srest = []
      · -- the recursion stops after the leading axis: plain rotation composition
        have hsimple' : brest.map (fun x => -x) = [] ∨ srest = [] := by
          rcases hsimple with h' | h'
          · left; simp [h']
          · right; exact h'
        have hle' : mid' * rl ≤ l.length := by
          rw [h, List.prod_cons]
          exact Nat.mul_le_mul_right _ (le_of_lt hmidplt)
        have hle : mid * rl ≤ (l.rotate (mid' * rl)).length := by
          rw [List.length_rotate, h, List.prod_cons]
          exact Nat.mul_le_mul_right _ (le_of_lt hmidlt)
        have hinner : rotData ((b :: brest).map (fun x => -x)) (d :: srest) l =
            l.rotate (mid' * rl) := by
          rw [hmapcons]
          unfold rotData
          rw [if_neg hd]
          dsimp only
          rw [if_pos hsimple']
          exact (List.rotate_eq_drop_append_take hle').symm
        rw [hinner]
        have houter : rotData (b :: brest) (d :: srest) (l.rotate (mid' * rl)) =
            (l.rotate (mid' * rl)).rotate (mid * rl) := by
          unfold rotData
          rw [if_neg hd]
          dsimp only
          rw [if_pos hsimple]
          exact (List.rotate_eq_drop_append_take hle).symm
        rw [houter, List.rotate_rotate,
          show mid' * rl + mid * rl = (mid' + mid) * rl by ring]
        rcases emod_mid_sum d hd b with hsum | hsum
        · rw [← hm, ← hm'] at hsum
          rw [show mid' + mid = 0 by omega]
          simp
        · rw [← hm, ← hm'] at hsum
          rw [show mid' + mid = d by omega, ← List.prod_cons (a := d) (l := srest),
            ← h, List.rotate_length]
      · push_neg at hsimple
        obtain ⟨hb, hs⟩ := hsimple
        set C := chunks d rl l with hCdef
        set g := rotData brest srest with hgdef
        set g' := rotData (brest.map (fun x => -x)) srest with hgpdef
        have hCu : ∀ x ∈ C, x.length = rl :=
          fun x hx => mem_chunks_length (by rw [h, List.prod_cons]) hx
        have hCl : C.length = d := chunks_length _ _ _
        have hinner : rotData ((b :: brest).map (fun x => -x)) (d :: srest) l =
            ((C.rotate mid').map g').flatten := by
          rw [hmapcons]
          exact rotData_chunk_repr hd (by simp [hb]) hs hrl
            (by rw [h, List.prod_cons])
        rw [hinner]
        have hDu : ∀ x ∈ (C.rotate mid').map g', x.length = rl := by
          intro x hx
          obtain ⟨y, hy, rfl⟩ := List.mem_map.mp hx
          have hyl : y.length = rl := hCu y (List.mem_rotate.mp hy)
          rw [hgpdef, rotData_length _ _ _ (by rw [hyl]), hyl]
        have hElen : (((C.rotate mid').map g').flatten).length = d * rl := by
          rw [flatten_length_uniform hDu, List.length_map, List.length_rotate, hCl]
        rw [rotData_chunk_repr hd hb hs hrl hElen]
        have hchunksE : chunks d rl (((C.rotate mid').map g').flatten) =
            (C.rotate mid').map g' := by
          have := chunks_of_flatten hrl ((C.rotate mid').map g') hDu
          rw [List.length_map, List.length_rotate, hCl] at this
          exact this
        rw [hchunksE, ← List.map_rotate, List.rotate_rotate, List.map_map]
        have hcomp : ∀ x ∈ C.rotate (mid' + mid), (g ∘ g') x = x := by
          intro x hx
          have hxl : x.length = rl := hCu x (List.mem_rotate.mp hx)
          exact ih srest x (by rw [hxl])
        rw [List.map_congr_left (g := id) (fun x hx => hcomp x hx), List.map_id]
        rcases emod_mid_sum d hd b with hsum | hsum
        · rw [← hm, ← hm'] at hsum
          rw [show mid' + mid = 0 by omega]
          simp only [List.rotate_zero]
          exact chunks_flatten (by rw [h, List.prod_cons])
        · rw [← hm, ← hm'] at hsum
          rw [show mid' + mid = d by omega, ← hCl, List.rotate_length]
          exact chunks_flatten (by rw [h, List.prod_cons])

/-- C5: for every array `a` and every integer offset vector of length at
most `rank a`, with no fill value supplied, rotating by the negated offsets
and then by the offsets restores `a` exactly (data and shape identical). -/
theorem rotate_negate_inverse {α : Type} (a : Arr α) (offsets : List Int)
    (hlen : offsets.length ≤ a.rank) (hval : a.valid) :
    (Arr.rotate none (offsets.map (fun x => -x)) a).bind
      (Arr.rotate none offsets) = .ok a := by
  unfold Arr.rotate
  rw [if_neg (by rw [List.length_map]; omega)]
  simp only [Except.bind]
  rw [if_neg (by simpa [Arr.rank] using hlen)]
  have hv : a.data.length = a.shape.prod := hval
  rw [show rotData offsets a.shape (rotData (offsets.map (fun x => -x)) a.shape a.data)
      = a.data from rotData_inverse offsets a.shape a.data hv]

/-- Witness for C5 at a concrete array and offset vector. -/
theorem rotate_negate_inverse_witness :
    (Arr.rotate (α := Nat) none ([1, -1].map (fun x => -x)) ⟨[2, 2], [1, 2, 3, 4]⟩).bind
      (Arr.rotate none [1, -1]) = .ok ⟨[2, 2], [1, 2, 3, 4]⟩ :=
  rotate_negate_inverse ⟨[2, 2], [1, 2, 3, 4]⟩ [1, -1] (by decide) (by decide)

/-! ### C9: windows result shape -/

lemma zip_map_snd (f : γ → δ) : ∀ (l1 : List β) (l2 : List γ),
    l2.length ≤ l1.length →
    (l1.zip l2).map (fun p => f p.2) = l2.map f := by
  intro l1
  induction l1 with
  | nil =>
    intro l2 h
    have : l2 = [] := List.eq_nil_of_length_eq_zero (by simpa using h)
    subst this
    simp
  | cons x l1 ih =>
    intro l2 h
    cases l2 with
    | nil => simp
    | cons y l2 =>
      simp only [List.zip_cons_cons, List.map_cons]
      rw [ih l2 (by simpa using h)]

lemma mem_map_zip_swap {l1 : List β} {l2 : List γ} {f : γ → δ} {p : δ × β} :
    p ∈ (l2.map f).zip l1 → ∃ q ∈ l1.zip l2, p = (f q.2, q.1) := by
  induction l2 generalizing l1 with
  | nil => simp
  | cons y l2 ih =>
    cases l1 with
    | nil => simp
    | cons x l1 =>
      intro hp
      simp only [List.map_cons, List.zip_cons_cons, List.mem_cons] at hp
      rcases hp with rfl | hp
      · exact ⟨(x, y), by simp⟩
      · obtain ⟨q, hq, rfl⟩ := ih hp
        exact ⟨q, by simp [hq]⟩

lemma resolveSizes_pos : ∀ (pairs : List (Nat × Int)),
    (∀ p ∈ pairs, 0 < p.2 ∧ p.2.natAbs ≤ p.1) →
    resolveSizes pairs = .ok (pairs.map (fun p => p.2.toNat)) := by
  intro pairs
  induction pairs with
  | nil => intro _; rfl
  | cons p ps ih =>
    intro h
    obtain ⟨d, s⟩ := p
    obtain ⟨hpos, hle⟩ := h (d, s) (by simp)
    unfold resolveSizes
    rw [if_neg (by simp only [not_lt]; exact hle)]
    rw [ih (fun q hq => h q (by simp [hq])), bind_ok, List.map_cons,
      if_pos (le_of_lt hpos)]

/-- C9: for every array and every list of positive window sizes each within
its axis length, the shape of `windows` is
`[dim_i + 1 - size_i for each windowed axis] ++ sizes ++ trailing dims`; in
particular `windows [2]` on `[1,2,3,4]` has shape `[3,2]` with rows
`[1,2] [2,3] [3,4]`. -/
theorem windows_result_shape :
    (∀ (α : Type) [Inhabited α] (a : Arr α) (spec : List Int),
      (∀ s ∈ spec, 0 < s) → spec.length ≤ a.rank →
      (∀ p ∈ a.shape.zip spec, p.2.toNat ≤ p.1) →
      ∃ r, Arr.windows spec a = .ok r ∧
        r.shape = (a.shape.zip (spec.map Int.toNat)).map
            (fun p => p.1 + 1 - p.2) ++
          spec.map Int.toNat ++ a.shape.drop spec.length) ∧
    Arr.windows (α := Nat) [2] ⟨[4], [1, 2, 3, 4]⟩ =
      .ok ⟨[3, 2], [1, 2, 2, 3, 3, 4]⟩ := by
  constructor
  · intro α _ a spec hpos hlen hfit
    unfold Arr.windows
    rw [if_neg (by
      simp only [List.any_eq_true, not_exists]
      intro s
      rw [not_and]
      intro hs hbeq
      have := hpos s hs
      have : s = 0 := by simpa using hbeq
      omega)]
    rw [if_neg (by simpa [Arr.rank] using hlen)]
    have hres : resolveSizes (a.shape.zip spec) =
        .ok ((a.shape.zip spec).map (fun p => p.2.toNat)) := by
      apply resolveSizes_pos
      intro p hp
      have hmem := List.of_mem_zip hp
      have h1 : 0 < p.2 := hpos p.2 hmem.2
      have h2 : p.2.toNat ≤ p.1 := hfit p hp
      constructor
      · exact h1
      · omega
    have hS : (a.shape.zip spec).map (fun p => p.2.toNat) = spec.map Int.toNat :=
      zip_map_snd Int.toNat a.shape spec (by simpa [Arr.rank] using hlen)
    rw [hres, hS, bind_ok]
    rw [if_neg (by
      intro hx
      rw [List.any_eq_true] at hx
      obtain ⟨p, hp, hdec⟩ := hx
      obtain ⟨q, hq, rfl⟩ := mem_map_zip_swap hp
      have := hfit q hq
      simp only [decide_eq_true_eq] at hdec
      omega)]
    refine ⟨_, rfl, ?_⟩
    rw [List.length_map]
  · decide

/-- Witness for C9 at the concrete scenario from the spec. -/
theorem windows_result_shape_witness :
    ∃ r : Arr Nat, Arr.windows [2] ⟨[4], [1, 2, 3, 4]⟩ = .ok r ∧
      r.shape = [3, 2] := by
  obtain ⟨r, hr, hsh⟩ := windows_result_shape.1 Nat ⟨[4], [1, 2, 3, 4]⟩ [2]
    (by decide) (by decide) (by decide)
  exact ⟨r, hr, by rw [hsh]; rfl⟩

/-! ### C8: progressive index-of consumes each position at most once -/

lemma progFindGo_spec [DecidableEq β] (h : β → Nat) (used : List (Nat × Nat))
    (q : β) : ∀ (ts : List β) (i0 i : Nat),
    progFindGo h used q i0 ts = some i →
    i0 ≤ i ∧ i - i0 < ts.length ∧ ts.get? (i - i0) = some q ∧
      (h q, i) ∉ used := by
  intro ts
  induction ts with
  | nil => intro i0 i hfind; simp [progFindGo] at hfind
  | cons t ts ih =>
    intro i0 i hfind
    unfold progFindGo at hfind
    split at hfind
    case isTrue hc =>
      simp only [Option.some.injEq] at hfind
      subst hfind
      obtain ⟨rfl, hnu⟩ := hc
      refine ⟨le_refl _, by simp, ?_, hnu⟩
      simp
    case isFalse hc =>
      obtain ⟨hle, hlt, hget, hnu⟩ := ih (i0 + 1) i hfind
      refine ⟨by omega, by simp; omega, ?_, hnu⟩
      rw [show i - i0 = (i - (i0 + 1)) + 1 by omega]
      simpa using hget

lemma progScan_not_mem [DecidableEq β] (h : β → Nat) (t : List β) :
    ∀ (qs : List β) (used : List (Nat × Nat)) (j : Nat) (q : β),
    t.get? j = some q → (h q, j) ∈ used → j ∉ progScan h t qs used := by
  intro qs
  induction qs with
  | nil => intro used j q _ _; simp [progScan]
  | cons q' qs ih =>
    intro used j q hg hu
    unfold progScan
    cases hfind : progFindGo h used q' 0 t with
    | some i =>
      simp only [List.mem_cons, not_or]
      constructor
      · intro hij
        obtain ⟨_, _, hget2, hnu⟩ := progFindGo_spec h used q' t 0 i hfind
        rw [Nat.sub_zero] at hget2
        rw [← hij, hg] at hget2
        have hqq : q = q' := by simpa using hget2
        subst hqq
        rw [hij] at hu
        exact hnu hu
      · exact ih ((h q', i) :: used) j q hg (by simp [hu])
    | none =>
      simp only [List.mem_cons, not_or]
      have hjlt : j < t.length := List.get?_eq_some.mp hg |>.1
      exact ⟨by omega, ih used j q hg hu⟩

lemma progScan_filter_nodup [DecidableEq β] (h : β → Nat) (t : List β) :
    ∀ (qs : List β) (used : List (Nat × Nat)),
    ((progScan h t qs used).filter (fun i => decide (i < t.length))).Nodup := by
  intro qs
  induction qs with
  | nil => intro used; simp [progScan]
  | cons q qs ih =>
    intro used
    unfold progScan
    cases hfind : progFindGo h used q 0 t with
    | some i =>
      obtain ⟨_, hlt, hget, _⟩ := progFindGo_spec h used q t 0 i hfind
      rw [Nat.sub_zero] at hlt hget
      rw [List.filter_cons, if_pos (by simpa using hlt)]
      refine List.Nodup.cons ?_ (ih _)
      intro hmem
      have hmem' : i ∈ progScan h t qs ((h q, i) :: used) :=
        (List.mem_filter.mp hmem).1
      exact progScan_not_mem h t qs ((h q, i) :: used) i q hget (by simp) hmem'
    | none =>
      rw [List.filter_cons, if_neg (by simp)]
      exact ih _

/-- C8: for every pair of equal-rank arrays, `progressive_index_of` assigns
each row position of the searched array to at most one query: among the
returned indices strictly below the searched array's row count, no index
occurs twice. -/
theorem progressive_index_of_no_reuse {α : Type} [DecidableEq α]
    (h : α → Nat) (hr : Arr α → Nat) (elems searched_in : Arr α)
    (hrank : elems.rank = searched_in.rank) (hv : searched_in.valid) :
    ((Arr.progressive_index_of h hr elems searched_in).data.filter
      (fun i => decide (i < searched_in.row_count))).Nodup := by
  unfold Arr.progressive_index_of
  split
  case isTrue h1 =>
    have h2 : searched_in.rank = 1 := hrank ▸ h1
    obtain ⟨d, hd⟩ : ∃ d, searched_in.shape = [d] := by
      cases hs : searched_in.shape with
      | nil => rw [Arr.rank, hs] at h2; simp at h2
      | cons d rest =>
        cases hr2 : rest with
        | nil => exact ⟨d, by subst hr2; rfl⟩
        | cons _ _ => rw [Arr.rank, hs, hr2] at h2; simp at h2
    have hrc : searched_in.row_count = searched_in.data.length := by
      have hv' : searched_in.data.length = searched_in.shape.prod := hv
      rw [Arr.row_count, hd, hv', hd]
      simp
    rw [hrc]
    exact progScan_filter_nodup h searched_in.data elems.data []
  case isFalse =>
    have hrc : searched_in.row_count = searched_in.rows.length :=
      (rows_length _).symm
    rw [hrc]
    exact progScan_filter_nodup hr searched_in.rows elems.rows []

/-- Witness for C8 at a concrete pair with a repeated query row. -/
theorem progressive_index_of_no_reuse_witness :
    ((Arr.progressive_index_of (α := Nat) (fun x => x) (fun _ => 0)
      ⟨[3], [2, 2, 5]⟩ ⟨[3], [2, 2, 2]⟩).data.filter
      (fun i => decide (i < (⟨[3], [2, 2, 2]⟩ : Arr Nat).row_count))).Nodup :=
  progressive_index_of_no_reuse (fun x => x) (fun _ => 0)
    ⟨[3], [2, 2, 5]⟩ ⟨[3], [2, 2, 2]⟩ (by decide) (by decide)

/-! ### C7: duplicate detection in unpick / unselect -/

/-- Negative-index resolution against an axis length, as the claim
describes it: a negative index counts back from the end. -/
def resolve_index (len : Nat) (i : Int) : Int :=
  if 0 ≤ i then i else (len : Int) + i

/-- C7 is refuted: `unpick` compares raw index rows, so `[0]` and `[-2]` —
which both resolve to row 0 of a 2-row target — are not rejected and a
result is produced; `unselect` checks only adjacent pairs of the sorted
raw list, so `-9` and `1` — which both resolve to row 1 of a 10-row
target — are not rejected either. -/
theorem undo_duplicate_detection_gaps :
    (unpick (α := Nat) [2, 1] [0, -2] ⟨[2], [9, 8]⟩ ⟨[2], [5, 6]⟩ =
        .ok ⟨[2], [8, 6]⟩ ∧
      resolve_index 2 0 = resolve_index 2 (-2)) ∧
    (unselect (α := Nat) [3] [-9, 0, 1] ⟨[3, 1], [100, 101, 102]⟩
        ⟨[10, 1], [0, 1, 2, 3, 4, 5, 6, 7, 8, 9]⟩ =
        .ok ⟨[10, 1], [101, 102, 2, 3, 4, 5, 6, 7, 8, 9]⟩ ∧
      resolve_index 10 (-9) = resolve_index 10 1) := by
  exact ⟨⟨by decide, by decide⟩, ⟨by decide, by decide⟩⟩

lemma lexLe_total : ∀ (a b : List Int), lexLe a b = true ∨ lexLe b a = true := by
  intro a
  induction a with
  | nil => intro b; left; rfl
  | cons x xs ih =>
    intro b
    cases b with
    | nil => right; rfl
    | cons y ys =>
      rcases lt_trichotomy x y with h | h | h
      · left; unfold lexLe; rw [if_pos h]
      · subst h
        rcases ih ys with h' | h'
        · left
          unfold lexLe
          rw [if_neg (lt_irrefl x), if_neg (lt_irrefl x)]
          exact h'
        · right
          unfold lexLe
          rw [if_neg (lt_irrefl x), if_neg (lt_irrefl x)]
          exact h'
      · right; unfold lexLe; rw [if_pos h]

lemma lexLe_antisymm : ∀ (a b : List Int),
    lexLe a b = true → lexLe b a = true → a = b := by
  intro a
  induction a with
  | nil =>
    intro b _ hba
    cases b with
    | nil => rfl
    | cons y ys => simp [lexLe] at hba
  | cons x xs ih =>
    intro b hab hba
    cases b with
    | nil => simp [lexLe] at hab
    | cons y ys =>
      unfold lexLe at hab hba
      rcases lt_trichotomy x y with h | h | h
      · rw [if_neg (by omega : ¬ y < x), if_pos h] at hba
        exact absurd hba (by simp)
      · subst h
        rw [if_neg (lt_irrefl x), if_neg (lt_irrefl x)] at hab hba
        rw [ih ys hab hba]
      · rw [if_neg (by omega : ¬ x < y), if_pos h] at hab
        exact absurd hab (by simp)

lemma lexLe_trans : ∀ (a b c : List Int),
    lexLe a b = true → lexLe b c = true → lexLe a c = true := by
  intro a
  induction a with
  | nil => intro b c _ _; rfl
  | cons x xs ih =>
    intro b c hab hbc
    cases b with
    | nil => simp [lexLe] at hab
    | cons y ys =>
      cases c with
      | nil => simp [lexLe] at hbc
      | cons z zs =>
        unfold lexLe at hab hbc ⊢
        rcases lt_trichotomy x y with h1 | h1 | h1
        · rcases lt_trichotomy y z with h2 | h2 | h2
          · rw [if_pos (by omega)]
          · subst h2; rw [if_pos h1]
          · rw [if_neg (by omega : ¬ y < z), if_pos h2] at hbc
            exact absurd hbc (by simp)
        · subst h1
          rw [if_neg (lt_irrefl x), if_neg (lt_irrefl x)] at hab
          rcases lt_trichotomy x z with h2 | h2 | h2
          · rw [if_pos h2]
          · subst h2
            rw [if_neg (lt_irrefl x), if_neg (lt_irrefl x)] at hbc ⊢
            exact ih ys zs hab hbc
          · rw [if_neg (by omega : ¬ x < z), if_pos h2] at hbc
            exact absurd hbc (by simp)
        · rw [if_neg (by omega : ¬ x < y), if_pos h1] at hab
          exact absurd hab (by simp)

instance : IsTotal (List Int) (fun x y => lexLe x y = true) := ⟨lexLe_total⟩

instance : IsTrans (List Int) (fun x y => lexLe x y = true) :=
  ⟨fun a b c => lexLe_trans a b c⟩

lemma pairwise_dup_adjacent {r : β → β → Prop}
    (anti : ∀ a b, r a b → r b a → a = b) :
    ∀ (l : List β), l.Pairwise r → ¬ l.Nodup →
    ∃ p ∈ l.zip (l.drop 1), p.1 = p.2 := by
  intro l
  induction l with
  | nil => intro _ hnd; simp at hnd
  | cons x xs ih =>
    intro hp hnd
    have hsplit : x ∈ xs ∨ ¬ xs.Nodup := by
      by_contra hcon
      push_neg at hcon
      exact hnd (List.nodup_cons.mpr ⟨hcon.1, hcon.2⟩)
    rcases hsplit with hx | hx
    · cases xs with
      | nil => simp at hx
      | cons y ys =>
        have hxy : r x y := (List.pairwise_cons.mp hp).1 y (by simp)
        have hxeq : x = y := by
          rcases List.mem_cons.mp hx with h | hmem
          · exact h
          · have hyx : r y x :=
              (List.pairwise_cons.mp (List.pairwise_cons.mp hp).2).1 x hmem
            exact anti x y hxy hyx
        exact ⟨(x, y), by simp, hxeq⟩
    · obtain ⟨p, hpmem, hpeq⟩ := ih (List.pairwise_cons.mp hp).2 hx
      cases xs with
      | nil => simp at hpmem
      | cons y ys =>
        refine ⟨p, ?_, hpeq⟩
        simp only [List.drop_succ_cons, List.drop_zero] at hpmem ⊢
        simp only [List.zip_cons_cons, List.mem_cons]
        right
        exact hpmem

lemma sorted_dup_any_adjacent {r : β → β → Prop} [DecidableRel r]
    [IsTotal β r] [IsTrans β r] [DecidableEq β]
    (anti : ∀ a b, r a b → r b a → a = b) (l : List β) (hd : ¬ l.Nodup) :
    ∃ p ∈ (l.insertionSort r).zip ((l.insertionSort r).drop 1), p.1 = p.2 := by
  have hperm : List.Perm (l.insertionSort r) l := List.perm_insertionSort r l
  have hsorted : (l.insertionSort r).Pairwise r := List.sorted_insertionSort r l
  have hnd : ¬ (l.insertionSort r).Nodup := fun hn => hd (hperm.nodup_iff.mp hn)
  exact pairwise_dup_adjacent anti _ hsorted hnd

/-- C7 (amended): `unpick` rejects duplicates of *raw* index rows (sorting
raw rows and comparing adjacent pairs), and `unselect` rejects duplicates
of *raw* index entries; raw-distinct entries that resolve to the same
position are not rejected (see the counterexample). -/
theorem undo_duplicate_detection_raw {α : Type} :
    (∀ (index_shape : List Nat) (index_data : List Int) (a into : Arr α),
      1 < index_shape.length → index_shape.getLastD 0 ≠ 0 →
      ¬ (chunks ((index_data.length + index_shape.getLastD 0 - 1) /
            index_shape.getLastD 0) (index_shape.getLastD 0) index_data).Nodup →
      unpick index_shape index_data a into =
        .error "Cannot undo pick with duplicate indices") ∧
    (∀ (ind_shape : List Nat) (ind : List Int) (a into : Arr α),
      ¬ ind.Nodup →
      unselect ind_shape ind a into =
        .error "Cannot undo selection with duplicate indices") := by
  constructor
  · intro index_shape index_data a into hlen hlast hdup
    unfold unpick
    rw [if_pos hlen, if_neg hlast]
    rw [if_pos ?_]
    obtain ⟨p, hpmem, hpeq⟩ :=
      sorted_dup_any_adjacent (r := fun x y => lexLe x y = true)
        (fun a b => lexLe_antisymm a b) _ hdup
    rw [List.any_eq_true]
    exact ⟨p, hpmem, by simp [hpeq]⟩
  · intro ind_shape ind a into hdup
    unfold unselect
    rw [if_pos ?_]
    obtain ⟨p, hpmem, hpeq⟩ :=
      sorted_dup_any_adjacent (r := fun x y : Int => x ≤ y)
        (fun a b h1 h2 => le_antisymm h1 h2) _ hdup
    rw [List.any_eq_true]
    exact ⟨p, hpmem, by simp [hpeq]⟩

/-- Witness for C7 (amended) at concrete raw duplicates. -/
theorem undo_duplicate_detection_raw_witness :
    unpick (α := Nat) [2, 1] [0, 0] ⟨[2], [9, 8]⟩ ⟨[2], [5, 6]⟩ =
      .error "Cannot undo pick with duplicate indices" ∧
    unselect (α := Nat) [2] [1, 1] ⟨[2, 1], [100, 101]⟩ ⟨[3, 1], [5, 6, 7]⟩ =
      .error "Cannot undo selection with duplicate indices" :=
  ⟨(undo_duplicate_detection_raw (α := Nat)).1 [2, 1] [0, 0] ⟨[2], [9, 8]⟩
      ⟨[2], [5, 6]⟩ (by decide) (by decide) (by decide),
   (undo_duplicate_detection_raw (α := Nat)).2 [2] [1, 1] ⟨[2, 1], [100, 101]⟩
      ⟨[3, 1], [5, 6, 7]⟩ (by decide)⟩

/-! ### C3: the f32 placeholder resolution of derive_shape -/

lemma nlog2Go_spec : ∀ (f n : Nat), 1 ≤ n → n ≤ f →
    2 ^ (nlog2Go f n) ≤ n ∧ n < 2 ^ (nlog2Go f n + 1) := by
  intro f
  induction f with
  | zero => intro n h1 h2; omega
  | succ f ih =>
    intro n h1 h2
    unfold nlog2Go
    by_cases hn : n ≤ 1
    · rw [if_pos hn]
      constructor
      · simpa using h1
      · simp; omega
    · rw [if_neg hn]
      have hrec := ih (n / 2) (by omega) (by omega)
      obtain ⟨hlo, hhi⟩ := hrec
      constructor
      · rw [pow_succ]
        omega
      · rw [pow_succ]
        omega

lemma nlog2_spec (n : Nat) (h : 1 ≤ n) :
    2 ^ (nlog2 n) ≤ n ∧ n < 2 ^ (nlog2 n + 1) :=
  nlog2Go_spec n n h (le_refl n)

lemma rheNat_bound (a b : Nat) (hb : 0 < b) :
    |(rheNat a b : ℚ) - a / b| ≤ 1 / 2 := by
  have hbq : (0 : ℚ) < b := by exact_mod_cast hb
  have hmod : b * (a / b) + a % b = a := Nat.div_add_mod a b
  have h0 : (b : ℚ) * ((a / b : Nat) : ℚ) + ((a % b : Nat) : ℚ) = (a : ℚ) := by
    exact_mod_cast hmod
  have hq : (a : ℚ) / b = ((a / b : Nat) : ℚ) + ((a % b : Nat) : ℚ) / b := by
    rw [← h0, add_div, mul_comm, mul_div_assoc, div_self (ne_of_gt hbq), mul_one]
  have hrlt : a % b < b := Nat.mod_lt a hb
  have hnn : (0 : ℚ) ≤ ((a % b : Nat) : ℚ) / b := by positivity
  have hone : ((a % b : Nat) : ℚ) / b < 1 := by
    rw [div_lt_one hbq]
    exact_mod_cast hrlt
  unfold rheNat
  dsimp only
  split
  case isTrue hlt =>
    have hhalf : ((a % b : Nat) : ℚ) / b ≤ 1 / 2 := by
      rw [div_le_div_iff₀ hbq (by norm_num)]
      have h2 : 2 * (a % b) ≤ b := by omega
      calc ((a % b : Nat) : ℚ) * 2 = ((2 * (a % b) : Nat) : ℚ) := by push_cast; ring
      _ ≤ ((b : Nat) : ℚ) := by exact_mod_cast h2
      _ = 1 * (b : ℚ) := by ring
    rw [hq, abs_le]
    constructor <;> linarith
  case isFalse hge =>
    split
    case isTrue hgt =>
      have hhalf : 1 / 2 ≤ ((a % b : Nat) : ℚ) / b := by
        rw [div_le_div_iff₀ (by norm_num) hbq]
        have h2 : b ≤ 2 * (a % b) := by omega
        calc (1 : ℚ) * b = ((b : Nat) : ℚ) := by ring
        _ ≤ ((2 * (a % b) : Nat) : ℚ) := by exact_mod_cast h2
        _ = ((a % b : Nat) : ℚ) * 2 := by push_cast; ring
      rw [hq, abs_le]
      push_cast
      constructor <;> linarith
    case isFalse hnb =>
      have hEq : ((a % b : Nat) : ℚ) / b = 1 / 2 := by
        have h2 : 2 * (a % b) = b := by omega
        rw [div_eq_div_iff (ne_of_gt hbq) (by norm_num : (2 : ℚ) ≠ 0)]
        calc ((a % b : Nat) : ℚ) * 2 = ((2 * (a % b) : Nat) : ℚ) := by push_cast; ring
        _ = ((b : Nat) : ℚ) := by exact_mod_cast congrArg (fun n : Nat => (n : ℚ)) h2
        _ = 1 * (b : ℚ) := by ring
      split <;>
      · rw [hq, abs_le]
        push_cast
        constructor <;> linarith

lemma rheNat_exact (t b : Nat) (hb : 0 < b) : rheNat (b * t) b = t := by
  unfold rheNat
  dsimp only
  rw [Nat.mul_div_cancel_left t hb, Nat.mul_mod_right]
  rw [if_pos (by omega)]

lemma le2pow_correct (e : Int) (x y : Nat) (hx : 1 ≤ x) (hy : 1 ≤ y) :
    le2pow e x y = true ↔ (2 : ℚ) ^ e ≤ (x : ℚ) / y := by
  have hyq : (0 : ℚ) < y := by exact_mod_cast hy
  unfold le2pow
  split
  case isTrue he =>
    have hz : ((2 ^ e.toNat : Nat) : ℚ) = (2 : ℚ) ^ e := by
      push_cast
      rw [← zpow_natCast (2 : ℚ) e.toNat, Int.toNat_of_nonneg he]
    rw [decide_eq_true_eq, le_div_iff₀ hyq, ← hz]
    constructor <;> intro h <;> exact_mod_cast h
  case isFalse he =>
    have hk : (0 : Int) ≤ -e := by omega
    have hz : ((2 ^ (-e).toNat : Nat) : ℚ) = (2 : ℚ) ^ (-e) := by
      push_cast
      rw [← zpow_natCast (2 : ℚ) (-e).toNat, Int.toNat_of_nonneg hk]
    have hp : (0 : ℚ) < ((2 ^ (-e).toNat : Nat) : ℚ) := by positivity
    rw [decide_eq_true_eq,
      show (2 : ℚ) ^ e = 1 / ((2 ^ (-e).toNat : Nat) : ℚ) by
        rw [hz, zpow_neg, one_div, inv_inv],
      div_le_div_iff₀ hp hyq, one_mul]
    constructor <;> intro h <;> exact_mod_cast h

lemma qlog2Pair_spec (x y : Nat) (hx : 1 ≤ x) (hy : 1 ≤ y) :
    (2 : ℚ) ^ (qlog2Pair x y) ≤ (x : ℚ) / y ∧
    (x : ℚ) / y < 2 ^ (qlog2Pair x y + 1) := by
  have hyq : (0 : ℚ) < y := by exact_mod_cast hy
  obtain ⟨hx1, hx2⟩ := nlog2_spec x hx
  obtain ⟨hy1, hy2⟩ := nlog2_spec y hy
  set la := nlog2 x
  set lb := nlog2 y
  have hx1q : ((2 : ℚ)) ^ (la : Int) ≤ x := by
    rw [zpow_natCast]
    exact_mod_cast hx1
  have hx2q : (x : ℚ) < 2 ^ ((la : Int) + 1) := by
    rw [show (la : Int) + 1 = ((la + 1 : Nat) : Int) by push_cast; ring, zpow_natCast]
    exact_mod_cast hx2
  have hy1q : ((2 : ℚ)) ^ (lb : Int) ≤ y := by
    rw [zpow_natCast]
    exact_mod_cast hy1
  have hy2q : (y : ℚ) < 2 ^ ((lb : Int) + 1) := by
    rw [show (lb : Int) + 1 = ((lb + 1 : Nat) : Int) by push_cast; ring, zpow_natCast]
    exact_mod_cast hy2
  have hupper : (x : ℚ) / y < 2 ^ ((la : Int) - lb + 1) := by
    rw [div_lt_iff₀ hyq]
    calc (x : ℚ) < 2 ^ ((la : Int) + 1) := hx2q
    _ = 2 ^ ((la : Int) - lb + 1) * 2 ^ (lb : Int) := by
        rw [← zpow_add₀ (by norm_num : (2 : ℚ) ≠ 0)]
        congr 1
        ring
    _ ≤ 2 ^ ((la : Int) - lb + 1) * y := by
        have hpos : (0 : ℚ) < 2 ^ ((la : Int) - lb + 1) := by positivity
        exact mul_le_mul_of_nonneg_left hy1q (le_of_lt hpos)
  have hlower : (2 : ℚ) ^ ((la : Int) - lb - 1) < (x : ℚ) / y := by
    rw [lt_div_iff₀ hyq]
    calc (2 : ℚ) ^ ((la : Int) - lb - 1) * y
        < 2 ^ ((la : Int) - lb - 1) * 2 ^ ((lb : Int) + 1) := by
          have hpos : (0 : ℚ) < 2 ^ ((la : Int) - lb - 1) := by positivity
          exact mul_lt_mul_of_pos_left hy2q hpos
    _ = 2 ^ (la : Int) := by
        rw [← zpow_add₀ (by norm_num : (2 : ℚ) ≠ 0)]
        congr 1
        ring
    _ ≤ x := hx1q
  unfold qlog2Pair
  dsimp only
  split
  case isTrue hle =>
    exact ⟨(le2pow_correct _ x y hx hy).mp hle, hupper⟩
  case isFalse hle =>
    have hnot : ¬ ((2 : ℚ) ^ ((la : Int) - lb) ≤ (x : ℚ) / y) := fun hcon =>
      hle ((le2pow_correct _ x y hx hy).mpr hcon)
    push_neg at hnot
    refine ⟨le_of_lt hlower, ?_⟩
    rw [show (la : Int) - lb - 1 + 1 = (la : Int) - lb by ring]
    exact hnot

lemma div_le_div_of_le_num (x y a : ℚ) (ha : 0 < a) (h : x ≤ y) : x / a ≤ y / a := by
  rw [div_le_div_iff₀ ha ha]
  exact mul_le_mul_of_nonneg_right h (le_of_lt ha)

lemma ceil_div_between (m k E : Nat) (h1 : k * E < m) (h2 : m < (k + 1) * E) :
    (m + E - 1) / E = k + 1 := by
  have hs1 : (k + 1) * E = k * E + E := by ring
  have hs2 : (k + 1 + 1) * E = k * E + E + E := by ring
  refine Nat.div_eq_of_lt_le ?_ ?_
  · omega
  · omega

lemma ceil_div_exact (k E : Nat) (hE : 0 < E) : (k * E + E - 1) / E = k := by
  have hs1 : (k + 1) * E = k * E + E := by ring
  refine Nat.div_eq_of_lt_le ?_ ?_
  · omega
  · omega

/-- In the exact regime (`data_len` and `other_len` both below `2²⁴`), the
rounded single-precision quotient still floors/ceils to the true integer
quotient, so `derive_len` computes exactly `⌊a/b⌋` (no fill) or `⌈a/b⌉`
(fill). -/
lemma derive_len_exact (hf : Bool) (a b : Nat) (hb : 0 < b)
    (ha24 : a < 2 ^ 24) (hb24 : b < 2 ^ 24) :
    derive_len hf a b = if hf then (a + b - 1) / b else a / b := by
  have hbq : (0 : ℚ) < b := by exact_mod_cast hb
  by_cases ha0 : a = 0
  · subst ha0
    unfold derive_len
    rw [if_pos (Or.inl rfl)]
    cases hf
    · simp
    · simp only [if_true]
      rw [Nat.zero_add]
      exact (Nat.div_eq_of_lt (by omega)).symm
  · have ha : 0 < a := Nat.pos_of_ne_zero ha0
    have haq : (0 : ℚ) < a := by exact_mod_cast ha
    unfold derive_len
    rw [if_neg (by omega)]
    dsimp only
    have hxa : toF32nat a = a := by unfold toF32nat; rw [if_pos ha24]
    have hxb : toF32nat b = b := by unfold toF32nat; rw [if_pos hb24]
    rw [hxa, hxb]
    obtain ⟨he1, he2⟩ := qlog2Pair_spec a b ha hb
    set e := qlog2Pair a b with hedef
    have hla : nlog2 a ≤ 23 := by
      obtain ⟨h1, _⟩ := nlog2_spec a ha
      by_contra hcon
      push_neg at hcon
      have : 2 ^ 24 ≤ 2 ^ nlog2 a := Nat.pow_le_pow_right (by norm_num) (by omega)
      omega
    have he23 : e ≤ 23 := by
      rw [hedef]
      unfold qlog2Pair
      dsimp only
      split <;> omega
    rw [if_pos he23]
    by_cases hge : 23 ≤ e
    · rw [if_pos hge]
      have he : e = 23 := le_antisymm he23 hge
      have hval : (2 : ℚ) ^ (23 : Int) = 8388608 := by norm_num
      have ha24q : (a : ℚ) < 16777216 := by
        have h24 : ((2 ^ 24 : Nat) : ℚ) = 16777216 := by norm_num
        rw [← h24]
        exact_mod_cast ha24
      have hb1 : b = 1 := by
        by_contra hbne
        have hb2q : (2 : ℚ) ≤ b := by
          have h2 : 2 ≤ b := by omega
          exact_mod_cast h2
        have h1 : (2 : ℚ) ^ (23 : Int) * b ≤ a := by
          rw [← le_div_iff₀ hbq, ← he]
          exact he1
        rw [hval] at h1
        linarith
      subst hb1
      rw [he]
      norm_num
      have hra : rheNat a 1 = a := by
        have h := rheNat_exact a 1 one_pos
        rwa [one_mul] at h
      cases hf <;> simp [hra]
    · rw [if_neg hge]
      set s := (23 - e).toNat with hsdef
      have hsI : ((s : Nat) : Int) = 23 - e := Int.toNat_of_nonneg (by omega)
      set m := rheNat (a * 2 ^ s) b with hmdef
      set k := a / b with hkdef
      have hE : 0 < 2 ^ s := Nat.two_pow_pos s
      have hmod : b * k + a % b = a := Nat.div_add_mod a b
      by_cases hr0 : a % b = 0
      · -- exact division: the scaled significand is exact
        have hdvd : a = b * k := by omega
        have hm : m = k * 2 ^ s := by
          rw [hmdef, show a * 2 ^ s = b * (k * 2 ^ s) by rw [hdvd]; ring]
          exact rheNat_exact (k * 2 ^ s) b hb
        have hfloorL : m / 2 ^ s = k := by
          rw [hm]
          exact Nat.mul_div_cancel k hE
        have hceilL : (m + 2 ^ s - 1) / 2 ^ s = k := by
          rw [hm]
          exact ceil_div_exact k (2 ^ s) hE
        have hceilR : (a + b - 1) / b = k := by
          rw [hdvd, mul_comm]
          exact ceil_div_exact k b hb
        cases hf
        · simpa using hfloorL
        · simp only [if_true]
          rw [hceilL, hceilR]
      · -- inexact division: the rounding error stays below the gap to the
        -- nearest integer multiple
        have hr1 : 1 ≤ a % b := Nat.pos_of_ne_zero hr0
        have hrlt : a % b < b := Nat.mod_lt a hb
        have habs : -(1/2 : ℚ) ≤ (m : ℚ) - ((a : ℚ)/b) * 2 ^ s ∧
            (m : ℚ) - ((a : ℚ)/b) * 2 ^ s ≤ 1/2 := by
          have h := rheNat_bound (a * 2 ^ s) b hb
          rw [← hmdef] at h
          rw [abs_le] at h
          have hcast : (((a * 2 ^ s : Nat)) : ℚ) / b = ((a : ℚ)/b) * 2 ^ s := by
            push_cast
            ring
          rw [hcast] at h
          exact h
        have hpow : (2 : ℚ) ^ e * (2 : ℚ) ^ (s : ℕ) = 2 ^ (23 : ℕ) := by
          rw [← zpow_natCast (2 : ℚ) s, hsI, ← zpow_add₀ (by norm_num : (2 : ℚ) ≠ 0),
            show e + (23 - e) = ((23 : ℕ) : Int) by ring, zpow_natCast]
        have hq23 : (2 : ℚ) ^ (23 : ℕ) ≤ ((a : ℚ)/b) * 2 ^ s := by
          rw [← hpow]
          exact mul_le_mul_of_nonneg_right he1 (by positivity)
        have hid : (((a : ℚ)/b) * 2 ^ s) / a = (2 : ℚ) ^ s / b := by
          field_simp
          ring
        have hgap : (1 : ℚ)/2 < (2 : ℚ) ^ s / b := by
          rw [← hid]
          have h1 : (2 : ℚ) ^ (23 : ℕ) / a ≤ (((a : ℚ)/b) * 2 ^ s) / a :=
            div_le_div_of_le_num _ _ _ haq hq23
          have ha24q : (a : ℚ) < 16777216 := by
            have h24 : ((2 ^ 24 : Nat) : ℚ) = 16777216 := by norm_num
            rw [← h24]
            exact_mod_cast ha24
          have h2 : (1 : ℚ)/2 < (2 : ℚ) ^ (23 : ℕ) / a := by
            rw [div_lt_div_iff₀ (by norm_num) haq]
            norm_num
            linarith
          linarith
        have h5 : (2 : ℚ) ^ s / b ≤ (((a % b : Nat) : ℚ)/b) * 2 ^ s := by
          rw [div_mul_eq_mul_div]
          apply div_le_div_of_le_num _ _ _ hbq
          have hr1q : (1 : ℚ) ≤ ((a % b : Nat) : ℚ) := by exact_mod_cast hr1
          exact le_mul_of_one_le_left (by positivity) hr1q
        have hrhigh : ((a % b : Nat) : ℚ)/b ≤ 1 - 1/b := by
          have hrb : ((a % b : Nat) : ℚ) ≤ (b : ℚ) - 1 := by
            have h : a % b + 1 ≤ b := hrlt
            have h2 : (((a % b + 1 : Nat)) : ℚ) ≤ b := by exact_mod_cast h
            push_cast at h2
            linarith
          have h7 : ((a % b : Nat) : ℚ)/b ≤ ((b : ℚ) - 1)/b :=
            div_le_div_of_le_num _ _ _ hbq hrb
          have h8 : ((b : ℚ) - 1)/b = 1 - 1/b := by field_simp
          linarith
        have h6 : (((a % b : Nat) : ℚ)/b) * 2 ^ s ≤ ((1 : ℚ) - 1/b) * 2 ^ s :=
          mul_le_mul_of_nonneg_right hrhigh (by positivity)
        have hqd : (a : ℚ)/b = (k : ℚ) + ((a % b : Nat) : ℚ)/b := by
          have h0 : (b : ℚ) * (k : ℚ) + ((a % b : Nat) : ℚ) = (a : ℚ) := by
            exact_mod_cast hmod
          rw [← h0, add_div, mul_comm, mul_div_assoc, div_self (ne_of_gt hbq), mul_one]
        have hx : ((a : ℚ)/b) * 2 ^ s =
            (k : ℚ) * 2 ^ s + (((a % b : Nat) : ℚ)/b) * 2 ^ s := by
          rw [hqd]; ring
        have hy : ((1 : ℚ) - 1/b) * 2 ^ s = 2 ^ s - 2 ^ s / b := by ring
        have hlowQ : (k : ℚ) * 2 ^ s < m := by linarith [habs.1]
        have hupQ : (m : ℚ) < ((k : ℚ) + 1) * 2 ^ s := by
          have hz2 : ((k : ℚ) + 1) * 2 ^ s = (k : ℚ) * 2 ^ s + 2 ^ s := by ring
          linarith [habs.2]
        have hlowN : k * 2 ^ s < m := by
          have hcst : ((k * 2 ^ s : Nat) : ℚ) < (m : ℚ) := by push_cast; exact hlowQ
          exact_mod_cast hcst
        have hupN : m < (k + 1) * 2 ^ s := by
          have hcst : (m : ℚ) < (((k + 1) * 2 ^ s : Nat) : ℚ) := by push_cast; exact hupQ
          exact_mod_cast hcst
        have hfloorL : m / 2 ^ s = k := Nat.div_eq_of_lt_le (le_of_lt hlowN) hupN
        have hceilL : (m + 2 ^ s - 1) / 2 ^ s = k + 1 := ceil_div_between m k (2 ^ s) hlowN hupN
        have hceilR : (a + b - 1) / b = k + 1 := by
          have hmod2 : k * b + a % b = a := by rw [mul_comm]; exact hmod
          refine ceil_div_between a k b ?_ ?_
          · omega
          · have hs1 : (k + 1) * b = k * b + b := by ring
            omega
        cases hf
        · simpa using hfloorL
        · simp only [if_true]
          rw [hceilL, hceilR]

lemma toNat_mul_nonneg (x y : Int) (hx : 0 ≤ x) (hy : 0 ≤ y) :
    (x * y).toNat = x.toNat * y.toNat := by
  obtain ⟨n, rfl⟩ := Int.eq_ofNat_of_zero_le hx
  obtain ⟨m, rfl⟩ := Int.eq_ofNat_of_zero_le hy
  rw [← Int.natCast_mul]
  rfl

lemma filter_neg_singleton (x : Int) (hx : x < 0) (l1 l2 : List Int)
    (h1 : ∀ y ∈ l1, (0:Int) ≤ y) (h2 : ∀ y ∈ l2, (0:Int) ≤ y) :
    (l1 ++ x :: l2).filter (fun z => decide (z < 0)) = [x] := by
  have hl1 : l1.filter (fun z => decide (z < 0)) = [] :=
    List.filter_eq_nil_iff.mpr (fun a ha => by simpa using h1 a ha)
  have hl2 : l2.filter (fun z => decide (z < 0)) = [] :=
    List.filter_eq_nil_iff.mpr (fun a ha => by simpa using h2 a ha)
  rw [List.filter_append, List.filter_cons, if_pos (by simpa using hx), hl1, hl2]
  rfl

lemma any_neg_eq_false (l : List Int) (h : ∀ y ∈ l, (0:Int) ≤ y) :
    l.any (fun x => decide (x < 0)) = false := by
  rw [List.any_eq_false]
  intro x hx
  simpa using h x hx

lemma getLast_cons_append (x : Int) (l2 : List Int) :
    ∀ (f0 : Int) (fr : List Int) (h : f0 :: (fr ++ x :: l2) ≠ []),
    (f0 :: (fr ++ x :: l2)).getLast h = (x :: l2).getLast (List.cons_ne_nil x l2) := by
  intro f0 fr
  induction fr generalizing f0 with
  | nil =>
    intro h
    exact List.getLast_cons (List.cons_ne_nil x l2)
  | cons a fr ih =>
    intro h
    exact (List.getLast_cons (List.cons_ne_nil a (fr ++ x :: l2))).trans
      (ih a (List.cons_ne_nil a (fr ++ x :: l2)))

lemma findIdx_append_neg (x : Int) (l2 : List Int) (hx : x < 0) :
    ∀ (l1 : List Int), (∀ y ∈ l1, (0:Int) ≤ y) →
    (l1 ++ x :: l2).findIdx (fun z => decide (z < 0)) = l1.length := by
  intro l1
  induction l1 with
  | nil =>
    intro _
    rw [List.nil_append]
    simp [List.findIdx_cons, hx]
  | cons a l ih =>
    intro h
    have ha : decide (a < 0) = false := by
      simpa using h a (List.mem_cons_self a l)
    rw [List.cons_append, List.findIdx_cons, ha]
    simp only [cond_false, List.length_cons]
    rw [ih (fun y hy => h y (List.mem_cons_of_mem a hy))]

lemma filter_length_one_split (p : Int → Bool) :
    ∀ (l : List Int), (l.filter p).length = 1 →
    ∃ l1 x l2, l = l1 ++ x :: l2 ∧ p x = true ∧
      (∀ y ∈ l1, p y = false) ∧ (∀ y ∈ l2, p y = false) := by
  intro l
  induction l with
  | nil => intro h; simp at h
  | cons a l ih =>
    intro h
    rw [List.filter_cons] at h
    by_cases hpa : p a = true
    · rw [if_pos hpa] at h
      have hnil : l.filter p = [] := by simpa using h
      refine ⟨[], a, l, by simp, hpa, by simp, ?_⟩
      intro y hy
      exact Bool.eq_false_iff.mpr (List.filter_eq_nil_iff.mp hnil y hy)
    · rw [if_neg hpa] at h
      obtain ⟨l1, x, l2, rfl, hx, h1, h2⟩ := ih h
      refine ⟨a :: l1, x, l2, by simp, hx, ?_, h2⟩
      intro y hy
      rcases List.mem_cons.mp hy with rfl | hy
      · exact Bool.eq_false_iff.mpr hpa
      · exact h1 y hy

/-- Branchwise reduction of `derive_shape` when the dimension list splits as
`front ++ d :: back` with `d` the unique negative entry: the result is an
error exactly when the product of the other dimensions is zero, and otherwise
the placeholder slot receives `derive_len` of that product. -/
lemma derive_shape_split (shape : List Nat) (hf : Bool) (front : List Int)
    (d : Int) (back : List Int) (hd : d < 0)
    (hfr : ∀ y ∈ front, (0:Int) ≤ y) (hbk : ∀ y ∈ back, (0:Int) ≤ y) :
    derive_shape shape (front ++ d :: back) hf =
      if (front.prod * back.prod).toNat = 0 then
        .error (if front = [] then "Cannot reshape array with any 0 non-leading dimensions"
                else if back = [] then "Cannot reshape array with any 0 non-trailing dimensions"
                else "Cannot reshape array with any 0 outer dimensions")
      else
        .ok (front.map Int.toNat ++
              derive_len hf shape.prod (front.prod * back.prod).toNat ::
              back.map Int.toNat) := by
  rcases front with _ | ⟨f0, fr⟩
  · -- leading placeholder
    have hfilter : (d :: back).filter (fun z => decide (z < 0)) = [d] := by
      have := filter_neg_singleton d hd [] back (by simp) hbk
      rwa [List.nil_append] at this
    have hany : back.any (fun x => decide (x < 0)) = false := any_neg_eq_false back hbk
    have hc0 : ¬ (([d] : List Int).length = 0) := by simp
    have hc1 : ([d] : List Int).length = 1 := rfl
    have hcf : ¬ (false = true) := by simp
    rw [List.nil_append]
    unfold derive_shape
    dsimp only
    rw [hfilter, if_neg hc0, if_pos hc1, if_pos hd, hany, if_neg hcf]
    have ho : (List.prod ([] : List Int) * back.prod).toNat = back.prod.toNat := by simp
    rw [ho]
    rcases eq_or_ne back.prod.toNat 0 with h | h
    · rw [if_pos h, if_pos h]
      rfl
    · rw [if_neg h, if_neg h]
      simp
  · have hf0 : (0:Int) ≤ f0 := hfr f0 (List.mem_cons_self f0 fr)
    have hfr' : ∀ y ∈ fr, (0:Int) ≤ y := fun y hy => hfr y (List.mem_cons_of_mem f0 hy)
    have hfilter : (f0 :: (fr ++ d :: back)).filter (fun z => decide (z < 0)) = [d] := by
      have hff : decide (f0 < 0) = false := by simpa using hf0
      have hcf0 : ¬ (false = true) := by simp
      rw [List.filter_cons, hff, if_neg hcf0]
      exact filter_neg_singleton d hd fr back hfr' hbk
    have hc0 : ¬ (([d] : List Int).length = 0) := by simp
    have hc1 : ([d] : List Int).length = 1 := rfl
    rw [List.cons_append]
    unfold derive_shape
    dsimp only
    rw [hfilter, if_neg hc0, if_pos hc1, if_neg (not_lt.mpr hf0)]
    rcases back with _ | ⟨b0, bk⟩
    · -- trailing placeholder
      rw [getLast_cons_append d [] f0 fr]
      have hgl : ∀ (h : ([d] : List Int) ≠ []), ([d] : List Int).getLast h = d :=
        fun _ => rfl
      rw [hgl, if_pos hd]
      have hdl : (f0 :: (fr ++ d :: ([] : List Int))).dropLast = f0 :: fr := by
        rw [← List.cons_append, List.dropLast_concat]
      have hcf : ¬ (false = true) := by simp
      rw [hdl, any_neg_eq_false (f0 :: fr) hfr, if_neg hcf]
      have ho : ((f0 :: fr).prod * List.prod ([] : List Int)).toNat =
          (f0 :: fr).prod.toNat := by simp
      rw [ho]
      have hne1 : ¬ ((f0 :: fr : List Int) = []) := by simp
      rcases eq_or_ne (f0 :: fr).prod.toNat 0 with h | h
      · rw [if_pos h, if_pos h, if_neg hne1, if_pos rfl]
      · rw [if_neg h, if_neg h]
        simp
    · -- middle placeholder
      have hlastnn : (0:Int) ≤ (b0 :: bk).getLast (List.cons_ne_nil b0 bk) :=
        hbk _ (List.getLast_mem _)
      rw [getLast_cons_append d (b0 :: bk) f0 fr, List.getLast_cons (List.cons_ne_nil b0 bk)]
      rw [if_neg (not_lt.mpr hlastnn)]
      have hfind : (f0 :: (fr ++ d :: b0 :: bk)).findIdx (fun z => decide (z < 0)) =
          fr.length + 1 := by
        rw [show f0 :: (fr ++ d :: b0 :: bk) = (f0 :: fr) ++ d :: b0 :: bk from rfl]
        rw [findIdx_append_neg d (b0 :: bk) hd (f0 :: fr) hfr]
        rfl
      rw [hfind]
      have htake : (f0 :: (fr ++ d :: b0 :: bk)).take (fr.length + 1) = f0 :: fr := by
        rw [List.take_succ_cons]
        congr 1
        simp [List.take_left]
      have hdrop : (f0 :: (fr ++ d :: b0 :: bk)).drop (fr.length + 1 + 1) = b0 :: bk := by
        rw [List.drop_succ_cons]
        simp [List.drop_append]
      rw [htake, hdrop]
      have hfp : (0:Int) ≤ (f0 :: fr).prod := List.prod_nonneg hfr
      have hbp : (0:Int) ≤ (b0 :: bk).prod := List.prod_nonneg hbk
      have ho : ((f0 :: fr).prod * (b0 :: bk).prod).toNat =
          (f0 :: fr).prod.toNat * (b0 :: bk).prod.toNat :=
        toNat_mul_nonneg _ _ hfp hbp
      rw [ho]
      have hne1 : ¬ ((f0 :: fr : List Int) = []) := by simp
      have hne2 : ¬ ((b0 :: bk : List Int) = []) := by simp
      by_cases hz : (f0 :: fr).prod.toNat = 0 ∨ (b0 :: bk).prod.toNat = 0
      · rw [if_pos hz, if_pos (Nat.mul_eq_zero.mpr hz), if_neg hne1, if_neg hne2]
      · have hnz : ¬ ((f0 :: fr).prod.toNat * (b0 :: bk).prod.toNat = 0) :=
          fun hc => hz (Nat.mul_eq_zero.mp hc)
        rw [if_neg hz, if_neg hnz]

/-- **C3.** `derive_shape` errors on more than one negative placeholder; with
exactly one negative placeholder it errors when the product of the other
dimensions is zero, and otherwise resolves the placeholder to exactly
`⌈total/other⌉` (fill available) or `⌊total/other⌋` (no fill) — the latter
guaranteed only in the exact `f32` regime where both the element count and
the other-dimension product are below `2²⁴` (see
`derive_shape_f32_inexact` for the failure beyond it). -/
theorem derive_shape_placeholder (shape : List Nat) (dims : List Int) (hf : Bool) :
    (2 ≤ (dims.filter (· < 0)).length →
      derive_shape shape dims hf =
        .error "Cannot reshape array with multiple negative dimensions") ∧
    ((dims.filter (· < 0)).length = 1 →
      (((dims.filter (0 ≤ ·)).prod).toNat = 0 →
        ∃ msg, derive_shape shape dims hf = .error msg) ∧
      (0 < ((dims.filter (0 ≤ ·)).prod).toNat →
        shape.prod < 2 ^ 24 → ((dims.filter (0 ≤ ·)).prod).toNat < 2 ^ 24 →
        derive_shape shape dims hf = .ok (dims.map (fun d =>
          if d < 0 then
            (if hf then
              (shape.prod + ((dims.filter (0 ≤ ·)).prod).toNat - 1) /
                ((dims.filter (0 ≤ ·)).prod).toNat
             else shape.prod / ((dims.filter (0 ≤ ·)).prod).toNat)
          else d.toNat)))) := by
  constructor
  · intro h2
    have hA : ¬ ((dims.filter (· < 0)).length = 0) := by omega
    have hB : ¬ ((dims.filter (· < 0)).length = 1) := by omega
    unfold derive_shape
    dsimp only
    rw [if_neg hA, if_neg hB]
  · intro h1
    obtain ⟨front, d, back, hdec, hx, hfr0, hbk0⟩ :=
      filter_length_one_split (fun z => decide (z < 0)) dims h1
    subst hdec
    have hd : d < 0 := of_decide_eq_true hx
    have hfr : ∀ y ∈ front, (0:Int) ≤ y :=
      fun y hy => not_lt.mp (of_decide_eq_false (hfr0 y hy))
    have hbk : ∀ y ∈ back, (0:Int) ≤ y :=
      fun y hy => not_lt.mp (of_decide_eq_false (hbk0 y hy))
    have hsplit := derive_shape_split shape hf front d back hd hfr hbk
    have hfilnn : (front ++ d :: back).filter (fun z => decide (0 ≤ z)) =
        front ++ back := by
      have hdneg : decide ((0:Int) ≤ d) = false := by simpa using hd
      have hcf : ¬ (false = true) := by simp
      rw [List.filter_append, List.filter_cons, hdneg, if_neg hcf,
        List.filter_eq_self.mpr (fun a ha => by simpa using hfr a ha),
        List.filter_eq_self.mpr (fun a ha => by simpa using hbk a ha)]
    have hprod : (((front ++ d :: back).filter (fun z => decide (0 ≤ z))).prod).toNat =
        (front.prod * back.prod).toNat := by
      rw [hfilnn, List.prod_append]
    rw [hprod]
    constructor
    · intro hzero
      exact ⟨_, by rw [hsplit, if_pos hzero]⟩
    · intro hpos hs24 ho24
      rw [hsplit, if_neg (Nat.pos_iff_ne_zero.mp hpos)]
      rw [derive_len_exact hf shape.prod (front.prod * back.prod).toNat hpos hs24 ho24]
      have hmap : (front ++ d :: back).map (fun x =>
          if x < 0 then
            (if hf then
              (shape.prod + (front.prod * back.prod).toNat - 1) /
                (front.prod * back.prod).toNat
             else shape.prod / (front.prod * back.prod).toNat)
          else x.toNat) =
          front.map Int.toNat ++
            (if hf then
              (shape.prod + (front.prod * back.prod).toNat - 1) /
                (front.prod * back.prod).toNat
             else shape.prod / (front.prod * back.prod).toNat) ::
            back.map Int.toNat := by
        rw [List.map_append, List.map_cons, if_pos hd]
        congr 1
        · exact List.map_congr_left (fun a ha => if_neg (not_lt.mpr (hfr a ha)))
        · congr 1
          exact List.map_congr_left (fun a ha => if_neg (not_lt.mpr (hbk a ha)))
      rw [hmap]

/-- C3 counterexample: outside the 24-bit-exact regime the `f32` round trip
is lossy — reshaping a 16777217-element array with target `[-1]` and no fill
yields leading dimension 16777216, not the claimed
`⌊16777217 / 1⌋ = 16777217`. -/
theorem derive_shape_f32_inexact :
    derive_shape [16777217] [(-1 : Int)] false = .ok [16777216] ∧
    (16777217 : Nat) / 1 = 16777217 ∧ (16777216 : Nat) ≠ 16777217 := by
  refine ⟨by decide, by decide, by decide⟩

theorem derive_shape_placeholder_witness :
    derive_shape [6] [(2 : Int), -1] true = .ok [2, 3] ∧
    derive_shape [7] [(2 : Int), -1] false = .ok [2, 3] := by
  constructor
  · have h := ((derive_shape_placeholder [6] [(2 : Int), -1] true).2 (by decide)).2
      (by decide) (by decide) (by decide)
    rw [h]
    rfl
  · have h := ((derive_shape_placeholder [7] [(2 : Int), -1] false).2 (by decide)).2
      (by decide) (by decide) (by decide)
    rw [h]
    rfl

/-! ### C2: the buffer-length invariant across the suite -/

lemma bind_err {ε β γ : Type} (e : ε) (f : β → Except ε γ) :
    (Except.error e : Except ε β) >>= f = .error e := rfl

lemma mapM_ok_forall {β γ ε : Type} {f : β → Except ε γ} :
    ∀ {l : List β} {out : List γ}, l.mapM f = .ok out →
      List.Forall₂ (fun x y => f x = .ok y) l out := by
  intro l
  induction l with
  | nil =>
    intro out h
    simp only [List.mapM_nil, pure, Except.pure] at h
    cases h
    exact List.Forall₂.nil
  | cons x xs ih =>
    intro out h
    rw [List.mapM_cons] at h
    cases hx : f x with
    | error e => rw [hx] at h; exact absurd h (by simp [bind_err])
    | ok y =>
      rw [hx, bind_ok] at h
      cases hxs : xs.mapM f with
      | error e => rw [hxs] at h; exact absurd h (by simp [bind_err])
      | ok ys =>
        rw [hxs, bind_ok] at h
        simp only [pure, Except.pure, Except.ok.injEq] at h
        subst h
        exact List.Forall₂.cons hx (ih hxs)

lemma forall₂_mem_right {β γ : Type} {r : β → γ → Prop} :
    ∀ {l : List β} {out : List γ}, List.Forall₂ r l out →
      ∀ y ∈ out, ∃ x ∈ l, r x y := by
  intro l out h
  induction h with
  | nil => intro y hy; simp at hy
  | cons hr _ ih =>
    intro y hy
    rcases List.mem_cons.mp hy with rfl | hy
    · exact ⟨_, by simp, hr⟩
    · obtain ⟨x, hx, hxy⟩ := ih y hy
      exact ⟨x, by simp [hx], hxy⟩

lemma foldlM_ok_invariant {β γ ε : Type} {P : γ → Prop} {step : γ → β → Except ε γ}
    (hstep : ∀ acc x out, P acc → step acc x = .ok out → P out) :
    ∀ (l : List β) (acc out : γ), List.foldlM step acc l = .ok out → P acc → P out := by
  intro l
  induction l with
  | nil =>
    intro acc out h hP
    simp only [List.foldlM_nil, pure, Except.pure] at h
    cases h
    exact hP
  | cons x xs ih =>
    intro acc out h hP
    rw [List.foldlM_cons] at h
    cases hx : step acc x with
    | error e => rw [hx] at h; exact absurd h (by simp [bind_err])
    | ok acc2 =>
      rw [hx, bind_ok] at h
      exact ih acc2 out h (hstep acc x acc2 hP hx)

lemma length_flatMap_const {β : Type} {c : Nat} {f : β → List α} {l : List β}
    (h : ∀ x ∈ l, (f x).length = c) : (l.flatMap f).length = l.length * c := by
  rw [List.length_flatMap]
  rw [List.map_congr_left (g := fun _ => c) ?_]
  · rw [List.map_const', List.sum_replicate, smul_eq_mul]
  · intro x hx
    simp only [Function.comp_apply]
    exact h x hx

lemma from_row_arrays_infallible_valid {rows : List (Arr α)}
    (h : ∀ r ∈ rows, r.valid)
    (hsh : ∀ r ∈ rows, ∀ s ∈ rows, r.shape = s.shape) :
    (from_row_arrays_infallible rows).valid := by
  cases rows with
  | nil => simp [from_row_arrays_infallible, Arr.valid]
  | cons r rs =>
    unfold from_row_arrays_infallible Arr.valid
    simp only [List.prod_cons]
    have : ((r :: rs).flatMap (·.data)).length = (r :: rs).length * r.shape.prod := by
      apply length_flatMap_const
      intro x hx
      rw [h x hx, hsh x hx r (by simp)]
    rw [this, List.length_cons]

lemma from_row_arrays_infallible_row_count (rows : List (Arr α)) :
    (from_row_arrays_infallible rows).row_count = rows.length := by
  cases rows with
  | nil => rfl
  | cons r rs => simp [from_row_arrays_infallible, Arr.row_count]

lemma overwrite_length (start cnt : Nat) (src dst : List α) :
    (overwrite start cnt src dst).length = dst.length := by
  simp [overwrite]

lemma zip_self_map_one (f : Nat × Nat → Nat) (hf : ∀ x, f (x, x) = 1) :
    ∀ (l : List Nat), (l.zip l).map f = List.replicate l.length 1 := by
  intro l
  induction l with
  | nil => rfl
  | cons x l ih =>
    simp only [List.zip_cons_cons, List.map_cons, List.length_cons,
      List.replicate_succ, hf]
    rw [ih]

lemma zip_eq_zip_take {β γ : Type} : ∀ (l1 : List β) (l2 : List γ),
    l1.zip l2 = (l1.take l2.length).zip l2 := by
  intro l1
  induction l1 with
  | nil => intro l2; simp
  | cons x l1 ih =>
    intro l2
    cases l2 with
    | nil => simp
    | cons y l2 =>
      simp only [List.length_cons, List.take_succ_cons, List.zip_cons_cons]
      rw [ih l2]

lemma zip_append_left_eq {β γ : Type} : ∀ (l : List β) (x y : List γ),
    l.length = x.length → l.zip (x ++ y) = l.zip x := by
  intro l
  induction l with
  | nil => intro x y _; simp
  | cons a l ih =>
    intro x y h
    cases x with
    | nil => simp at h
    | cons b x =>
      simp only [List.cons_append, List.zip_cons_cons]
      rw [ih x y (by simpa using h)]

lemma mem_zip_swap {β γ : Type} : ∀ {l1 : List β} {l2 : List γ} {p : β × γ},
    p ∈ l1.zip l2 → (p.2, p.1) ∈ l2.zip l1 := by
  intro l1
  induction l1 with
  | nil => intro l2 p h; simp at h
  | cons x l1 ih =>
    intro l2 p h
    cases l2 with
    | nil => simp at h
    | cons y l2 =>
      simp only [List.zip_cons_cons, List.mem_cons] at h ⊢
      rcases h with rfl | h
      · exact Or.inl rfl
      · exact Or.inr (ih h)

lemma zip_reverse_of_length_eq {β γ : Type} : ∀ (l1 : List β) (l2 : List γ),
    l1.length = l2.length → l1.reverse.zip l2.reverse = (l1.zip l2).reverse := by
  intro l1
  induction l1 with
  | nil =>
    intro l2 h
    have : l2 = [] := List.eq_nil_of_length_eq_zero (by simpa using h.symm)
    subst this
    rfl
  | cons x l1 ih =>
    intro l2 h
    cases l2 with
    | nil => simp at h
    | cons y l2 =>
      simp only [List.reverse_cons, List.zip_cons_cons, List.reverse_cons]
      rw [← ih l2 (by simpa using h)]
      apply List.zip_append
      simp only [List.length_reverse]
      simpa using h

lemma reshape_scalar_valid (count : Nat) {a : Arr α} (h : a.valid) :
    (a.reshape_scalar count).valid := by
  unfold Arr.reshape_scalar Arr.valid
  simp only [List.prod_cons]
  rw [flatten_length_uniform (s := a.data.length)
    (fun x hx => by rw [List.eq_of_mem_replicate hx]), List.length_replicate]
  rw [h]

lemma reshape_valid [Inhabited α] {fill : Option α} {dims : List Int} {a : Arr α}
    (h : a.valid) {out : Arr α} (hout : a.reshape fill dims = .ok out) :
    out.valid := by
  unfold Arr.reshape at hout
  cases hds : derive_shape a.shape dims fill.isSome with
  | error e => rw [hds, bind_err] at hout; exact absurd hout (by simp)
  | ok shape =>
    rw [hds, bind_ok] at hout
    dsimp only at hout
    split at hout
    case isTrue hlt =>
      cases fill with
      | some f =>
        dsimp only at hout
        simp only [Except.ok.injEq] at hout
        subst hout
        show _ = _
        simp only [List.length_append, List.length_replicate]
        omega
      | none =>
        dsimp only at hout
        split at hout
        · rename_i hemp
          split at hout
          · exact absurd hout (by simp)
          · rename_i hcont
            simp only [Except.ok.injEq] at hout
            subst hout
            show _ = _
            have h0 : (0 : Nat) ∈ shape := by
              rw [not_not] at hcont
              simpa using hcont
            have hdn : a.data = [] := List.isEmpty_iff.mp hemp
            rw [hdn, List.length_nil, List.prod_eq_zero h0]
        · rename_i hemp
          split at hout
          · simp only [Except.ok.injEq] at hout
            subst hout
            show _ = _
            rw [List.length_replicate]
          · simp only [Except.ok.injEq] at hout
            subst hout
            show _ = _
            simp only [List.length_append, List.length_map, List.length_range]
            omega
    case isFalse hge =>
      simp only [Except.ok.injEq] at hout
      subst hout
      show _ = _
      dsimp only
      rw [List.length_take]
      omega

lemma unreshape_valid {old : ShapeArg} {a : Arr α} (h : a.valid) {out : Arr α}
    (hout : unreshape old a = .ok out) : out.valid := by
  unfold unreshape at hout
  cases old with
  | scalar n => exact absurd hout (by dsimp only; simp)
  | list orig =>
    dsimp only at hout
    split at hout
    · rename_i heq
      simp only [Except.ok.injEq] at hout
      subst hout
      show _ = _
      exact h.trans heq.symm
    · exact absurd hout (by simp)

lemma unrerank_valid {rank : Int} {orig : List Nat} {a : Arr α} (h : a.valid)
    {out : Arr α} (hout : unrerank rank orig a = .ok out) : out.valid := by
  unfold unrerank at hout
  split at hout
  · simp only [Except.ok.injEq] at hout; subst hout; exact h
  · dsimp only at hout
    split at hout
    · simp only [Except.ok.injEq] at hout; subst hout; exact h
    · rename_i hne
      simp only [Except.ok.injEq] at hout
      subst hout
      show _ = _
      rw [not_not] at hne
      exact hne.symm

lemma scalar_keep_valid [Inhabited α] (count : Nat) {a : Arr α} (h : a.valid) :
    (a.scalar_keep count).valid := by
  unfold Arr.scalar_keep
  split
  case isTrue h0 =>
    have hsh : a.shape = [] := List.length_eq_zero.mp h0
    show _ = _
    simp [hsh]
  case isFalse h0 =>
    split
    case isTrue hc =>
      show _ = _
      cases hsh : a.shape with
      | nil => exact absurd (by simpa [Arr.rank, hsh]) h0
      | cons s rest => simp [hsh]
    case isFalse hc =>
      split
      case isTrue => exact h
      case isFalse hc1 =>
        show _ = _
        cases hsh : a.shape with
        | nil => exact absurd (by simpa [Arr.rank, hsh]) h0
        | cons s rest =>
          rw [flatten_length_uniform (s := a.data.length)
            (fun x hx => by rw [List.eq_of_mem_replicate hx]), List.length_replicate]
          rw [h, hsh]
          simp only [hsh, List.modifyHead_cons, List.prod_cons]
          ring

lemma chunked_map_length {g : List α → List α} {rl : Nat} {dta : List α} {dlen : Nat}
    (hlen : dta.length = dlen * rl)
    (hg : ∀ x, x.length = rl → (g x).length = x.length) :
    (((chunks ((dta.length + rl - 1) / rl) rl dta).map g).flatten).length =
      dta.length := by
  rcases Nat.eq_zero_or_pos rl with h0 | hpos
  · have hd0 : dta.length = 0 := by rw [hlen, h0, Nat.mul_zero]
    rw [show (dta.length + rl - 1) / rl = 0 by rw [hd0, h0]]
    simp [chunks, hd0]
  · have hcnt : (dta.length + rl - 1) / rl = dlen := by
      rw [hlen, Nat.mul_comm dlen rl,
        show rl * dlen + rl - 1 = rl * dlen + (rl - 1) by omega,
        Nat.mul_add_div hpos, Nat.div_eq_of_lt (by omega), Nat.add_zero]
    rw [hcnt, List.length_flatten, List.map_map]
    rw [List.map_congr_left (g := List.length)
      (fun x hx => by
        have hxl : x.length = rl := mem_chunks_length (by rw [hlen]) hx
        simp only [Function.comp_apply]
        rw [hg x hxl])]
    calc (List.map List.length (chunks dlen rl dta)).sum
        = (chunks dlen rl dta).flatten.length := (List.length_flatten _).symm
      _ = dta.length := by rw [chunks_flatten hlen]

lemma fillShift_length (f : α) : ∀ (offs : List Int) (sh : List Nat) (l : List α),
    l.length = sh.prod → (fillShift f offs sh l).length = l.length := by
  intro offs
  induction offs with
  | nil => intro sh l _; rfl
  | cons b brest ih =>
    intro sh l h
    cases sh with
    | nil => rfl
    | cons d srest =>
      unfold fillShift
      split
      · rfl
      · rename_i hd
        dsimp only
        set rl := srest.prod with hrl
        set shifted := (if b ≠ 0 then
            if 0 < b then
              l.take (l.length - b.natAbs * rl) ++
                List.replicate (min (b.natAbs * rl) l.length) f
            else
              List.replicate (min (b.natAbs * rl) l.length) f ++
                l.drop (min (b.natAbs * rl) l.length)
          else l) with hsdef
        have hslen : shifted.length = l.length := by
          rw [hsdef]
          split
          · split
            · simp only [List.length_append, List.length_take, List.length_replicate]
              omega
            · simp only [List.length_append, List.length_drop, List.length_replicate]
              omega
          · rfl
        split
        · exact hslen
        · have hlen2 : shifted.length = d * rl := by
            rw [hslen, h, List.prod_cons]
          calc (((chunks ((shifted.length + rl - 1) / rl) rl shifted).map
                (fillShift f brest srest)).flatten).length
              = shifted.length :=
                chunked_map_length hlen2 (fun x hx => ih srest x (by rw [hx]))
            _ = l.length := hslen

lemma rotate_valid {fill : Option α} {offsets : List Int} {a : Arr α} (h : a.valid)
    {out : Arr α} (hout : a.rotate fill offsets = .ok out) : out.valid := by
  unfold Arr.rotate at hout
  split at hout
  · exact absurd hout (by simp)
  · dsimp only at hout
    have hrl : (rotData offsets a.shape a.data).length = a.data.length :=
      rotData_length offsets a.shape a.data h
    cases fill with
    | none =>
      simp only [Except.ok.injEq] at hout
      subst hout
      show _ = _
      rw [hrl]
      exact h
    | some f =>
      simp only [Except.ok.injEq] at hout
      subst hout
      show _ = _
      rw [fillShift_length f offsets a.shape _ (by rw [hrl]; exact h), hrl]
      exact h

lemma unkeepGo_mem : ∀ (cs : List Nat) (trows irs out : List (Arr α)),
    unkeepGo trows cs irs = .ok out → ∀ r ∈ out, r ∈ trows ∨ r ∈ irs := by
  intro cs
  induction cs with
  | nil =>
    intro trows irs out h r hr
    simp only [unkeepGo, Except.ok.injEq] at h
    subst h
    simp at hr
  | cons c cs ih =>
    intro trows irs out h r hr
    cases irs with
    | nil =>
      cases c <;>
      · simp only [unkeepGo, Except.ok.injEq] at h
        subst h
        simp at hr
    | cons ir irs =>
      cases c with
      | zero =>
        simp only [unkeepGo] at h
        cases hrec : unkeepGo trows cs irs with
        | error e => rw [hrec, bind_err] at h; exact absurd h (by simp)
        | ok rest =>
          rw [hrec, bind_ok] at h
          simp only [Except.ok.injEq] at h
          subst h
          rcases List.mem_cons.mp hr with rfl | hr2
          · exact Or.inr (by simp)
          · rcases ih trows irs rest hrec r hr2 with h1 | h1
            · exact Or.inl h1
            · exact Or.inr (by simp [h1])
      | succ n =>
        cases trows with
        | nil => simp only [unkeepGo] at h; exact absurd h (by simp)
        | cons t ts =>
          simp only [unkeepGo] at h
          split at h
          · exact absurd h (by simp)
          · cases hrec : unkeepGo ts cs irs with
            | error e => rw [hrec, bind_err] at h; exact absurd h (by simp)
            | ok rest =>
              rw [hrec, bind_ok] at h
              simp only [Except.ok.injEq] at h
              subst h
              rcases List.mem_cons.mp hr with rfl | hr2
              · exact Or.inl (by simp)
              · rcases ih ts irs rest hrec r hr2 with h1 | h1
                · exact Or.inl (by simp [h1])
                · exact Or.inr (by simp [h1])

lemma unkeep_valid {counts : List Nat} {a into : Arr α} (ha : a.valid)
    (hi : into.valid) {out : Arr α} (hout : a.unkeep counts into = .ok out) :
    out.valid := by
  unfold Arr.unkeep at hout
  split at hout
  · exact absurd hout (by simp)
  · cases hgo : unkeepGo a.rows counts into.rows with
    | error e => rw [hgo, bind_err] at hout; exact absurd hout (by simp)
    | ok new_rows =>
      rw [hgo, bind_ok] at hout
      apply from_row_arrays_valid ?_ hout
      intro r hr
      rcases unkeepGo_mem counts a.rows into.rows new_rows hgo r hr with h1 | h1
      · exact rows_valid ha h1
      · exact rows_valid hi h1

lemma filter_zip_count {β : Type} : ∀ (l1 : List Nat) (l2 : List β),
    l1.length = l2.length →
    ((l1.zip l2).filter (fun p => decide (p.1 = 1))).length = l1.count 1 := by
  intro l1
  induction l1 with
  | nil => intro l2 h; simp
  | cons x l1 ih =>
    intro l2 h
    cases l2 with
    | nil => simp at h
    | cons y l2 =>
      simp only [List.zip_cons_cons, List.filter_cons]
      by_cases hx : x = 1
      · subst hx
        rw [if_pos (by simp)]
        simp only [List.length_cons]
        rw [ih l2 (by simpa using h), List.count_cons]
        simp
      · rw [if_neg (by simpa using hx)]
        rw [ih l2 (by simpa using h), List.count_cons]
        simp [hx]

lemma sum_map_mul_right {γ : Type} (g : γ → Nat) (c : Nat) : ∀ (l : List γ),
    (l.map (fun x => g x * c)).sum = (l.map g).sum * c := by
  intro l
  induction l with
  | nil => simp
  | cons x l ih => simp only [List.map_cons, List.sum_cons, ih]; ring

lemma list_keep_body_valid [Inhabited α] {a : Arr α} (h : a.valid)
    (amount : List Nat) (hamlen : amount.length = a.row_count) {out : Arr α}
    (hout : (if a.rank = 0 then
        if amount.length ≠ 1 then
          (.error "Scalar array can only be kept with a single number" :
            Except String (Arr α))
        else
          .ok ⟨[amount.headD 0], List.replicate (amount.headD 0) (a.data.getD 0 default)⟩
      else
        let row_len := a.row_len
        let paired := amount.zip (chunks (a.data.length / row_len) row_len a.data)
        if ∀ n ∈ amount, n ≤ 1 then
          let true_count := amount.count 1
          let new_data : List α :=
            if row_len > 0 then (paired.filter (·.1 = 1)).flatMap (·.2) else []
          .ok ⟨a.shape.modifyHead (fun _ => true_count), new_data⟩
        else
          let new_data : List α :=
            if row_len > 0 then paired.flatMap (fun p => (List.replicate p.1 p.2).flatten)
            else []
          let new_len : Nat :=
            if row_len > 0 then (paired.map (·.1)).sum else amount.sum
          .ok ⟨a.shape.modifyHead (fun _ => new_len), new_data⟩) = .ok out) :
    out.valid := by
  split at hout
  · split at hout
    · exact absurd hout (by simp)
    · simp only [Except.ok.injEq] at hout
      subst hout
      show _ = _
      simp
  · rename_i hr0
    dsimp only at hout
    split at hout
    · simp only [Except.ok.injEq] at hout
      subst hout
      show _ = _
      cases hsh : a.shape with
      | nil => exact absurd (by simpa [Arr.rank, hsh]) hr0
      | cons s rest =>
        simp only [hsh, List.modifyHead_cons, List.prod_cons]
        have hrl_eq : a.row_len = rest.prod := by simp [Arr.row_len, hsh]
        have hrc : a.row_count = s := by simp [Arr.row_count, hsh]
        by_cases hrl : a.row_len > 0
        · rw [if_pos hrl]
          have hlen : a.data.length = s * a.row_len := by
            rw [h, hsh, List.prod_cons, hrl_eq]
          have hdiv : a.data.length / a.row_len = s := by
            rw [hlen, Nat.mul_div_cancel _ hrl]
          rw [hdiv]
          have hchunk : ∀ x ∈ chunks s a.row_len a.data, x.length = a.row_len :=
            fun x hx => mem_chunks_length (by rw [hlen]) hx
          rw [length_flatMap_const (c := a.row_len) ?_]
          · rw [filter_zip_count amount (chunks s a.row_len a.data)
              (by rw [hamlen, hrc, chunks_length]), hrl_eq]
          · intro p hp
            have hp2 := List.of_mem_zip (List.mem_of_mem_filter hp)
            exact hchunk p.2 hp2.2
        · rw [if_neg hrl]
          have h0 : rest.prod = 0 := by omega
          simp [h0]
    · simp only [Except.ok.injEq] at hout
      subst hout
      show _ = _
      cases hsh : a.shape with
      | nil => exact absurd (by simpa [Arr.rank, hsh]) hr0
      | cons s rest =>
        simp only [hsh, List.modifyHead_cons, List.prod_cons]
        have hrl_eq : a.row_len = rest.prod := by simp [Arr.row_len, hsh]
        by_cases hrl : a.row_len > 0
        · rw [if_pos hrl, if_pos hrl]
          have hlen : a.data.length = s * a.row_len := by
            rw [h, hsh, List.prod_cons, hrl_eq]
          have hdiv : a.data.length / a.row_len = s := by
            rw [hlen, Nat.mul_div_cancel _ hrl]
          rw [hdiv]
          have hchunk : ∀ x ∈ chunks s a.row_len a.data, x.length = a.row_len :=
            fun x hx => mem_chunks_length (by rw [hlen]) hx
          rw [List.length_flatMap]
          rw [List.map_congr_left
            (g := fun p : Nat × List α => p.1 * a.row_len) ?_]
          · rw [sum_map_mul_right (fun p : Nat × List α => p.1) a.row_len, hrl_eq]
          · intro p hp
            have hp2 := (List.of_mem_zip hp).2
            simp only [Function.comp_apply, List.length_flatten, List.map_replicate,
              List.sum_replicate, smul_eq_mul]
            rw [hchunk p.2 hp2]
        · rw [if_neg hrl, if_neg hrl]
          have h0 : rest.prod = 0 := by omega
          simp [h0]

lemma list_keep_valid [Inhabited α] {cf : Option ℚ} {counts : List Nat} {a : Arr α}
    (h : a.valid) {out : Arr α} (hout : a.list_keep cf counts = .ok out) :
    out.valid := by
  unfold Arr.list_keep at hout
  by_cases hc1 : counts.length = a.row_count
  · rw [if_pos hc1] at hout
    simp only [pure, Except.pure] at hout
    rw [bind_ok] at hout
    exact list_keep_body_valid h counts hc1 hout
  · rw [if_neg hc1] at hout
    by_cases hc2 : counts.length < a.row_count
    · rw [if_pos hc2] at hout
      cases cf with
      | none => exact absurd hout (by simp [bind_err])
      | some f =>
        dsimp only at hout
        split at hout
        · exact absurd hout (by simp [bind_err])
        · simp only [pure, Except.pure] at hout
          rw [bind_ok] at hout
          refine list_keep_body_valid h _ ?_ hout
          simp only [List.length_append, List.length_replicate]
          omega
    · rw [if_neg hc2] at hout
      exact absurd hout (by simp [bind_err])

lemma bind_eq_ok {ε β γ : Type} {e : Except ε β} {g : β → Except ε γ} {out : γ}
    (h : e >>= g = .ok out) : ∃ x, e = .ok x ∧ g x = .ok out := by
  cases e with
  | error err => rw [bind_err] at h; exact absurd h (by simp)
  | ok x => exact ⟨x, rfl, h⟩

lemma selectOne_ok_spec {fill : Option α} {indices : List Int} {a : Arr α}
    (h : a.valid) {out : Arr α} (hout : a.selectOne fill indices = .ok out) :
    out.valid ∧ out.shape = (if a.shape.isEmpty then a.shape ++ [indices.length]
      else a.shape.modifyHead (fun _ => indices.length)) := by
  unfold Arr.selectOne at hout
  obtain ⟨sel, hsel, hout2⟩ := bind_eq_ok hout
  simp only [Except.ok.injEq] at hout2
  subst hout2
  have hlens : ∀ y ∈ sel, y.length = a.row_len := by
    intro y hy
    obtain ⟨i, _, hi⟩ := forall₂_mem_right (mapM_ok_forall hsel) y hy
    dsimp only at hi
    set pos : Int := if 0 ≤ i then i else (a.row_count : Int) + i with hposdef
    by_cases hin : pos < 0 ∨ (a.row_count : Int) ≤ pos
    · rw [if_pos hin] at hi
      cases fill with
      | none => exact absurd hi (by dsimp only; simp)
      | some f =>
        dsimp only at hi
        simp only [Except.ok.injEq] at hi
        subst hi
        exact List.length_replicate _ _
    · rw [if_neg hin] at hi
      simp only [Except.ok.injEq] at hi
      subst hi
      push_neg at hin
      obtain ⟨hp0, hpc⟩ := hin
      have hlt : pos.toNat < a.row_count := by omega
      have hdl : a.data.length = a.row_count * a.row_len := valid_len_eq h
      simp only [List.length_take, List.length_drop]
      have hb : pos.toNat * a.row_len + a.row_len ≤ a.data.length := by
        rw [hdl]
        calc pos.toNat * a.row_len + a.row_len = (pos.toNat + 1) * a.row_len := by ring
        _ ≤ a.row_count * a.row_len := Nat.mul_le_mul_right _ (by omega)
      omega
  have hsellen : sel.length = indices.length :=
    (mapM_ok_forall hsel).length_eq.symm
  have hflat : sel.flatten.length = indices.length * a.row_len := by
    rw [flatten_length_uniform hlens, hsellen]
  constructor
  · show _ = _
    dsimp only
    rw [hflat]
    by_cases hemp : a.shape.isEmpty
    · rw [if_pos hemp]
      have hnil : a.shape = [] := List.isEmpty_iff.mp hemp
      simp [hnil, Arr.row_len]
    · rw [if_neg hemp]
      cases hsh : a.shape with
      | nil => exact absurd (by simp [hsh]) hemp
      | cons s rest =>
        simp only [List.modifyHead_cons, List.prod_cons]
        have : a.row_len = rest.prod := by simp [Arr.row_len, hsh]
        rw [this]
  · rfl

lemma select_impl_valid {fill : Option α} : ∀ (ishape : List Nat) (ind : List Int)
    (a : Arr α), a.valid → ind.length = ishape.prod →
    ∀ out, Arr.select_impl fill ishape ind a = .ok out → out.valid := by
  intro ishape
  induction ishape with
  | nil =>
    intro ind a h hind out hout
    unfold Arr.select_impl at hout
    obtain ⟨res, hres, hout2⟩ := bind_eq_ok hout
    obtain ⟨hresv, hressh⟩ := selectOne_ok_spec h hres
    simp only [List.isEmpty_nil, if_true] at hout2
    simp only [Except.ok.injEq] at hout2
    subst hout2
    show _ = _
    dsimp only
    have hresv' : res.data.length = res.shape.prod := hresv
    have hn1 : ind.length = 1 := by simpa using hind
    rw [hresv', hressh, hn1]
    by_cases hemp : a.shape.isEmpty
    · rw [if_pos hemp]
      have hnil : a.shape = [] := List.isEmpty_iff.mp hemp
      simp [hnil]
    · rw [if_neg hemp]
      cases hsh : a.shape with
      | nil => exact absurd (by simp [hsh]) hemp
      | cons s rest => simp
  | cons s0 tail ih =>
    intro ind a h hind out hout
    cases tail with
    | nil =>
      unfold Arr.select_impl at hout
      obtain ⟨res, hres, hout2⟩ := bind_eq_ok hout
      obtain ⟨hresv, _⟩ := selectOne_ok_spec h hres
      simp only [List.isEmpty_cons, Bool.false_eq_true, if_false] at hout2
      simp only [Except.ok.injEq] at hout2
      subst hout2
      exact hresv
    | cons s1 srest =>
      unfold Arr.select_impl at hout
      dsimp only at hout
      split at hout
      · rename_i hz
        simp only [Except.ok.injEq] at hout
        subst hout
        show _ = _
        simp only [List.length_nil, List.prod_append, List.prod_cons]
        rw [List.prod_cons] at hz
        rw [hz]
        ring
      · obtain ⟨rows2, hrows2, hout2⟩ := bind_eq_ok hout
        apply from_row_arrays_valid ?_ hout2
        intro r hr
        obtain ⟨c, hc, hcr⟩ := forall₂_mem_right (mapM_ok_forall hrows2) r hr
        have hclen : c.length = (s1 :: srest).prod :=
          mem_chunks_length (Nat.div_mul_le_self _ _) hc
        exact ih c a h hclen r hcr

lemma unselect_inner_valid {rs : List (List α)} {ind : List Int} {into : Arr α}
    (h : into.valid) {out : Arr α} (hout : unselect_inner rs ind into = .ok out) :
    out.valid := by
  unfold unselect_inner at hout
  obtain ⟨dta, hdta, hout2⟩ := bind_eq_ok hout
  have hlen : dta.length = into.data.length := by
    refine foldlM_ok_invariant
      (P := fun l : List α => l.length = into.data.length) ?_ _ _ _ hdta rfl
    intro acc x out2 hP hstep
    dsimp only at hstep
    set pos : Int := if 0 ≤ x.1 then x.1 else (into.row_count : Int) + x.1 with hposdef
    by_cases hin : pos < 0 ∨ (into.row_count : Int) ≤ pos
    · rw [if_pos hin] at hstep
      exact absurd hstep (by simp)
    · rw [if_neg hin] at hstep
      simp only [Except.ok.injEq] at hstep
      subst hstep
      rw [overwrite_length]
      exact hP
  simp only [Except.ok.injEq] at hout2
  subst hout2
  show _ = _
  rw [hlen]
  exact h

lemma unselectCore_valid {a : Arr α} {ishape : List Nat} {ind : List Int}
    {into : Arr α} (h : into.valid) {out : Arr α}
    (hout : a.unselectCore ishape ind into = .ok out) : out.valid := by
  unfold Arr.unselectCore at hout
  split at hout
  · exact absurd hout (by simp)
  · exact unselect_inner_valid h hout

lemma unselect_valid {ishape : List Nat} {ind : List Int} {a into : Arr α}
    (h : into.valid) {out : Arr α} (hout : unselect ishape ind a into = .ok out) :
    out.valid := by
  unfold unselect at hout
  dsimp only at hout
  split at hout
  · exact absurd hout (by simp)
  · unfold Arr.unselect_impl at hout
    split at hout
    · exact absurd hout (by simp)
    · exact unselectCore_valid h hout

lemma drop_valid : ∀ (index : List Int) (a : Arr α), a.valid →
    ∀ out : Arr α, Arr.drop index a = .ok out → out.valid := by
  intro index
  induction index with
  | nil =>
    intro a h out hout
    simp only [Arr.drop, Except.ok.injEq] at hout
    subst hout
    exact h
  | cons d tail ih =>
    intro a h out hout
    cases tail with
    | nil =>
      unfold Arr.drop at hout
      dsimp only at hout
      simp only [Except.ok.injEq] at hout
      subst hout
      show _ = _
      dsimp only
      by_cases hemp : a.shape.isEmpty
      · rw [if_pos hemp]
        have hnil : a.shape = [] := List.isEmpty_iff.mp hemp
        have hlen : a.data.length = 1 := by
          have : a.data.length = a.shape.prod := h
          rw [hnil] at this
          simpa using this
        have hrl : a.row_len = 1 := by simp [Arr.row_len, hnil]
        have hrc : a.row_count = 1 := by simp [Arr.row_count, hnil]
        simp only [List.modifyHead_cons, List.prod_cons, List.prod_nil, Nat.mul_one]
        rw [hrl, hrc]
        split
        · simp only [List.length_drop, hlen]
          omega
        · simp only [List.length_take, hlen]
          omega
      · rw [if_neg hemp]
        cases hsh : a.shape with
        | nil => exact absurd (by simp [hsh]) hemp
        | cons s rest =>
          have hrl : a.row_len = rest.prod := by simp [Arr.row_len, hsh]
          have hrc : a.row_count = s := by simp [Arr.row_count, hsh]
          have hlen : a.data.length = s * rest.prod := by
            have : a.data.length = a.shape.prod := h
            rw [hsh, List.prod_cons] at this
            exact this
          simp only [List.modifyHead_cons, List.prod_cons]
          rw [hrl, hrc]
          split
          · simp only [List.length_drop, hlen]
            rw [Nat.sub_mul]
          · simp only [List.length_take, hlen]
            rw [Nat.sub_mul]
            have : (s - d.natAbs) * rest.prod ≤ s * rest.prod :=
              Nat.mul_le_mul_right _ (Nat.sub_le _ _)
            omega
    | cons s rest =>
      unfold Arr.drop at hout
      split at hout
      · exact absurd hout (by simp)
      · dsimp only at hout
        obtain ⟨rows2, hrows2, hout2⟩ := bind_eq_ok hout
        apply from_row_arrays_valid ?_ hout2
        intro r hr
        obtain ⟨x, hx, hxr⟩ := forall₂_mem_right (mapM_ok_forall hrows2) r hr
        have hxrows : x ∈ a.rows := by
          by_cases hd : (0 : Int) ≤ d
          · rw [if_pos hd] at hx
            exact List.drop_subset _ _ hx
          · rw [if_neg hd] at hx
            exact List.take_subset _ _ hx
        exact ih x (rows_valid h hxrows) r hxr

lemma untake_impl_valid : ∀ (index : List Int) (from_ into : Arr α),
    from_.valid → into.valid → ∀ out : Arr α,
    Arr.untake_impl index from_ into = .ok out → out.valid := by
  intro index
  induction index with
  | nil =>
    intro f i hf hi out hout
    unfold Arr.untake_impl at hout
    dsimp only at hout
    have hmatch : (Except.ok i : Except String (Arr α)) = .ok out := by
      split at hout
      · split at hout
        · exact absurd hout (by simp [bind_err])
        · exact hout
      · split at hout
        · exact absurd hout (by simp [bind_err])
        · exact hout
    simp only [Except.ok.injEq] at hmatch
    subst hmatch
    exact hi
  | cons t tail ih =>
    intro f i hf hi out hout
    unfold Arr.untake_impl at hout
    dsimp only at hout
    cases tail with
    | nil =>
      have hmatch : (Arr.drop [t] i >>= fun dropped =>
          if 0 ≤ t then joinArr f dropped else joinArr dropped f) = .ok out := by
        split at hout
        · split at hout
          · exact absurd hout (by simp [bind_err])
          · exact hout
        · split at hout
          · exact absurd hout (by simp [bind_err])
          · exact hout
      obtain ⟨dropped, hdrop, hout3⟩ := bind_eq_ok hmatch
      have hdv := drop_valid [t] i hi dropped hdrop
      split at hout3
      · exact joinArr_valid hf hdv hout3
      · exact joinArr_valid hdv hf hout3
    | cons s rest =>
      have hmatch : (if t.natAbs ≠ f.row_count then
          (.error "Attempted to undo take, but the taken section's row count was modified"
            : Except String (Arr α))
        else if 0 ≤ t then
          (f.rows.zip i.rows).mapM (fun p => Arr.untake_impl (s :: rest) p.1 p.2) >>=
            fun zipped => from_row_arrays (zipped ++ i.rows.drop t.natAbs)
        else
          (f.rows.zip (i.rows.drop (i.row_count - t.natAbs))).mapM
              (fun p => Arr.untake_impl (s :: rest) p.1 p.2) >>=
            fun zipped =>
              from_row_arrays (i.rows.take (i.row_count - t.natAbs) ++ zipped)) =
          .ok out := by
        split at hout
        · split at hout
          · exact absurd hout (by simp [bind_err])
          · exact hout
        · split at hout
          · exact absurd hout (by simp [bind_err])
          · exact hout
      split at hmatch
      · exact absurd hmatch (by simp)
      · split at hmatch
        · obtain ⟨zipped, hzip, hout3⟩ := bind_eq_ok hmatch
          apply from_row_arrays_valid ?_ hout3
          intro r hr
          rcases List.mem_append.mp hr with hr1 | hr2
          · obtain ⟨p, hp, hpr⟩ := forall₂_mem_right (mapM_ok_forall hzip) r hr1
            have hmem := List.of_mem_zip hp
            exact ih p.1 p.2 (rows_valid hf hmem.1) (rows_valid hi hmem.2) r hpr
          · exact rows_valid hi (List.drop_subset _ _ hr2)
        · obtain ⟨zipped, hzip, hout3⟩ := bind_eq_ok hmatch
          apply from_row_arrays_valid ?_ hout3
          intro r hr
          rcases List.mem_append.mp hr with hr1 | hr2
          · exact rows_valid hi (List.take_subset _ _ hr1)
          · obtain ⟨p, hp, hpr⟩ := forall₂_mem_right (mapM_ok_forall hzip) r hr2
            have hmem := List.of_mem_zip hp
            exact ih p.1 p.2 (rows_valid hf hmem.1)
              (rows_valid hi (List.drop_subset _ _ hmem.2)) r hpr

lemma untake_valid {index : List Int} {from_ into : Arr α} (hf : from_.valid)
    (hi : into.valid) {out : Arr α} (hout : from_.untake index into = .ok out) :
    out.valid :=
  untake_impl_valid index from_ into hf hi out hout

lemma undrop_valid {index : List Int} {from_ into : Arr α} (hf : from_.valid)
    (hi : into.valid) {out : Arr α} (hout : from_.undrop index into = .ok out) :
    out.valid :=
  untake_impl_valid _ from_ into hf hi out hout

lemma resolveSizes_length : ∀ {pairs : List (Nat × Int)} {out : List Nat},
    resolveSizes pairs = .ok out → out.length = pairs.length := by
  intro pairs
  induction pairs with
  | nil =>
    intro out h
    simp only [resolveSizes, Except.ok.injEq] at h
    subst h
    rfl
  | cons p ps ih =>
    intro out h
    unfold resolveSizes at h
    split at h
    · exact absurd h (by simp)
    · obtain ⟨tail, htail, h2⟩ := bind_eq_ok h
      simp only [Except.ok.injEq] at h2
      subst h2
      simp [ih htail]

lemma zip_eq_zip_take_right {β γ : Type} : ∀ (l1 : List β) (l2 : List γ),
    l1.zip l2 = l1.zip (l2.take l1.length) := by
  intro l1
  induction l1 with
  | nil => intro l2; simp
  | cons x l1 ih =>
    intro l2
    cases l2 with
    | nil => simp
    | cons y l2 =>
      simp only [List.length_cons, List.take_succ_cons, List.zip_cons_cons]
      rw [← ih l2]

lemma windows_valid [Inhabited α] {spec : List Int} {a : Arr α} (h : a.valid)
    {out : Arr α} (hout : a.windows spec = .ok out) : out.valid := by
  unfold Arr.windows at hout
  split at hout
  · exact absurd hout (by simp)
  · split at hout
    · exact absurd hout (by simp)
    · rename_i hrank
      obtain ⟨size_spec, hres, hout2⟩ := bind_eq_ok hout
      push_neg at hrank
      have hsslen : size_spec.length = spec.length := by
        rw [resolveSizes_length hres, List.length_zip]
        omega
      have hkle : size_spec.length ≤ a.shape.length := by omega
      dsimp only at hout2
      split at hout2
      · rename_i hbig
        simp only [Except.ok.injEq] at hout2
        subst hout2
        show _ = _
        simp only [List.length_nil]
        rw [List.any_eq_true] at hbig
        obtain ⟨p, hp, hdec⟩ := hbig
        simp only [decide_eq_true_eq] at hdec
        have hswap := mem_zip_swap hp
        have hmem0 : (0 : Nat) ∈ (a.shape.zip size_spec).map (fun p => p.1 + 1 - p.2) :=
          List.mem_map.mpr ⟨(p.2, p.1), hswap, by omega⟩
        rw [List.prod_eq_zero
          (List.mem_append_left _ (List.mem_append_left _ hmem0))]
      · rename_i hsmall
        simp only [Except.ok.injEq] at hout2
        subst hout2
        show _ = _
        dsimp only
        have hsm : ∀ p ∈ size_spec.zip a.shape, p.1 ≤ p.2 := by
          intro p hp
          rw [Bool.not_eq_true, List.any_eq_false] at hsmall
          have := hsmall p hp
          simpa using this
        set k := size_spec.length with hk
        set ts := size_spec ++ a.shape.drop k with hts
        -- data length
        have hdst : (((enumIdx ((a.shape.zip ts).map (fun p => p.1 - p.2 + 1))).flatMap
            (fun c => (enumIdx ts).map (fun cur =>
              a.data.getD (flatIdx a.shape (List.zipWith (· + ·) c cur)) default))).length) =
            ((a.shape.zip ts).map (fun p => p.1 - p.2 + 1)).prod * ts.prod := by
          rw [length_flatMap_const (c := ts.prod)
            (fun c _ => by rw [List.length_map, enumIdx_length])]
          rw [enumIdx_length]
        rw [hdst]
        -- shape product
        have htake_len : (a.shape.take k).length = k := by
          rw [List.length_take]
          omega
        have hzip2 : a.shape.zip ts =
            (a.shape.take k).zip size_spec ++ (a.shape.drop k).zip (a.shape.drop k) := by
          conv_lhs => rw [← List.take_append_drop k a.shape]
          rw [hts, List.zip_append (by rw [htake_len])]
        have hzip1 : a.shape.zip size_spec = (a.shape.take k).zip size_spec := by
          rw [zip_eq_zip_take a.shape size_spec]
        have hpoint : ((a.shape.take k).zip size_spec).map (fun p => p.1 - p.2 + 1) =
            ((a.shape.take k).zip size_spec).map (fun p => p.1 + 1 - p.2) := by
          apply List.map_congr_left
          intro p hp
          have hsw := mem_zip_swap hp
          have hin : (p.2, p.1) ∈ size_spec.zip a.shape := by
            rw [zip_eq_zip_take_right size_spec a.shape]
            rw [zip_eq_zip_take_right] at hsw
            rwa [List.take_take, hk, min_self] at hsw
          have := hsm _ hin
          simp only at this
          omega
        rw [hzip2, List.map_append, List.prod_append, hzip1, hpoint,
          zip_self_map_one (fun p => p.1 - p.2 + 1) (fun x => by simp)]
        simp only [List.prod_replicate, one_pow, Nat.mul_one]
        simp only [List.prod_append]
        rw [hts, List.prod_append]
        ring

lemma fill_to_shape_spec (f : α) : ∀ (ts : List Nat) (a : Arr α), a.valid →
    ts.length = a.rank →
    (fill_to_shape f ts a).shape = ts ∧
      (fill_to_shape f ts a).data.length = ts.prod := by
  intro ts
  induction ts with
  | nil =>
    intro a hv hr
    have hsh : a.shape = [] :=
      List.length_eq_zero.mp (by simpa [Arr.rank] using hr.symm)
    refine ⟨hsh, ?_⟩
    have hl : a.data.length = a.shape.prod := hv
    rw [hsh] at hl
    simpa using hl
  | cons t ts ih =>
    intro a hv hr
    unfold fill_to_shape
    dsimp only
    refine ⟨rfl, ?_⟩
    set rows := (a.rows.map (fill_to_shape f ts)).take t with hrows
    have hrlen : ∀ x ∈ rows ++ List.replicate (t - rows.length)
        (⟨ts, List.replicate ts.prod f⟩ : Arr α), x.data.length = ts.prod := by
      intro x hx
      rcases List.mem_append.mp hx with hx | hx
      · rw [hrows] at hx
        obtain ⟨r, hrr, rfl⟩ := List.mem_map.mp (List.mem_of_mem_take hx)
        refine (ih r (rows_valid hv hrr) ?_).2
        have hsh := rows_shape hrr
        have : r.rank = a.rank - 1 := by
          simp [Arr.rank, hsh, List.length_drop]
        simp only [List.length_cons, Arr.rank] at hr this ⊢
        omega
      · rw [List.eq_of_mem_replicate hx]
        simp
    rw [length_flatMap_const hrlen]
    simp only [List.length_append, List.length_replicate, List.prod_cons]
    have hle : rows.length ≤ t := by rw [hrows]; simp [List.length_take]
    congr 1
    omega

lemma rows_valid_of_le {a : Arr α} {d : Nat} {rest : List Nat}
    (hsh : a.shape = d :: rest) (hle : a.shape.prod ≤ a.data.length)
    {r : Arr α} (hr : r ∈ a.rows) : r.valid := by
  simp only [Arr.rows, List.mem_map] at hr
  obtain ⟨dl, hdl, rfl⟩ := hr
  have hcount : a.row_count * a.row_len ≤ a.data.length := by
    simp only [Arr.row_count, Arr.row_len, hsh, List.headD_cons, List.drop_one,
      List.tail_cons]
    have h2 : (d :: rest).prod ≤ a.data.length := hsh ▸ hle
    simpa [List.prod_cons] using h2
  have hlen : dl.length = a.row_len := mem_chunks_length hcount hdl
  unfold Arr.valid
  simpa [Arr.row_len] using hlen

lemma fill_to_shape_forced (f : α) (t : Nat) (ts : List Nat) {a : Arr α}
    (hr : (t :: ts).length = a.rank) (hle : a.shape.prod ≤ a.data.length) :
    (fill_to_shape f (t :: ts) a).valid := by
  obtain ⟨d, rest, hsh⟩ : ∃ d rest, a.shape = d :: rest := by
    cases hsha : a.shape with
    | nil =>
      exfalso
      simp only [Arr.rank, hsha, List.length_nil, List.length_cons] at hr
      omega
    | cons d rest => exact ⟨d, rest, rfl⟩
  show _ = _
  unfold fill_to_shape
  dsimp only
  set rows := (a.rows.map (fill_to_shape f ts)).take t with hrows
  have hrlen : ∀ x ∈ rows ++ List.replicate (t - rows.length)
      (⟨ts, List.replicate ts.prod f⟩ : Arr α), x.data.length = ts.prod := by
    intro x hx
    rcases List.mem_append.mp hx with hx | hx
    · rw [hrows] at hx
      obtain ⟨r, hrr, rfl⟩ := List.mem_map.mp (List.mem_of_mem_take hx)
      have hrv : r.valid := rows_valid_of_le hsh hle hrr
      refine (fill_to_shape_spec f ts r hrv ?_).2
      have hshr := rows_shape hrr
      have hrk : r.rank = a.rank - 1 := by
        simp [Arr.rank, hshr, List.length_drop]
      simp only [List.length_cons, Arr.rank] at hr hrk ⊢
      omega
    · rw [List.eq_of_mem_replicate hx]
      simp
  rw [length_flatMap_const hrlen]
  simp only [List.length_append, List.length_replicate, List.prod_cons]
  have hlet : rows.length ≤ t := by rw [hrows]; simp [List.length_take]
  congr 1
  omega

lemma prod_map_le (l : List (Nat × Nat)) :
    (l.map (fun p => p.1 + 1 - p.2)).prod ≤ (l.map (fun p => p.1 - p.2 + 1)).prod := by
  induction l with
  | nil => simp
  | cons p l ih =>
    simp only [List.map_cons, List.prod_cons]
    exact Nat.mul_le_mul (by omega) ih

lemma findCore_valid [Inhabited α] [DecidableEq α] {sf s : Arr α} (hs : s.valid)
    {out : Arr Nat} (hout : findCore sf s = .ok out) : out.valid := by
  unfold findCore at hout
  dsimp only at hout
  simp only [Except.ok.injEq] at hout
  subst hout
  set sfs := List.replicate (s.rank - sf.rank) 1 ++ sf.shape with hsfs
  have hsfsge : s.shape.length ≤ sfs.length := by
    rw [hsfs]
    simp only [List.length_append, List.length_replicate, Arr.rank]
    omega
  have hts : s.shape.take sfs.length = s.shape := List.take_of_length_le hsfsge
  rw [hts]
  cases hshape : s.shape with
  | nil =>
    have hfz : ∀ (x : Arr Nat), fill_to_shape 0 ([] : List Nat) x = x := fun _ => rfl
    rw [hfz]
    unfold Arr.valid
    dsimp only
    rw [if_pos (by simp)]
    simp [enumIdx]
  | cons d rest =>
    rw [hshape] at hsfsge
    apply fill_to_shape_forced
    · simp only [Arr.rank, List.length_map, List.length_zip, List.length_cons] at *
      omega
    · show (((d :: rest).zip sfs).map (fun p => p.1 + 1 - p.2)).prod ≤ _
      split
    -- the positive branch enumerates one window per corner, one corner per
    -- `shape - padded_shape + 1` position along each axis
      · rw [List.length_map, enumIdx_length]
        exact prod_map_le _
      · rw [List.length_replicate]

lemma find_valid [Inhabited α] [DecidableEq α] {fill : Option α} {sf s : Arr α}
    (hs : s.valid) {out : Arr Nat} (hout : Arr.find fill sf s = .ok out) :
    out.valid := by
  unfold Arr.find at hout
  dsimp only at hout
  split at hout
  · cases fill with
    | none =>
      have hout2 : (.ok (⟨s.shape, List.replicate s.element_count 0⟩ : Arr Nat) :
          Except String (Arr Nat)) = .ok out := hout
      simp only [Except.ok.injEq] at hout2
      subst hout2
      show _ = _
      simp only [List.length_replicate]
      exact hs
    | some f =>
      have hsv : (fill_to_shape f
          (s.shape.modifyHead (fun _ => sf.row_count)) s).valid := by
        have hlen : (s.shape.modifyHead fun _ => sf.row_count).length = s.rank := by
          simp [Arr.rank]
        obtain ⟨h1, h2⟩ := fill_to_shape_spec f _ s hs hlen
        show _ = _
        rw [h1, h2]
      exact findCore_valid hsv hout
  · exact findCore_valid hs hout

lemma take1_ok_spec {fill : Option α} {taking : Int} {a : Arr α} (h : a.valid)
    {s : Nat} {rest : List Nat} (hsh : a.shape = s :: rest) {out : Arr α}
    (hout : a.take1 fill taking = .ok out) :
    out.valid ∧ out.shape =
      (if s < taking.natAbs then taking.natAbs else min s taking.natAbs) :: rest := by
  unfold Arr.take1 at hout
  have hrc : a.row_count = s := by simp [Arr.row_count, hsh]
  have hrl : a.row_len = rest.prod := by simp [Arr.row_len, hsh]
  have hlen : a.data.length = s * rest.prod := by rw [h, hsh, List.prod_cons]
  rw [hsh] at hout
  by_cases hsign : 0 ≤ taking
  · rw [if_pos hsign] at hout
    by_cases hlt : a.row_count < taking.natAbs
    · rw [if_pos hlt] at hout
      cases fill with
      | none => exact absurd hout (by simp [bind_err])
      | some f =>
        have hout2 : Except.ok (⟨taking.natAbs :: rest,
            a.data ++ List.replicate ((taking.natAbs - a.row_count) * a.row_len) f⟩ :
            Arr α) = .ok out := hout
        simp only [Except.ok.injEq] at hout2
        subst hout2
        rw [hrc] at hlt
        refine ⟨?_, by rw [if_pos hlt]⟩
        show _ = _
        simp only [List.length_append, List.length_replicate, List.prod_cons]
        rw [hlen, hrc, hrl, Nat.sub_mul]
        have hm : s * rest.prod ≤ taking.natAbs * rest.prod :=
          Nat.mul_le_mul_right _ (le_of_lt hlt)
        omega
    · rw [if_neg hlt] at hout
      have hout2 : Except.ok (⟨min s taking.natAbs :: rest,
          a.data.take (taking.natAbs * a.row_len)⟩ : Arr α) = .ok out := hout
      simp only [Except.ok.injEq] at hout2
      subst hout2
      rw [hrc] at hlt
      push_neg at hlt
      refine ⟨?_, by rw [if_neg (not_lt.mpr hlt)]⟩
      show _ = _
      simp only [List.length_take, List.prod_cons]
      rw [hlen, hrl, Nat.min_eq_right hlt]
      have h1 : taking.natAbs * rest.prod ≤ s * rest.prod :=
        Nat.mul_le_mul_right _ hlt
      omega
  · rw [if_neg hsign] at hout
    by_cases hlt : a.row_count < taking.natAbs
    · rw [if_pos hlt] at hout
      cases fill with
      | none => exact absurd hout (by simp [bind_err])
      | some f =>
        have hout2 : Except.ok (⟨taking.natAbs :: rest,
            List.replicate ((taking.natAbs - a.row_count) * a.row_len) f ++ a.data⟩ :
            Arr α) = .ok out := hout
        simp only [Except.ok.injEq] at hout2
        subst hout2
        rw [hrc] at hlt
        refine ⟨?_, by rw [if_pos hlt]⟩
        show _ = _
        simp only [List.length_append, List.length_replicate, List.prod_cons]
        rw [hlen, hrc, hrl, Nat.sub_mul]
        have hm : s * rest.prod ≤ taking.natAbs * rest.prod :=
          Nat.mul_le_mul_right _ (le_of_lt hlt)
        omega
    · rw [if_neg hlt] at hout
      have hout2 : Except.ok (⟨min s taking.natAbs :: rest,
          a.data.drop ((a.row_count - taking.natAbs) * a.row_len)⟩ : Arr α) =
          .ok out := hout
      simp only [Except.ok.injEq] at hout2
      subst hout2
      rw [hrc] at hlt
      push_neg at hlt
      refine ⟨?_, by rw [if_neg (not_lt.mpr hlt)]⟩
      show _ = _
      simp only [List.length_drop, List.prod_cons]
      rw [hlen, hrc, hrl, Nat.sub_mul, Nat.min_eq_right hlt]
      have h1 : taking.natAbs * rest.prod ≤ s * rest.prod :=
        Nat.mul_le_mul_right _ hlt
      omega

lemma take_branch_pos_spec [Inhabited α] {fill : Option α} {t : Int} {sub : List Int}
    (hsub : ∀ (y : Arr α), y.valid → y.shape ≠ [] → ∀ outy : Arr α,
      Arr.take fill sub y = .ok outy →
      outy.valid ∧ ∀ (z outz : Arr α), z.valid → z.shape = y.shape →
        Arr.take fill sub z = .ok outz → outz.shape = outy.shape)
    {s : Nat} {rest : List Nat} (hrest : rest ≠ [])
    {x : Arr α} (hxv : x.valid) (hxsh : x.shape = s :: rest) {outx : Arr α}
    (hout : ((x.rows.take t.natAbs).mapM (Arr.take fill sub) >>= fun new_rows =>
      if (from_row_arrays_infallible new_rows).row_count < t.natAbs then
        match fill with
        | some f => Except.ok (⟨(from_row_arrays_infallible new_rows).shape,
            (from_row_arrays_infallible new_rows).data ++
            List.replicate ((t.natAbs - (from_row_arrays_infallible new_rows).row_count) *
              (from_row_arrays_infallible new_rows).row_len) f⟩ : Arr α) >>= fun y =>
            Except.ok (⟨y.shape.modifyHead (fun _ => t.natAbs), y.data⟩ : Arr α)
        | none => (Except.error "Cannot take outside a fill context" :
            Except String (Arr α)) >>= fun y =>
            Except.ok (⟨y.shape.modifyHead (fun _ => t.natAbs), y.data⟩ : Arr α)
      else Except.ok (from_row_arrays_infallible new_rows) >>= fun y =>
        Except.ok (⟨y.shape.modifyHead (fun _ => t.natAbs), y.data⟩ : Arr α)) =
      .ok outx) :
    outx.valid ∧ ∃ nr, List.Forall₂ (fun r y => Arr.take fill sub r = .ok y)
      (x.rows.take t.natAbs) nr ∧
      outx.shape = (from_row_arrays_infallible nr).shape.modifyHead
        (fun _ => t.natAbs) := by
  obtain ⟨new_rows, hmap, hout2⟩ := bind_eq_ok hout
  have hfa := mapM_ok_forall hmap
  have hrowsh : ∀ r ∈ x.rows, r.shape = rest := by
    intro r hr
    rw [rows_shape hr, hxsh]
    rfl
  have hval_nr : ∀ r ∈ new_rows, r.valid := by
    intro r hr
    obtain ⟨xr, hxr, hrr⟩ := forall₂_mem_right hfa r hr
    have hxm := List.mem_of_mem_take hxr
    exact (hsub xr (rows_valid hxv hxm) (by rw [hrowsh xr hxm]; exact hrest) r hrr).1
  have hsh_nr : ∀ r ∈ new_rows, ∀ r2 ∈ new_rows, r.shape = r2.shape := by
    intro r hr r2 hr2
    obtain ⟨xr, hxr, hrr⟩ := forall₂_mem_right hfa r hr
    obtain ⟨x2, hx2, hrr2⟩ := forall₂_mem_right hfa r2 hr2
    have hxm := List.mem_of_mem_take hxr
    have hxm2 := List.mem_of_mem_take hx2
    have hP := hsub xr (rows_valid hxv hxm) (by rw [hrowsh xr hxm]; exact hrest) r hrr
    exact (hP.2 x2 r2 (rows_valid hxv hxm2)
      (by rw [hrowsh x2 hxm2, hrowsh xr hxm]) hrr2).symm
  set arr := from_row_arrays_infallible new_rows with harrdef
  have harr_v : arr.valid := from_row_arrays_infallible_valid hval_nr hsh_nr
  have harr_rc : arr.row_count = new_rows.length :=
    from_row_arrays_infallible_row_count _
  have hlen_nr : new_rows.length ≤ t.natAbs := by
    rw [← hfa.length_eq]
    exact List.length_take_le _ _
  have harr_ne : arr.shape ≠ [] := by
    rw [harrdef]
    cases new_rows <;> simp [from_row_arrays_infallible]
  obtain ⟨x0, xs0, hashape⟩ : ∃ x0 xs0, arr.shape = x0 :: xs0 := by
    cases hc : arr.shape with
    | nil => exact absurd hc harr_ne
    | cons x0 xs0 => exact ⟨x0, xs0, rfl⟩
  have hx0 : x0 = arr.row_count := by simp [Arr.row_count, hashape]
  have harr_rl : arr.row_len = xs0.prod := by simp [Arr.row_len, hashape]
  have harr_len : arr.data.length = x0 * xs0.prod := by
    rw [show arr.data.length = arr.shape.prod from harr_v, hashape, List.prod_cons]
  split at hout2
  · rename_i hlt
    cases fill with
    | none => exact absurd hout2 (by simp [bind_err])
    | some f =>
      have hout3 : Except.ok (⟨arr.shape.modifyHead (fun _ => t.natAbs),
          arr.data ++ List.replicate ((t.natAbs - arr.row_count) * arr.row_len) f⟩ :
          Arr α) = .ok outx := hout2
      simp only [Except.ok.injEq] at hout3
      subst hout3
      refine ⟨?_, new_rows, hfa, rfl⟩
      show _ = _
      dsimp only
      rw [hashape]
      simp only [List.modifyHead_cons, List.prod_cons, List.length_append,
        List.length_replicate]
      rw [harr_len, harr_rl, ← hx0, Nat.sub_mul]
      have hm : x0 * xs0.prod ≤ t.natAbs * xs0.prod :=
        Nat.mul_le_mul_right _ (le_of_lt (hx0 ▸ hlt))
      omega
  · rename_i hge
    have hout3 : Except.ok (⟨arr.shape.modifyHead (fun _ => t.natAbs),
        arr.data⟩ : Arr α) = .ok outx := hout2
    simp only [Except.ok.injEq] at hout3
    subst hout3
    refine ⟨?_, new_rows, hfa, rfl⟩
    have hrc_eq : arr.row_count = t.natAbs := by omega
    show _ = _
    dsimp only
    rw [hashape]
    simp only [List.modifyHead_cons, List.prod_cons]
    rw [harr_len, hx0, hrc_eq]

lemma take_branch_neg_spec [Inhabited α] {fill : Option α} {t : Int} {sub : List Int}
    (hsub : ∀ (y : Arr α), y.valid → y.shape ≠ [] → ∀ outy : Arr α,
      Arr.take fill sub y = .ok outy →
      outy.valid ∧ ∀ (z outz : Arr α), z.valid → z.shape = y.shape →
        Arr.take fill sub z = .ok outz → outz.shape = outy.shape)
    {s : Nat} {rest : List Nat} (hrest : rest ≠ [])
    {x : Arr α} (hxv : x.valid) (hxsh : x.shape = s :: rest) {outx : Arr α}
    (hout : ((x.rows.drop (x.row_count - t.natAbs)).mapM (Arr.take fill sub) >>=
      fun new_rows =>
      if (from_row_arrays_infallible new_rows).row_count < t.natAbs then
        match fill with
        | some f => Except.ok (⟨(from_row_arrays_infallible new_rows).shape,
            List.replicate ((t.natAbs - (from_row_arrays_infallible new_rows).row_count) *
              (from_row_arrays_infallible new_rows).row_len) f ++
            (from_row_arrays_infallible new_rows).data⟩ : Arr α) >>= fun y =>
            Except.ok (⟨y.shape.modifyHead (fun _ => t.natAbs), y.data⟩ : Arr α)
        | none => (Except.error "Cannot take outside a fill context" :
            Except String (Arr α)) >>= fun y =>
            Except.ok (⟨y.shape.modifyHead (fun _ => t.natAbs), y.data⟩ : Arr α)
      else Except.ok (from_row_arrays_infallible new_rows) >>= fun y =>
        Except.ok (⟨y.shape.modifyHead (fun _ => t.natAbs), y.data⟩ : Arr α)) =
      .ok outx) :
    outx.valid ∧ ∃ nr, List.Forall₂ (fun r y => Arr.take fill sub r = .ok y)
      (x.rows.drop (x.row_count - t.natAbs)) nr ∧
      outx.shape = (from_row_arrays_infallible nr).shape.modifyHead
        (fun _ => t.natAbs) := by
  obtain ⟨new_rows, hmap, hout2⟩ := bind_eq_ok hout
  have hfa := mapM_ok_forall hmap
  have hrowsh : ∀ r ∈ x.rows, r.shape = rest := by
    intro r hr
    rw [rows_shape hr, hxsh]
    rfl
  have hval_nr : ∀ r ∈ new_rows, r.valid := by
    intro r hr
    obtain ⟨xr, hxr, hrr⟩ := forall₂_mem_right hfa r hr
    have hxm := List.drop_subset _ _ hxr
    exact (hsub xr (rows_valid hxv hxm) (by rw [hrowsh xr hxm]; exact hrest) r hrr).1
  have hsh_nr : ∀ r ∈ new_rows, ∀ r2 ∈ new_rows, r.shape = r2.shape := by
    intro r hr r2 hr2
    obtain ⟨xr, hxr, hrr⟩ := forall₂_mem_right hfa r hr
    obtain ⟨x2, hx2, hrr2⟩ := forall₂_mem_right hfa r2 hr2
    have hxm := List.drop_subset _ _ hxr
    have hxm2 := List.drop_subset _ _ hx2
    have hP := hsub xr (rows_valid hxv hxm) (by rw [hrowsh xr hxm]; exact hrest) r hrr
    exact (hP.2 x2 r2 (rows_valid hxv hxm2)
      (by rw [hrowsh x2 hxm2, hrowsh xr hxm]) hrr2).symm
  set arr := from_row_arrays_infallible new_rows with harrdef
  have harr_v : arr.valid := from_row_arrays_infallible_valid hval_nr hsh_nr
  have harr_rc : arr.row_count = new_rows.length :=
    from_row_arrays_infallible_row_count _
  have hlen_nr : new_rows.length = x.row_count - (x.row_count - t.natAbs) := by
    rw [← hfa.length_eq]
    simp only [List.length_drop, rows_length]
  have harr_ne : arr.shape ≠ [] := by
    rw [harrdef]
    cases new_rows <;> simp [from_row_arrays_infallible]
  obtain ⟨x0, xs0, hashape⟩ : ∃ x0 xs0, arr.shape = x0 :: xs0 := by
    cases hc : arr.shape with
    | nil => exact absurd hc harr_ne
    | cons x0 xs0 => exact ⟨x0, xs0, rfl⟩
  have hx0 : x0 = arr.row_count := by simp [Arr.row_count, hashape]
  have harr_rl : arr.row_len = xs0.prod := by simp [Arr.row_len, hashape]
  have harr_len : arr.data.length = x0 * xs0.prod := by
    rw [show arr.data.length = arr.shape.prod from harr_v, hashape, List.prod_cons]
  split at hout2
  · rename_i hlt
    cases fill with
    | none => exact absurd hout2 (by simp [bind_err])
    | some f =>
      have hout3 : Except.ok (⟨arr.shape.modifyHead (fun _ => t.natAbs),
          List.replicate ((t.natAbs - arr.row_count) * arr.row_len) f ++
            arr.data⟩ : Arr α) = .ok outx := hout2
      simp only [Except.ok.injEq] at hout3
      subst hout3
      refine ⟨?_, new_rows, hfa, rfl⟩
      show _ = _
      dsimp only
      rw [hashape]
      simp only [List.modifyHead_cons, List.prod_cons, List.length_append,
        List.length_replicate]
      rw [harr_len, harr_rl, ← hx0, Nat.sub_mul]
      have hm : x0 * xs0.prod ≤ t.natAbs * xs0.prod :=
        Nat.mul_le_mul_right _ (le_of_lt (hx0 ▸ hlt))
      omega
  · rename_i hge
    have hout3 : Except.ok (⟨arr.shape.modifyHead (fun _ => t.natAbs),
        arr.data⟩ : Arr α) = .ok outx := hout2
    simp only [Except.ok.injEq] at hout3
    subst hout3
    refine ⟨?_, new_rows, hfa, rfl⟩
    have habs : x0 = t.natAbs := by omega
    show _ = _
    dsimp only
    rw [hashape]
    simp only [List.modifyHead_cons, List.prod_cons]
    rw [harr_len, habs]

lemma take_ok_spec [Inhabited α] {fill : Option α} : ∀ (index : List Int) (a : Arr α),
    a.valid → a.shape ≠ [] → ∀ out : Arr α, Arr.take fill index a = .ok out →
    out.valid ∧ ∀ (b outb : Arr α), b.valid → b.shape = a.shape →
      Arr.take fill index b = .ok outb → outb.shape = out.shape := by
  intro index
  induction index with
  | nil =>
    intro a hv hne out hout
    simp only [Arr.take, Except.ok.injEq] at hout
    subst hout
    refine ⟨hv, ?_⟩
    intro b outb hbv hbsh hb
    simp only [Arr.take, Except.ok.injEq] at hb
    subst hb
    exact hbsh
  | cons t tail ih =>
    intro a hv hne out hout
    obtain ⟨s, rest, hsh⟩ : ∃ s rest, a.shape = s :: rest := by
      cases hcs : a.shape with
      | nil => exact absurd hcs hne
      | cons s rest => exact ⟨s, rest, rfl⟩
    cases tail with
    | nil =>
      rw [show Arr.take fill [t] a = a.take1 fill t from rfl] at hout
      obtain ⟨hov, hosh⟩ := take1_ok_spec hv hsh hout
      refine ⟨hov, ?_⟩
      intro b outb hbv hbsh hb
      rw [show Arr.take fill [t] b = b.take1 fill t from rfl] at hb
      obtain ⟨_, hbsh3⟩ := take1_ok_spec hbv (hbsh.trans hsh) hb
      rw [hbsh3, hosh]
    | cons u tail2 =>
      by_cases hrk : a.rank < (t :: u :: tail2).length
      · unfold Arr.take at hout
        rw [if_pos hrk] at hout
        exact absurd hout (by simp)
      · have hrest_ne : rest ≠ [] := by
          intro hcon
          apply hrk
          simp only [Arr.rank, hsh, hcon, List.length_cons, List.length_nil,
            List.length_singleton]
          omega
        unfold Arr.take at hout
        rw [if_neg hrk] at hout
        dsimp only at hout
        by_cases hall :
            ((u :: tail2).zip (a.shape.drop 1)).all (fun p => p.1.natAbs == p.2) = true
        · rw [if_pos hall] at hout
          obtain ⟨hov, hosh⟩ := take1_ok_spec hv hsh hout
          refine ⟨hov, ?_⟩
          intro b outb hbv hbsh hb
          have hbrk : ¬ (b.rank < (t :: u :: tail2).length) := by
            have hbr : b.rank = a.rank := by simp [Arr.rank, hbsh]
            rw [hbr]
            exact hrk
          unfold Arr.take at hb
          rw [if_neg hbrk] at hb
          dsimp only at hb
          rw [hbsh, if_pos hall] at hb
          obtain ⟨_, hbsh3⟩ := take1_ok_spec hbv (hbsh.trans hsh) hb
          rw [hbsh3, hosh]
        · rw [if_neg hall] at hout
          by_cases hsign : 0 ≤ t
          · rw [if_pos hsign] at hout
            obtain ⟨hov, nra, hfa, hosh⟩ := take_branch_pos_spec ih hrest_ne hv hsh hout
            refine ⟨hov, ?_⟩
            intro b outb hbv hbsh hb
            have hbrk : ¬ (b.rank < (t :: u :: tail2).length) := by
              have hbr : b.rank = a.rank := by simp [Arr.rank, hbsh]
              rw [hbr]
              exact hrk
            unfold Arr.take at hb
            rw [if_neg hbrk] at hb
            dsimp only at hb
            rw [hbsh, if_neg hall, if_pos hsign] at hb
            obtain ⟨_, nrb, hfb, hbshape⟩ :=
              take_branch_pos_spec ih hrest_ne hbv (hbsh.trans hsh) hb
            rw [hbshape, hosh]
            congr 1
            have hlen_eq : nrb.length = nra.length := by
              rw [← hfb.length_eq, ← hfa.length_eq]
              simp only [List.length_take, rows_length]
              rw [show b.row_count = a.row_count from by simp [Arr.row_count, hbsh]]
            cases hna : nra with
            | nil =>
              have hb0 : nrb = [] :=
                List.eq_nil_of_length_eq_zero (by rw [hlen_eq, hna]; rfl)
              rw [hb0]
            | cons ra ras =>
              cases hnb : nrb with
              | nil =>
                rw [hna, hnb] at hlen_eq
                simp at hlen_eq
              | cons rb rbs =>
                rw [hna] at hfa
                rw [hnb] at hfb
                rw [List.forall₂_cons_right_iff] at hfa hfb
                obtain ⟨xa, xas, hraok, _, hae⟩ := hfa
                obtain ⟨xb, xbs, hrbok, _, hbe⟩ := hfb
                have hxa_m : xa ∈ a.rows :=
                  List.mem_of_mem_take (hae ▸ List.mem_cons_self xa xas)
                have hxb_m : xb ∈ b.rows :=
                  List.mem_of_mem_take (hbe ▸ List.mem_cons_self xb xbs)
                have hxash : xa.shape = rest := by
                  rw [rows_shape hxa_m, hsh]
                  rfl
                have hxbsh : xb.shape = rest := by
                  rw [rows_shape hxb_m, hbsh, hsh]
                  rfl
                have hP := ih xa (rows_valid hv hxa_m)
                  (by rw [hxash]; exact hrest_ne) ra hraok
                have hshab : rb.shape = ra.shape :=
                  hP.2 xb rb (rows_valid hbv hxb_m) (by rw [hxbsh, hxash]) hrbok
                have hlen2 : rbs.length = ras.length := by
                  rw [hna, hnb] at hlen_eq
                  simpa using hlen_eq
                simp [from_row_arrays_infallible, hshab, hlen2]
          · rw [if_neg hsign] at hout
            obtain ⟨hov, nra, hfa, hosh⟩ := take_branch_neg_spec ih hrest_ne hv hsh hout
            refine ⟨hov, ?_⟩
            intro b outb hbv hbsh hb
            have hbrk : ¬ (b.rank < (t :: u :: tail2).length) := by
              have hbr : b.rank = a.rank := by simp [Arr.rank, hbsh]
              rw [hbr]
              exact hrk
            unfold Arr.take at hb
            rw [if_neg hbrk] at hb
            dsimp only at hb
            rw [hbsh, if_neg hall, if_neg hsign] at hb
            obtain ⟨_, nrb, hfb, hbshape⟩ :=
              take_branch_neg_spec ih hrest_ne hbv (hbsh.trans hsh) hb
            rw [hbshape, hosh]
            congr 1
            have hrcab : b.row_count = a.row_count := by simp [Arr.row_count, hbsh]
            have hlen_eq : nrb.length = nra.length := by
              rw [← hfb.length_eq, ← hfa.length_eq]
              simp only [List.length_drop, rows_length]
              rw [hrcab]
            cases hna : nra with
            | nil =>
              have hb0 : nrb = [] :=
                List.eq_nil_of_length_eq_zero (by rw [hlen_eq, hna]; rfl)
              rw [hb0]
            | cons ra ras =>
              cases hnb : nrb with
              | nil =>
                rw [hna, hnb] at hlen_eq
                simp at hlen_eq
              | cons rb rbs =>
                rw [hna] at hfa
                rw [hnb] at hfb
                rw [List.forall₂_cons_right_iff] at hfa hfb
                obtain ⟨xa, xas, hraok, _, hae⟩ := hfa
                obtain ⟨xb, xbs, hrbok, _, hbe⟩ := hfb
                have hxa_m : xa ∈ a.rows :=
                  List.drop_subset _ _ (hae ▸ List.mem_cons_self xa xas)
                have hxb_m : xb ∈ b.rows :=
                  List.drop_subset _ _ (hbe ▸ List.mem_cons_self xb xbs)
                have hxash : xa.shape = rest := by
                  rw [rows_shape hxa_m, hsh]
                  rfl
                have hxbsh : xb.shape = rest := by
                  rw [rows_shape hxb_m, hbsh, hsh]
                  rfl
                have hP := ih xa (rows_valid hv hxa_m)
                  (by rw [hxash]; exact hrest_ne) ra hraok
                have hshab : rb.shape = ra.shape :=
                  hP.2 xb rb (rows_valid hbv hxb_m) (by rw [hxbsh, hxash]) hrbok
                have hlen2 : rbs.length = ras.length := by
                  rw [hna, hnb] at hlen_eq
                  simpa using hlen_eq
                simp [from_row_arrays_infallible, hshab, hlen2]

/-- **C2.** Every array returned by the operations of the suite — reshape
(scalar and list forms), keep (scalar and list forms), rotate, windows, find
(with or without a fill context), take, drop, select, and the undo forms
unreshape, unrerank, unkeep, untake, undrop and unselect — satisfies the
live-array invariant:
the backing buffer's length equals the product of the dimensions of the
returned shape (given valid inputs; take is invoked on non-scalar arrays
only, as `Value::take` rejects scalars, and a select index value carries a
buffer matching its own shape). -/
theorem suite_preserves_shape_invariant :
    ∀ (α : Type) [Inhabited α] [DecidableEq α],
    (∀ (a : Arr α) (count : Nat), a.valid → (a.reshape_scalar count).valid) ∧
    (∀ (fill : Option α) (dims : List Int) (a out : Arr α), a.valid →
      a.reshape fill dims = .ok out → out.valid) ∧
    (∀ (old : ShapeArg) (a out : Arr α), a.valid →
      unreshape old a = .ok out → out.valid) ∧
    (∀ (r : Int) (orig : List Nat) (a out : Arr α), a.valid →
      unrerank r orig a = .ok out → out.valid) ∧
    (∀ (count : Nat) (a : Arr α), a.valid → (a.scalar_keep count).valid) ∧
    (∀ (cf : Option ℚ) (counts : List Nat) (a out : Arr α), a.valid →
      a.list_keep cf counts = .ok out → out.valid) ∧
    (∀ (counts : List Nat) (a into out : Arr α), a.valid → into.valid →
      a.unkeep counts into = .ok out → out.valid) ∧
    (∀ (fill : Option α) (offsets : List Int) (a out : Arr α), a.valid →
      a.rotate fill offsets = .ok out → out.valid) ∧
    (∀ (spec : List Int) (a out : Arr α), a.valid →
      a.windows spec = .ok out → out.valid) ∧
    (∀ (fill : Option α) (sf s : Arr α) (out : Arr Nat), s.valid →
      Arr.find fill sf s = .ok out → out.valid) ∧
    (∀ (fill : Option α) (index : List Int) (a out : Arr α), a.valid →
      a.shape ≠ [] → Arr.take fill index a = .ok out → out.valid) ∧
    (∀ (index : List Int) (a out : Arr α), a.valid →
      Arr.drop index a = .ok out → out.valid) ∧
    (∀ (index : List Int) (from_ into out : Arr α), from_.valid → into.valid →
      from_.untake index into = .ok out → out.valid) ∧
    (∀ (index : List Int) (from_ into out : Arr α), from_.valid → into.valid →
      from_.undrop index into = .ok out → out.valid) ∧
    (∀ (fill : Option α) (ishape : List Nat) (ind : List Int) (a out : Arr α),
      a.valid → ind.length = ishape.prod →
      Arr.select_impl fill ishape ind a = .ok out → out.valid) ∧
    (∀ (ishape : List Nat) (ind : List Int) (a into out : Arr α), into.valid →
      unselect ishape ind a into = .ok out → out.valid) := by
  intro α _ _
  refine ⟨?_, ?_, ?_, ?_, ?_, ?_, ?_, ?_, ?_, ?_, ?_, ?_, ?_, ?_, ?_, ?_⟩
  · exact fun a count h => reshape_scalar_valid count h
  · exact fun fill dims a out h hout => reshape_valid h hout
  · exact fun old a out h hout => unreshape_valid h hout
  · exact fun r orig a out h hout => unrerank_valid h hout
  · exact fun count a h => scalar_keep_valid count h
  · exact fun cf counts a out h hout => list_keep_valid h hout
  · exact fun counts a into out ha hi hout => unkeep_valid ha hi hout
  · exact fun fill offsets a out h hout => rotate_valid h hout
  · exact fun spec a out h hout => windows_valid h hout
  · exact fun fill sf s out h hout => find_valid h hout
  · exact fun fill index a out h hne hout => (take_ok_spec index a h hne out hout).1
  · exact fun index a out h hout => drop_valid index a h out hout
  · exact fun index f i out hf hi hout => untake_valid hf hi hout
  · exact fun index f i out hf hi hout => undrop_valid hf hi hout
  · exact fun fill ishape ind a out h hind hout =>
      select_impl_valid ishape ind a h hind out hout
  · exact fun ishape ind a into out h hout => unselect_valid h hout

theorem suite_preserves_shape_invariant_witness :
    ((⟨[2], [5, 6]⟩ : Arr Nat).reshape_scalar 3).valid ∧
    ((⟨[3], [1, 0, 1]⟩ : Arr Nat).scalar_keep 2).valid ∧
    (Arr.find (α := Nat) (some 9) ⟨[2], [1, 2]⟩ ⟨[1], [1]⟩ = .ok ⟨[2], [0, 0]⟩ ∧
      (⟨[2], [0, 0]⟩ : Arr Nat).valid) ∧
    (Arr.take (α := Nat) none [(1 : Int)] ⟨[2], [7, 8]⟩ = .ok ⟨[1], [7]⟩ ∧
      (⟨[1], [7]⟩ : Arr Nat).valid) ∧
    (Arr.drop (α := Nat) [(1 : Int)] ⟨[2], [7, 8]⟩ = .ok ⟨[1], [8]⟩ ∧
      (⟨[1], [8]⟩ : Arr Nat).valid) := by
  refine ⟨?_, ?_, ⟨by decide, ?_⟩, ⟨by decide, ?_⟩, ⟨by decide, ?_⟩⟩
  · exact (suite_preserves_shape_invariant Nat).1 ⟨[2], [5, 6]⟩ 3 (by decide)
  · exact (suite_preserves_shape_invariant
      Nat).2.2.2.2.1 2 ⟨[3], [1, 0, 1]⟩ (by decide)
  · exact (suite_preserves_shape_invariant
      Nat).2.2.2.2.2.2.2.2.2.1 (some 9) ⟨[2], [1, 2]⟩ ⟨[1], [1]⟩ ⟨[2], [0, 0]⟩
      (by decide) (by decide)
  · exact (suite_preserves_shape_invariant
      Nat).2.2.2.2.2.2.2.2.2.2.1 none [(1 : Int)] ⟨[2], [7, 8]⟩ ⟨[1], [7]⟩
      (by decide) (by decide) (by decide)
  · exact (suite_preserves_shape_invariant
      Nat).2.2.2.2.2.2.2.2.2.2.2.1 [(1 : Int)] ⟨[2], [7, 8]⟩ ⟨[1], [8]⟩
      (by decide) (by decide)

end Uiua
